import Mathlib

/-!
# A verification development for `dnd` (src/main.go)

The program is a sequential menu loop over a slice of `Character` records with
whole-file JSON persistence.  The interactive collaborators (the `huh` forms) are
modelled by what they hand to the code: the texts bound to the form values, the
outcome of each prompt, and the confirmation flag.  Go strings are byte sequences,
Go `int` is the 64-bit two's complement integer, and a Go slice is a sequence that
is either `nil` or allocated.

The functions of src/main.go (`createCharacter`, `deleteCharacter`, `loadCharacters`,
`saveCharacters`, the loop of `main`) are embedded from the source.  The functions of the
Go standard library they call are modelled after the library: `strconv.Atoi` with its
fast path and `ParseInt`, `strings.TrimSpace` with `unicode/utf8`, and `encoding/json`
for the type `[]Character`.  `loadCharacters`, `saveCharacters` and the main loop take
the JSON codec as a parameter; the round trip instantiates it with the model.

Definitions come first, theorems after.
-/

namespace Dnd

/-! ## Bytes, strings, integers, slices -/

/-- One byte of a Go string. -/
abbrev Byte := Fin 256

/-- A Go string: an immutable sequence of bytes (not necessarily valid UTF-8). -/
abbrev GoString := List Byte

/-- The byte string of a text, each character taken by its code (the UTF-8 bytes of an
ASCII text); used to write texts down readably. -/
def ascii (s : String) : GoString := s.toList.map (fun c => Fin.ofNat c.toNat)

/-- Size in bits of Go's `int` (`strconv.IntSize`) on the 64-bit targets. -/
def intSize : Nat := 64

/-- Two's complement wrap-around of a mathematical integer to a signed 64-bit value. -/
def wrapInt64 (x : Int) : Int := (x + 2 ^ 63) % 2 ^ 64 - 2 ^ 63

/-- Wrap-around of a natural number to an unsigned 64-bit value. -/
def wrapUint64 (x : Nat) : Nat := x % 2 ^ 64

/-- A value of Go's `int` is an integer in `[-2^63, 2^63)`. -/
def InIntRange (v : Int) : Prop := -(2 : Int) ^ 63 ≤ v ∧ v < (2 : Int) ^ 63

instance (v : Int) : Decidable (InIntRange v) := by unfold InIntRange; infer_instance

/-- A Go slice: `none` is the `nil` slice, `some xs` an allocated slice holding `xs`. -/
abbrev Slice (α : Type) := Option (List α)

/-- The elements of a slice, in order (`nil` has none). -/
def Slice.toList {α : Type} : Slice α → List α
  | none => []
  | some xs => xs

/-- Go's `len(s)`. -/
def Slice.len {α : Type} (s : Slice α) : Nat := s.toList.length

/-- Go's `append(s, x)`: the result is always allocated. -/
def Slice.append {α : Type} (s : Slice α) (x : α) : Slice α := some (s.toList ++ [x])

/-! ## strconv.Atoi -/

/-- The two kinds of `*strconv.NumError` that `Atoi` reports. -/
inductive NumError where
  | ErrSyntax
  | ErrRange
  deriving DecidableEq, Repr

/-- The loop of the fast path of `strconv.Atoi`:
`for _, ch := range []byte(s) { ch -= '0'; if ch > 9 { return 0, syntaxError }; n = n*10 + int(ch) }`.
The byte subtraction wraps modulo 256, the `int` arithmetic modulo 2^64. -/
def atoiFastLoop : List Byte → Int → Option Int
  | [], n => some n
  | ch :: rest, n =>
    let d : Nat := (ch.val + 256 - 48) % 256
    if d > 9 then none else atoiFastLoop rest (wrapInt64 (n * 10 + (d : Int)))

/-- Go's `lower(c) = c | ('x' - 'X')` on a byte. -/
def lower (c : Nat) : Nat := c ||| 0x20

/-- The digit loop of `strconv.ParseUint(s, 10, 0)`, on `uint64` arithmetic, with
`cutoff = maxUint64/10 + 1` and `maxVal = 1<<64 - 1`.  Returns the value and the error. -/
def parseUintLoop (cutoff maxVal : Nat) : List Byte → Nat → Nat × Option NumError
  | [], n => (n, none)
  | c :: rest, n =>
    let digit : Option Nat :=
      if 48 ≤ c.val ∧ c.val ≤ 57 then some (c.val - 48)
      else if 97 ≤ lower c.val ∧ lower c.val ≤ 122 then some (lower c.val - 97 + 10)
      else none
    match digit with
    | none => (0, some NumError.ErrSyntax)
    | some d =>
      if d ≥ 10 then (0, some NumError.ErrSyntax)
      else if n ≥ cutoff then (maxVal, some NumError.ErrRange)
      else
        let n' := wrapUint64 (n * 10)
        let n1 := wrapUint64 (n' + d)
        if n1 < n' ∨ n1 > maxVal then (maxVal, some NumError.ErrRange)
        else parseUintLoop cutoff maxVal rest n1

/-- Go's `strconv.ParseUint(s, 10, 0)` (base 10, `bitSize` 0 meaning `IntSize`). -/
def ParseUint (s : GoString) : Nat × Option NumError :=
  if s = [] then (0, some NumError.ErrSyntax)
  else
    let maxUint64 : Nat := 2 ^ 64 - 1
    let cutoff := maxUint64 / 10 + 1
    let maxVal := 2 ^ intSize - 1
    parseUintLoop cutoff maxVal s 0

/-- Go's `strconv.ParseInt(s, 10, 0)`: picks off a leading sign, converts the rest as
unsigned and checks the signed range. -/
def ParseInt (s : GoString) : Int × Option NumError :=
  match s with
  | [] => (0, some NumError.ErrSyntax)
  | c :: t =>
    let neg : Bool := c = 45
    let s1 : GoString := if c = 43 then t else if c = 45 then t else s
    let (un, err) := ParseUint s1
    if err = some NumError.ErrSyntax then (0, err)
    else
      let cutoff : Nat := 2 ^ (intSize - 1)
      if !neg ∧ un ≥ cutoff then (((cutoff - 1 : Nat) : Int), some NumError.ErrRange)
      else if neg ∧ un > cutoff then (-(cutoff : Int), some NumError.ErrRange)
      else
        let n := wrapInt64 (un : Int)
        (if neg then wrapInt64 (-n) else n, none)

/-- The body of `ParseInt` once the sign is picked off (`neg`) and `s1` is what follows it:
`ParseInt (c :: t)` is `parseIntCore` at the sign and the rest (`ParseInt_cons`). -/
def parseIntCore (neg : Bool) (s1 : GoString) : Int × Option NumError :=
  let r := ParseUint s1
  if r.2 = some NumError.ErrSyntax then (0, r.2)
  else
    let cutoff : Nat := 2 ^ (intSize - 1)
    if !neg ∧ r.1 ≥ cutoff then (((cutoff - 1 : Nat) : Int), some NumError.ErrRange)
    else if neg ∧ r.1 > cutoff then (-(cutoff : Int), some NumError.ErrRange)
    else (if neg then wrapInt64 (-(wrapInt64 (r.1 : Int))) else wrapInt64 (r.1 : Int), none)

/-- Go's `strconv.Atoi(s)`: value and error (`none` is a nil error).  Short texts take
the fast path, the others go through `ParseInt(s, 10, 0)`. -/
def Atoi (s : GoString) : Int × Option NumError :=
  let sLen := s.length
  if (intSize == 32 && (0 < sLen && sLen < 10)) || (intSize == 64 && (0 < sLen && sLen < 19)) then
    match s with
    | [] => (0, some NumError.ErrSyntax)
    | c :: t =>
      let signed : Bool := c = 45 || c = 43
      let s1 : GoString := if signed then t else s
      if signed ∧ s1.length < 1 then (0, some NumError.ErrSyntax)
      else
        match atoiFastLoop s1 0 with
        | none => (0, some NumError.ErrSyntax)
        | some n => (if c = 45 then wrapInt64 (-n) else n, none)
  else
    ParseInt s

/-- The loop of `FormatInt` on a non-negative number: the decimal digits of `n`, most
significant first, put in front of `acc`.  The first argument bounds the number of
digits; `n + 1` is always enough. -/
def formatDigits : Nat → Nat → List Byte → List Byte
  | 0, _, acc => acc
  | fuel + 1, n, acc =>
    if n / 10 = 0 then Fin.ofNat (48 + n % 10) :: acc
    else formatDigits fuel (n / 10) (Fin.ofNat (48 + n % 10) :: acc)

/-- Go's `strconv.FormatInt(i, 10)` (and `strconv.Itoa`): the decimal text of an integer,
with a leading `-` when negative and no leading zeros. -/
def FormatInt (i : Int) : GoString :=
  if i < 0 then 45 :: formatDigits (i.natAbs + 1) i.natAbs []
  else formatDigits (i.natAbs + 1) i.natAbs []

/-! ## Decimal texts (the reading of "a valid integer") -/

/-- A decimal digit byte, `'0'..'9'`. -/
def isDigit (b : Byte) : Bool := decide (48 ≤ b.val ∧ b.val ≤ 57)

/-- The number a run of digit bytes denotes, continuing from `n` (most significant first). -/
def digitsAcc (n : Nat) (ds : List Byte) : Nat := ds.foldl (fun m b => m * 10 + (b.val - 48)) n

/-- The number a run of digit bytes denotes. -/
def digitsValue (ds : List Byte) : Nat := digitsAcc 0 ds

/-- The integer a text denotes when it is a decimal integer literal: an optional sign
`+` or `-` followed by one or more decimal digits, and nothing else; `none` otherwise. -/
def decimalValue (s : GoString) : Option Int :=
  match s with
  | [] => none
  | c :: t =>
    if c = 43 ∨ c = 45 then
      if t ≠ [] ∧ t.all isDigit = true then
        some (if c = 45 then -(digitsValue t : Int) else (digitsValue t : Int))
      else none
    else if (c :: t).all isDigit = true then some (digitsValue (c :: t) : Int) else none

/-! ## unicode/utf8 and strings.TrimSpace -/

/-- Go's `utf8.RuneError`, U+FFFD. -/
def RuneError : Nat := 0xFFFD

/-- The entry of utf8's `first` table for a lead byte, as the pair (size, accepted range of
the second byte); `none` for the bytes marked `as` (ASCII) or `xx` (invalid lead). -/
def first (b : Nat) : Option (Nat × Nat × Nat) :=
  if b < 0xC2 then none
  else if b ≤ 0xDF then some (2, 0x80, 0xBF)
  else if b = 0xE0 then some (3, 0xA0, 0xBF)
  else if b ≤ 0xEC then some (3, 0x80, 0xBF)
  else if b = 0xED then some (3, 0x80, 0x9F)
  else if b ≤ 0xEF then some (3, 0x80, 0xBF)
  else if b = 0xF0 then some (4, 0x90, 0xBF)
  else if b ≤ 0xF3 then some (4, 0x80, 0xBF)
  else if b = 0xF4 then some (4, 0x80, 0x8F)
  else none

/-- Go's `utf8.DecodeRuneInString`: the first rune of `s` and its width in bytes; an
invalid or short encoding gives `(RuneError, 1)`, the empty string `(RuneError, 0)`.
The masks `b & 0x1F`, `b & 0x3F` and the shifts are written as `%` and `*`. -/
def DecodeRuneInString (s : GoString) : Nat × Nat :=
  match s with
  | [] => (RuneError, 0)
  | s0 :: t =>
    match first s0.val with
    | none => if s0.val < 0x80 then (s0.val, 1) else (RuneError, 1)
    | some (sz, lo, hi) =>
      if s.length < sz then (RuneError, 1)
      else
        match t with
        | [] => (RuneError, 1)
        | s1 :: t1 =>
          if s1.val < lo ∨ hi < s1.val then (RuneError, 1)
          else if sz ≤ 2 then ((s0.val % 32) * 64 + s1.val % 64, 2)
          else
            match t1 with
            | [] => (RuneError, 1)
            | s2 :: t2 =>
              if s2.val < 0x80 ∨ 0xBF < s2.val then (RuneError, 1)
              else if sz ≤ 3 then ((s0.val % 16) * 4096 + (s1.val % 64) * 64 + s2.val % 64, 3)
              else
                match t2 with
                | [] => (RuneError, 1)
                | s3 :: _ =>
                  if s3.val < 0x80 ∨ 0xBF < s3.val then (RuneError, 1)
                  else ((s0.val % 8) * 262144 + (s1.val % 64) * 4096 + (s2.val % 64) * 64
                    + s3.val % 64, 4)

/-- Go's `utf8.RuneStart`: the byte is not a continuation byte. -/
def RuneStart (b : Byte) : Bool := decide (b.val / 64 ≠ 2)

/-- The backward scan of `utf8.DecodeLastRuneInString`: from `start`, at most down to `lim`,
to a byte that could start a rune; `none` stands for the index running below zero. -/
def lastRuneStart (s : GoString) (lim : Nat) : Nat → Option Nat
  | 0 => if 0 ≥ lim then (if RuneStart (s.getD 0 0) then some 0 else none) else some 0
  | start + 1 =>
    if start + 1 ≥ lim then
      (if RuneStart (s.getD (start + 1) 0) then some (start + 1) else lastRuneStart s lim start)
    else some (start + 1)

/-- Go's `utf8.DecodeLastRuneInString`: the last rune of `s` and its width. -/
def DecodeLastRuneInString (s : GoString) : Nat × Nat :=
  let n := s.length
  if n = 0 then (RuneError, 0)
  else
    let r := (s.getD (n - 1) 0).val
    if r < 0x80 then (r, 1)
    else
      let lim := n - 4
      let start : Nat :=
        if n - 1 = 0 then 0
        else match lastRuneStart s lim (n - 2) with
          | none => 0
          | some i => i
      let (r, size) := DecodeRuneInString (s.drop start)
      if start + size ≠ n then (RuneError, 1) else (r, size)

/-- Go's `unicode.IsSpace`: the Latin-1 spaces and, above Latin-1, the `White_Space` table. -/
def IsSpace (r : Nat) : Bool :=
  if r ≤ 0xFF then
    decide (r = 9 ∨ r = 10 ∨ r = 11 ∨ r = 12 ∨ r = 13 ∨ r = 32 ∨ r = 0x85 ∨ r = 0xA0)
  else
    decide (r = 0x1680 ∨ (0x2000 ≤ r ∧ r ≤ 0x200A) ∨ r = 0x2028 ∨ r = 0x2029 ∨ r = 0x202F
      ∨ r = 0x205F ∨ r = 0x3000)

/-- The table `asciiSpace` of package strings. -/
def asciiSpace (c : Byte) : Bool :=
  decide (c.val = 9 ∨ c.val = 10 ∨ c.val = 11 ∨ c.val = 12 ∨ c.val = 13 ∨ c.val = 32)

/-- Go's `strings.TrimLeftFunc(s, f)`: drops the leading runes that satisfy `f`, decoding
rune by rune as `range s` does.  The first argument bounds the number of runes read; each
takes at least one byte, so `s.length` is always enough. -/
def trimLeftFuel (f : Nat → Bool) : Nat → GoString → GoString
  | 0, _ => []
  | fuel + 1, s =>
    match s with
    | [] => []
    | _ :: _ =>
      let (r, size) := DecodeRuneInString s
      if f r = false then s else trimLeftFuel f fuel (s.drop size)

/-- Go's `strings.TrimLeftFunc`. -/
def TrimLeftFunc (s : GoString) (f : Nat → Bool) : GoString := trimLeftFuel f s.length s

/-- Go's `lastIndexFunc(s, f, false)`: the index of the last rune not satisfying `f`, read
backwards from index `i`; `none` is `-1`. -/
def lastIndexFuel (f : Nat → Bool) (s : GoString) : Nat → Nat → Option Nat
  | 0, _ => none
  | fuel + 1, i =>
    if i > 0 then
      let (r, size) := DecodeLastRuneInString (s.take i)
      let i' := i - size
      if f r = false then some i' else lastIndexFuel f s fuel i'
    else none

/-- Go's `strings.TrimRightFunc(s, f)`. -/
def TrimRightFunc (s : GoString) (f : Nat → Bool) : GoString :=
  match lastIndexFuel f s s.length s.length with
  | some i =>
    if (s.getD i 0).val ≥ 0x80 then s.take (i + (DecodeRuneInString (s.drop i)).2)
    else s.take (i + 1)
  | none => s.take 0

/-- Go's `strings.TrimFunc`. -/
def TrimFunc (s : GoString) (f : Nat → Bool) : GoString := TrimRightFunc (TrimLeftFunc s f) f

/-- The second loop of `strings.TrimSpace`, over `s[start:]` read from its end (the
argument is that text reversed): stops at the first ASCII non-space, and hands over to
`TrimRightFunc` at a non-ASCII byte. -/
def trimSpaceStop : List Byte → GoString
  | [] => []
  | c :: rest =>
    if c.val ≥ 0x80 then TrimRightFunc (c :: rest).reverse IsSpace
    else if asciiSpace c then trimSpaceStop rest
    else (c :: rest).reverse

/-- Go's `strings.TrimSpace`: the first loop skips leading ASCII spaces and hands over to
`TrimFunc` at a non-ASCII byte; then the second loop trims the end. -/
def TrimSpace : GoString → GoString
  | [] => []
  | c :: rest =>
    if c.val ≥ 0x80 then TrimFunc (c :: rest) IsSpace
    else if asciiSpace c then TrimSpace rest
    else trimSpaceStop (c :: rest).reverse

/-! ## The record model -/

/-- The `Character` struct of src/main.go, fields in declaration order. -/
structure Character where
  Name : GoString
  Race : GoString
  Class : GoString
  Level : Int
  Background : GoString
  Strength : Int
  Dexterity : Int
  Constitution : Int
  Intelligence : Int
  Wisdom : Int
  Charisma : Int
  Alignment : GoString
  Experience : Int
  HitPoints : Int
  ArmorClass : Int
  Initiative : Int
  Speed : Int
  Proficiencies : Slice GoString
  Languages : Slice GoString
  Equipment : Slice GoString
  deriving DecidableEq

/-- The zero value `Character{}`: empty strings, zero integers, nil slices. -/
def Character.zero : Character :=
  { Name := [], Race := [], Class := [], Level := 0, Background := [],
    Strength := 0, Dexterity := 0, Constitution := 0, Intelligence := 0, Wisdom := 0,
    Charisma := 0, Alignment := [], Experience := 0, HitPoints := 0, ArmorClass := 0,
    Initiative := 0, Speed := 0, Proficiencies := none, Languages := none, Equipment := none }

/-! ## createCharacter -/

/-- The values the creation form binds: the texts of the inputs and the chosen options. -/
structure FormValues where
  Name : GoString
  Race : GoString
  Class : GoString
  levelStr : GoString
  Background : GoString
  Alignment : GoString
  expStr : GoString
  hpStr : GoString
  acStr : GoString
  initStr : GoString
  speedStr : GoString
  strStr : GoString
  dexStr : GoString
  conStr : GoString
  intStr : GoString
  wisStr : GoString
  chaStr : GoString
  deriving DecidableEq

/-- The outcome of one `huh.NewInput()...Run()` of the repeated prompt: the text bound to
`input` and whether `Run` returned an error. -/
structure PromptResult where
  input : GoString
  err : Bool
  deriving DecidableEq

/-- Everything the user hands to one call of `createCharacter`: whether `form.Run()`
failed, the form's values, the outcomes of the successive repeated prompts, and the value
left in `confirm` by the final confirmation. -/
structure CreateInputs where
  formErr : Bool
  form : FormValues
  prompts : List PromptResult
  confirm : Bool
  deriving DecidableEq

/-- The closure `convertToInt` of `createCharacter`: `strconv.Atoi`, with 0 on any error. -/
def convertToInt (s : GoString) : Int :=
  let r := Atoi s
  if r.2 ≠ none then 0 else r.1

/-- The closure `addRepeatingInput` of `createCharacter`, reading the outcomes of its
prompts from a list: a failed prompt is skipped, the text is trimmed, an empty trimmed text
ends the loop, any other is appended.  Returns the slice and the outcomes not yet consumed;
`none` when the outcomes run out before the loop ends (the loop is still prompting). -/
def addRepeatingInput : List PromptResult → Slice GoString →
    Option (Slice GoString × List PromptResult)
  | [], _ => none
  | r :: rest, slice =>
    if r.err then addRepeatingInput rest slice
    else
      let input := TrimSpace r.input
      if input = [] then some (slice, rest)
      else addRepeatingInput rest (slice.append input)

/-- The function `createCharacter` of src/main.go: the record and the `created` flag;
`none` when a repeated prompt never ends. -/
def createCharacter (inp : CreateInputs) : Option (Character × Bool) :=
  if inp.formErr then some (Character.zero, false)
  else
    let character : Character :=
      { Character.zero with
        Name := inp.form.Name, Race := inp.form.Race, Class := inp.form.Class,
        Background := inp.form.Background, Alignment := inp.form.Alignment,
        Level := convertToInt inp.form.levelStr,
        Experience := convertToInt inp.form.expStr,
        HitPoints := convertToInt inp.form.hpStr,
        ArmorClass := convertToInt inp.form.acStr,
        Initiative := convertToInt inp.form.initStr,
        Speed := convertToInt inp.form.speedStr,
        Strength := convertToInt inp.form.strStr,
        Dexterity := convertToInt inp.form.dexStr,
        Constitution := convertToInt inp.form.conStr,
        Intelligence := convertToInt inp.form.intStr,
        Wisdom := convertToInt inp.form.wisStr,
        Charisma := convertToInt inp.form.chaStr }
    match addRepeatingInput inp.prompts character.Proficiencies with
    | none => none
    | some (profs, rest1) =>
      match addRepeatingInput rest1 character.Languages with
      | none => none
      | some (langs, rest2) =>
        match addRepeatingInput rest2 character.Equipment with
        | none => none
        | some (equip, _) =>
          let character := { character with
            Proficiencies := profs, Languages := langs, Equipment := equip }
          if inp.confirm then some (character, true) else some (Character.zero, false)

/-! ## deleteCharacter -/

/-- The function `deleteCharacter` of src/main.go; `indexStr` is the text the prompt binds.
An empty collection is returned before any prompt; a text that `Atoi` rejects, a negative
index or one above `len(characters)`, and index 0 return the collection as it is; otherwise
the result is `append(characters[:index-1], characters[index:]...)`. -/
def deleteCharacter (characters : Slice Character) (indexStr : GoString) : Slice Character :=
  if characters.len = 0 then characters
  else
    let r := Atoi indexStr
    if r.2 ≠ none ∨ r.1 < 0 ∨ r.1 > (characters.len : Int) then characters
    else if r.1 = 0 then characters
    else some (characters.toList.take (r.1.toNat - 1) ++ characters.toList.drop r.1.toNat)

/-! ## Persistence -/

/-- The snapshot file `characters.json`: `none` when `os.ReadFile` fails on it (it does not
exist or cannot be read), `some data` when it reads as `data`. -/
abbrev File := Option GoString

/-- The outcome of `os.WriteFile`: success, or a failure that leaves the file as `left`. -/
inductive WriteOutcome where
  | ok
  | failed (left : File)
  deriving DecidableEq

/-- The function `loadCharacters` of src/main.go, over the decoder `unmarshal` (Go's
`json.Unmarshal` into a nil `[]Character`, giving what it stored and its error).  The file
is only read. -/
def loadCharacters (unmarshal : GoString → Slice Character × Bool) (file : File) :
    Slice Character :=
  match file with
  | none => some []
  | some data =>
    let r := unmarshal data
    if r.2 then some [] else r.1

/-- The function `saveCharacters` of src/main.go, over the encoder `marshal` (Go's
`json.MarshalIndent(characters, "", "  ")`, `none` for an error): the file after the call.
An encoding error returns before any write. -/
def saveCharacters (marshal : Slice Character → Option GoString) (characters : Slice Character)
    (w : WriteOutcome) (file : File) : File :=
  match marshal characters with
  | none => file
  | some data =>
    match w with
    | WriteOutcome.ok => some data
    | WriteOutcome.failed left => left

/-! ## The main loop -/

/-- The state the main loop carries: the collection in memory, the snapshot file, and
whether the loop has returned. -/
structure State where
  characters : Slice Character
  file : File
  exited : Bool
  deriving DecidableEq

/-- What the outside hands to one iteration of the loop: the selected action, the inputs of
a creation, the text of the delete prompt, and the outcome of the write (each read only by
the branch that uses it). -/
structure StepInput where
  action : GoString
  create : CreateInputs
  indexStr : GoString
  write : WriteOutcome

/-- One iteration of `for { ... switch action { ... } }` in `main`; `none` when
`createCharacter` does not return.  An action that is none of the four cases falls through
the switch. -/
def mainStep (marshal : Slice Character → Option GoString) (i : StepInput) (st : State) :
    Option State :=
  if i.action = ascii "create" then
    match createCharacter i.create with
    | none => none
    | some (newCharacter, created) =>
      if created then
        let characters := st.characters.append newCharacter
        some { st with characters := characters,
                       file := saveCharacters marshal characters i.write st.file }
      else some st
  else if i.action = ascii "view" then some st
  else if i.action = ascii "delete" then
    let characters := deleteCharacter st.characters i.indexStr
    some { st with characters := characters,
                   file := saveCharacters marshal characters i.write st.file }
  else if i.action = ascii "exit" then
    some { st with file := saveCharacters marshal st.characters i.write st.file, exited := true }
  else some st

/-- The loop of `main` over a list of iterations, stopping at the `exit` action. -/
def mainLoop (marshal : Slice Character → Option GoString) : List StepInput → State → Option State
  | [], st => some st
  | i :: rest, st =>
    if st.exited then some st
    else
      match mainStep marshal i st with
      | none => none
      | some st' => mainLoop marshal rest st'

/-- A character that has only a name. -/
def named (name : String) : Character := { Character.zero with Name := ascii name }

/-! ## Vocabulary for stating the claims -/

/-- The twelve integer fields that `createCharacter` fills through `convertToInt`. -/
inductive IntField where
  | Level | Experience | HitPoints | ArmorClass | Initiative | Speed
  | Strength | Dexterity | Constitution | Intelligence | Wisdom | Charisma
  deriving DecidableEq

/-- The six ability scores among the integer fields. -/
def IntField.isAbility : IntField → Bool
  | .Strength | .Dexterity | .Constitution | .Intelligence | .Wisdom | .Charisma => true
  | _ => false

/-- The value of an integer field in a record. -/
def IntField.get : IntField → Character → Int
  | .Level, c => c.Level
  | .Experience, c => c.Experience
  | .HitPoints, c => c.HitPoints
  | .ArmorClass, c => c.ArmorClass
  | .Initiative, c => c.Initiative
  | .Speed, c => c.Speed
  | .Strength, c => c.Strength
  | .Dexterity, c => c.Dexterity
  | .Constitution, c => c.Constitution
  | .Intelligence, c => c.Intelligence
  | .Wisdom, c => c.Wisdom
  | .Charisma, c => c.Charisma

/-- The record with one integer field replaced. -/
def IntField.set : IntField → Character → Int → Character
  | .Level, c, v => { c with Level := v }
  | .Experience, c, v => { c with Experience := v }
  | .HitPoints, c, v => { c with HitPoints := v }
  | .ArmorClass, c, v => { c with ArmorClass := v }
  | .Initiative, c, v => { c with Initiative := v }
  | .Speed, c, v => { c with Speed := v }
  | .Strength, c, v => { c with Strength := v }
  | .Dexterity, c, v => { c with Dexterity := v }
  | .Constitution, c, v => { c with Constitution := v }
  | .Intelligence, c, v => { c with Intelligence := v }
  | .Wisdom, c, v => { c with Wisdom := v }
  | .Charisma, c, v => { c with Charisma := v }

/-- The form values with the text entered for one integer field replaced. -/
def IntField.enter : IntField → FormValues → GoString → FormValues
  | .Level, v, s => { v with levelStr := s }
  | .Experience, v, s => { v with expStr := s }
  | .HitPoints, v, s => { v with hpStr := s }
  | .ArmorClass, v, s => { v with acStr := s }
  | .Initiative, v, s => { v with initStr := s }
  | .Speed, v, s => { v with speedStr := s }
  | .Strength, v, s => { v with strStr := s }
  | .Dexterity, v, s => { v with dexStr := s }
  | .Constitution, v, s => { v with conStr := s }
  | .Intelligence, v, s => { v with intStr := s }
  | .Wisdom, v, s => { v with wisStr := s }
  | .Charisma, v, s => { v with chaStr := s }

/-- The inputs of a creation with the text entered for one integer field replaced. -/
def CreateInputs.enter (inp : CreateInputs) (f : IntField) (s : GoString) : CreateInputs :=
  { inp with form := f.enter inp.form s }

/-- A form in which every text is empty. -/
def FormValues.blank : FormValues :=
  { Name := [], Race := [], Class := [], levelStr := [], Background := [], Alignment := [],
    expStr := [], hpStr := [], acStr := [], initStr := [], speedStr := [], strStr := [],
    dexStr := [], conStr := [], intStr := [], wisStr := [], chaStr := [] }

/-- A prompt answered with the given text, without error. -/
def entry (s : String) : PromptResult := { input := ascii s, err := false }

/-- Inputs of a creation that succeeds: the blank form, each repeated prompt left blank at
once, and the confirmation accepted. -/
def CreateInputs.plain : CreateInputs :=
  { formErr := false, form := FormValues.blank, prompts := [entry "", entry "", entry ""],
    confirm := true }

/-- A prompt outcome that ends the loop of `addRepeatingInput`: no error, and a text that
is empty once trimmed. -/
def endsInput (r : PromptResult) : Bool := !r.err && decide (TrimSpace r.input = [])

/-- The entries a run of prompt outcomes contributes: the trimmed texts of the outcomes
without error, in order. -/
def entriesOf (seg : List PromptResult) : List GoString :=
  (seg.filter (fun r => !r.err)).map (fun r => TrimSpace r.input)

/-- The start of `main`: `characters := loadCharacters()`; the loop has not returned. -/
def mainStart (unmarshal : GoString → Slice Character × Bool) (file : File) : State :=
  { characters := loadCharacters unmarshal file, file := file, exited := false }

/-- An iteration that reaches a call of `saveCharacters`: a delete, an exit, or a create
that `createCharacter` returns as accepted. -/
def savesStep (i : StepInput) : Prop :=
  i.action = ascii "delete" ∨ i.action = ascii "exit" ∨
    (i.action = ascii "create" ∧ ∃ c, createCharacter i.create = some (c, true))

/-- Memory and file agree: the file holds the encoding of the collection in memory. -/
def InSync (marshal : Slice Character → Option GoString) (st : State) : Prop :=
  ∃ data, marshal st.characters = some data ∧ st.file = some data

/-! ## encoding/json: the encoder

`json.MarshalIndent(characters, "", "  ")` for a `[]Character`, modelled by the text it
produces: keys from the `json` tags in field order, strings quoted as `appendString` does
with HTML escaping on, integers in decimal, a nil slice as `null`, an empty one as `[]`,
and the layout of `json.Indent` with a two-space indent. -/

/-- The table `hex = "0123456789abcdef"`. -/
def hex (n : Nat) : Byte := if n < 10 then Fin.ofNat (48 + n) else Fin.ofNat (87 + n)

/-- The table `htmlSafeSet`: the ASCII bytes written without escaping, that is all from
space on except the double quote, `&`, `<`, `>` and the backslash. -/
def htmlSafeSet (b : Byte) : Bool :=
  decide (0x20 ≤ b.val ∧ b.val < 0x80 ∧ b.val ≠ 34 ∧ b.val ≠ 38 ∧ b.val ≠ 60 ∧ b.val ≠ 62
    ∧ b.val ≠ 92)

/-- The escape `appendString` writes for an ASCII byte outside `htmlSafeSet`. -/
def appendEscape (b : Byte) : List Byte :=
  if b = 92 ∨ b = 34 then [92, b]
  else if b = 8 then [92, 98]
  else if b = 12 then [92, 102]
  else if b = 10 then [92, 110]
  else if b = 13 then [92, 114]
  else if b = 9 then [92, 116]
  else [92, 117, 48, 48, hex (b.val / 16), hex (b.val % 16)]

/-- The loop of `appendString(dst, src, true)`: what is written between the quotes.  An
invalid UTF-8 byte is written as the escape of U+FFFD, the runes U+2028 and U+2029 as
escapes, every other rune as its bytes.  The first argument bounds the number of runes;
`src.length` is always enough. -/
def appendStringLoop : Nat → GoString → List Byte
  | 0, _ => []
  | _ + 1, [] => []
  | fuel + 1, b :: rest =>
    if b.val < 0x80 then
      (if htmlSafeSet b then [b] else appendEscape b) ++ appendStringLoop fuel rest
    else
      let r := DecodeRuneInString ((b :: rest).take 4)
      if r.1 = RuneError ∧ r.2 = 1 then
        [92, 117, 102, 102, 102, 100] ++ appendStringLoop fuel rest
      else if r.1 = 0x2028 ∨ r.1 = 0x2029 then
        [92, 117, 50, 48, 50, hex (r.1 % 16)] ++ appendStringLoop fuel ((b :: rest).drop r.2)
      else (b :: rest).take r.2 ++ appendStringLoop fuel ((b :: rest).drop r.2)

/-- The JSON string literal `appendString` writes for a Go string. -/
def appendString (src : GoString) : List Byte :=
  34 :: (appendStringLoop src.length src ++ [34])

/-- The line break `appendNewline` writes: a newline and `depth` times the indent. -/
def appendNewline (depth : Nat) : List Byte := 10 :: List.replicate (2 * depth) 32

/-- Items separated by a comma and a line break at the given depth. -/
def joinItems (depth : Nat) : List (List Byte) → List Byte
  | [] => []
  | [x] => x
  | x :: y :: rest => x ++ 44 :: (appendNewline depth ++ joinItems depth (y :: rest))

/-- An indented array whose enclosing depth is `depth`: `[]` when it has no element. -/
def encodeArray (depth : Nat) (items : List (List Byte)) : List Byte :=
  match items with
  | [] => [91, 93]
  | _ :: _ => 91 :: (appendNewline (depth + 1) ++ joinItems (depth + 1) items
      ++ appendNewline depth ++ [93])

/-- An indented object with at least one member, a member being a key literal, a colon, a
space and the value. -/
def encodeObject (depth : Nat) (members : List (List Byte × List Byte)) : List Byte :=
  123 :: (appendNewline (depth + 1)
    ++ joinItems (depth + 1) (members.map (fun m => m.1 ++ 58 :: 32 :: m.2))
    ++ appendNewline depth ++ [125])

/-- The encoding of a `[]string` field. -/
def encodeStrings (depth : Nat) : Slice GoString → List Byte
  | none => ascii "null"
  | some xs => encodeArray depth (xs.map appendString)

/-- The members of the object written for a `Character`: keys and encoded values. -/
def characterMembers (depth : Nat) (c : Character) : List (List Byte × List Byte) :=
  [ (appendString (ascii "name"), appendString c.Name),
    (appendString (ascii "race"), appendString c.Race),
    (appendString (ascii "class"), appendString c.Class),
    (appendString (ascii "level"), FormatInt c.Level),
    (appendString (ascii "background"), appendString c.Background),
    (appendString (ascii "strength"), FormatInt c.Strength),
    (appendString (ascii "dexterity"), FormatInt c.Dexterity),
    (appendString (ascii "constitution"), FormatInt c.Constitution),
    (appendString (ascii "intelligence"), FormatInt c.Intelligence),
    (appendString (ascii "wisdom"), FormatInt c.Wisdom),
    (appendString (ascii "charisma"), FormatInt c.Charisma),
    (appendString (ascii "alignment"), appendString c.Alignment),
    (appendString (ascii "experience"), FormatInt c.Experience),
    (appendString (ascii "hitPoints"), FormatInt c.HitPoints),
    (appendString (ascii "armorClass"), FormatInt c.ArmorClass),
    (appendString (ascii "initiative"), FormatInt c.Initiative),
    (appendString (ascii "speed"), FormatInt c.Speed),
    (appendString (ascii "proficiencies"), encodeStrings depth c.Proficiencies),
    (appendString (ascii "languages"), encodeStrings depth c.Languages),
    (appendString (ascii "equipment"), encodeStrings depth c.Equipment) ]

/-- The encoding of one `Character` inside an array at depth `depth`. -/
def encodeCharacter (depth : Nat) (c : Character) : List Byte :=
  encodeObject depth (characterMembers (depth + 1) c)

/-- Go's `json.MarshalIndent(characters, "", "  ")` for a `[]Character`; it has no error
case for this type. -/
def MarshalIndent (characters : Slice Character) : GoString :=
  match characters with
  | none => ascii "null"
  | some xs => encodeArray 0 (xs.map (encodeCharacter 1))

/-! ## encoding/json: the decoder

`json.Unmarshal(data, &characters)` into a nil `[]Character`, in the two passes of the
library: `checkValid` accepts exactly one JSON value between optional white space, read
here into a syntax tree; the value is then stored into the target by the rules of
`decode.go`, a type mismatch being recorded while decoding goes on. -/

/-- A JSON value as the scanner delimits it: a number keeps its literal, a string is
already unquoted. -/
inductive JValue where
  | null
  | bool (b : Bool)
  | number (lit : GoString)
  | string (s : GoString)
  | array (elems : List JValue)
  | object (members : List (GoString × JValue))

/-- The scanner's `isSpace`: space, tab, carriage return, newline. -/
def isSpace (c : Byte) : Bool := decide (c.val = 32 ∨ c.val = 9 ∨ c.val = 13 ∨ c.val = 10)

/-- Skips white space. -/
def skipSpace : List Byte → List Byte
  | [] => []
  | c :: rest => if isSpace c then skipSpace rest else c :: rest

/-- A hexadecimal digit, in either case. -/
def isHexDigit (c : Byte) : Bool :=
  decide ((48 ≤ c.val ∧ c.val ≤ 57) ∨ (97 ≤ c.val ∧ c.val ≤ 102) ∨ (65 ≤ c.val ∧ c.val ≤ 70))

/-- The states of the scanner inside a string literal (`stateInString`, `stateInStringEsc`,
`stateInStringEscU`, `stateInStringEscU1`, `stateInStringEscU12`, `stateInStringEscU123`). -/
inductive StringState where
  | inString
  | inStringEsc
  | inStringEscU
  | inStringEscU1
  | inStringEscU12
  | inStringEscU123
  deriving DecidableEq

/-- The scanner inside a string literal, byte by byte from the given state: the raw bytes up
to the closing quote and what follows it.  A control byte, an unknown escape, a `\u` without
four hexadecimal digits and a missing closing quote are syntax errors. -/
def scanStringFrom : StringState → List Byte → Option (List Byte × List Byte)
  | _, [] => none
  | StringState.inString, c :: rest =>
    if c = 34 then some ([], rest)
    else if c = 92 then
      (scanStringFrom StringState.inStringEsc rest).map (fun p => (c :: p.1, p.2))
    else if c.val < 0x20 then none
    else (scanStringFrom StringState.inString rest).map (fun p => (c :: p.1, p.2))
  | StringState.inStringEsc, c :: rest =>
    if c = 98 ∨ c = 102 ∨ c = 110 ∨ c = 114 ∨ c = 116 ∨ c = 92 ∨ c = 47 ∨ c = 34 then
      (scanStringFrom StringState.inString rest).map (fun p => (c :: p.1, p.2))
    else if c = 117 then
      (scanStringFrom StringState.inStringEscU rest).map (fun p => (c :: p.1, p.2))
    else none
  | StringState.inStringEscU, c :: rest =>
    if isHexDigit c then
      (scanStringFrom StringState.inStringEscU1 rest).map (fun p => (c :: p.1, p.2))
    else none
  | StringState.inStringEscU1, c :: rest =>
    if isHexDigit c then
      (scanStringFrom StringState.inStringEscU12 rest).map (fun p => (c :: p.1, p.2))
    else none
  | StringState.inStringEscU12, c :: rest =>
    if isHexDigit c then
      (scanStringFrom StringState.inStringEscU123 rest).map (fun p => (c :: p.1, p.2))
    else none
  | StringState.inStringEscU123, c :: rest =>
    if isHexDigit c then
      (scanStringFrom StringState.inString rest).map (fun p => (c :: p.1, p.2))
    else none

/-- The scanner on a string literal, after the opening quote. -/
def scanString (s : List Byte) : Option (List Byte × List Byte) :=
  scanStringFrom StringState.inString s

/-- Go's `utf8.EncodeRune`: the UTF-8 bytes of a rune, those of U+FFFD for a surrogate or a
value above U+10FFFF.  The shifts and masks are written as `/` and `%`. -/
def EncodeRune (r : Nat) : List Byte :=
  if r ≤ 0x7F then [Fin.ofNat r]
  else if r ≤ 0x7FF then [Fin.ofNat (0xC0 + r / 64), Fin.ofNat (0x80 + r % 64)]
  else if r > 0x10FFFF ∨ (0xD800 ≤ r ∧ r ≤ 0xDFFF) then [0xEF, 0xBF, 0xBD]
  else if r ≤ 0xFFFF then
    [Fin.ofNat (0xE0 + r / 4096), Fin.ofNat (0x80 + r / 64 % 64), Fin.ofNat (0x80 + r % 64)]
  else
    [Fin.ofNat (0xF0 + r / 262144), Fin.ofNat (0x80 + r / 4096 % 64),
      Fin.ofNat (0x80 + r / 64 % 64), Fin.ofNat (0x80 + r % 64)]

/-- The value of a hexadecimal digit, as `getu4` reads it. -/
def hexValue (c : Byte) : Option Nat :=
  if 48 ≤ c.val ∧ c.val ≤ 57 then some (c.val - 48)
  else if 97 ≤ c.val ∧ c.val ≤ 102 then some (c.val - 97 + 10)
  else if 65 ≤ c.val ∧ c.val ≤ 70 then some (c.val - 65 + 10)
  else none

/-- The function `getu4` of decode.go: the rune of a leading `\uXXXX`; `none` is -1. -/
def getu4 (s : List Byte) : Option Nat :=
  match s with
  | b :: u :: h1 :: h2 :: h3 :: h4 :: _ =>
    if b = 92 ∧ u = 117 then
      match hexValue h1, hexValue h2, hexValue h3, hexValue h4 with
      | some a, some b, some c, some d => some (((a * 16 + b) * 16 + c) * 16 + d)
      | _, _, _, _ => none
    else none
  | _ => none

/-- Go's `utf16.DecodeRune(r1, r2)` where `r2` may be -1 (`none`): the rune of a surrogate
pair, U+FFFD when the pair is not valid. -/
def utf16DecodeRune (r1 : Nat) (r2 : Option Nat) : Nat :=
  match r2 with
  | some r2 =>
    if 0xD800 ≤ r1 ∧ r1 < 0xDC00 ∧ 0xDC00 ≤ r2 ∧ r2 < 0xE000 then
      (r1 - 0xD800) * 1024 + (r2 - 0xDC00) + 0x10000
    else 0xFFFD
  | none => 0xFFFD

/-- The second loop of `unquoteBytes`: the bytes a raw string literal denotes; `none` is
`ok = false`.  Escapes are resolved, a `\u` escape gives the UTF-8 bytes of its rune
(surrogate pairs combined, a lone surrogate replaced by U+FFFD), a non-ASCII rune is decoded
and encoded again, which turns an invalid byte into U+FFFD.  The first argument bounds the
number of steps; the length of the text is always enough. -/
def unquoteLoop : Nat → List Byte → Option (List Byte)
  | 0, s => if s = [] then some [] else none
  | _ + 1, [] => some []
  | fuel + 1, c :: rest =>
    if c = 92 then
      match rest with
      | [] => none
      | e :: rest1 =>
        if e = 34 ∨ e = 92 ∨ e = 47 ∨ e = 39 then (unquoteLoop fuel rest1).map (fun t => e :: t)
        else if e = 98 then (unquoteLoop fuel rest1).map (fun t => 8 :: t)
        else if e = 102 then (unquoteLoop fuel rest1).map (fun t => 12 :: t)
        else if e = 110 then (unquoteLoop fuel rest1).map (fun t => 10 :: t)
        else if e = 114 then (unquoteLoop fuel rest1).map (fun t => 13 :: t)
        else if e = 116 then (unquoteLoop fuel rest1).map (fun t => 9 :: t)
        else if e = 117 then
          match getu4 (c :: rest) with
          | none => none
          | some rr =>
            let after := (c :: rest).drop 6
            if 0xD800 ≤ rr ∧ rr < 0xE000 then
              let dec := utf16DecodeRune rr (getu4 after)
              if dec ≠ 0xFFFD then
                (unquoteLoop fuel (after.drop 6)).map (fun t => EncodeRune dec ++ t)
              else (unquoteLoop fuel after).map (fun t => EncodeRune 0xFFFD ++ t)
            else (unquoteLoop fuel after).map (fun t => EncodeRune rr ++ t)
        else none
    else if c = 34 ∨ c.val < 0x20 then none
    else if c.val < 0x80 then (unquoteLoop fuel rest).map (fun t => c :: t)
    else
      let r := DecodeRuneInString (c :: rest)
      (unquoteLoop fuel ((c :: rest).drop r.2)).map (fun t => EncodeRune r.1 ++ t)

/-- The first loop of `unquoteBytes`: the length of the longest prefix free of backslash,
quote, control bytes and invalid UTF-8, which is taken over as it is. -/
def unquotePlain : Nat → List Byte → Nat
  | 0, _ => 0
  | _ + 1, [] => 0
  | fuel + 1, c :: rest =>
    if c = 92 ∨ c = 34 ∨ c.val < 0x20 then 0
    else if c.val < 0x80 then 1 + unquotePlain fuel rest
    else
      let r := DecodeRuneInString (c :: rest)
      if r.1 = RuneError ∧ r.2 = 1 then 0
      else r.2 + unquotePlain fuel ((c :: rest).drop r.2)

/-- The function `unquoteBytes` of decode.go on the raw bytes between the quotes. -/
def unquoteBytes (raw : List Byte) : Option GoString :=
  let r := unquotePlain raw.length raw
  if r = raw.length then some raw
  else (unquoteLoop raw.length (raw.drop r)).map (fun t => raw.take r ++ t)

/-- The longest run of decimal digits at the front, and what follows it. -/
def spanDigits : List Byte → List Byte × List Byte
  | [] => ([], [])
  | c :: rest =>
    if isDigit c then ((spanDigits rest).1.cons c, (spanDigits rest).2) else ([], c :: rest)

/-- The scanner on a number literal, sign included: the literal and what follows it.  The
grammar is `-? (0 | [1-9][0-9]*) (. [0-9]+)? ([eE] [+-]? [0-9]+)?`. -/
def scanNumber (s : List Byte) : Option (List Byte × List Byte) :=
  let sign : List Byte := if s.head? = some 45 then [45] else []
  let s1 := if s.head? = some 45 then s.tail else s
  match s1 with
  | [] => none
  | c :: t =>
    let intPart : Option (List Byte × List Byte) :=
      if c = 48 then some ([c], t)
      else if 49 ≤ c.val ∧ c.val ≤ 57 then some (c :: (spanDigits t).1, (spanDigits t).2)
      else none
    match intPart with
    | none => none
    | some (ip, s2) =>
      let frac : Option (List Byte × List Byte) :=
        if s2.head? = some 46 then
          (if (spanDigits s2.tail).1 = [] then none
           else some (46 :: (spanDigits s2.tail).1, (spanDigits s2.tail).2))
        else some ([], s2)
      match frac with
      | none => none
      | some (fp, s3) =>
        let exp : Option (List Byte × List Byte) :=
          if s3.head? = some 101 ∨ s3.head? = some 69 then
            let t3 := s3.tail
            let sg : List Byte :=
              if t3.head? = some 43 then [43] else if t3.head? = some 45 then [45] else []
            let t4 := if t3.head? = some 43 ∨ t3.head? = some 45 then t3.tail else t3
            if (spanDigits t4).1 = [] then none
            else some (s3.take 1 ++ sg ++ (spanDigits t4).1, (spanDigits t4).2)
          else some ([], s3)
        match exp with
        | none => none
        | some (ep, s4) => some (sign ++ ip ++ fp ++ ep, s4)

/-- The scanner's limit on nesting, `maxNestingDepth`. -/
def maxNestingDepth : Nat := 10000

mutual
/-- One JSON value at the front of the text (white space already skipped), at nesting
`depth`: the value and what follows it; `none` is a syntax error.  The first argument
bounds the recursion; one more than twice the length of the text is always enough. -/
def parseValue : Nat → Nat → List Byte → Option (JValue × List Byte)
  | 0, _, _ => none
  | fuel + 1, depth, s =>
    match s with
    | [] => none
    | c :: rest =>
      if c = 34 then
        match scanString rest with
        | none => none
        | some (raw, r) =>
          match unquoteBytes raw with
          | none => none
          | some t => some (JValue.string t, r)
      else if c = 91 then
        if depth + 1 > maxNestingDepth then none
        else
          match skipSpace rest with
          | [] => none
          | c1 :: r1 =>
            if c1 = 93 then some (JValue.array [], r1)
            else
              match parseElements fuel (depth + 1) (c1 :: r1) with
              | none => none
              | some (vs, r) => some (JValue.array vs, r)
      else if c = 123 then
        if depth + 1 > maxNestingDepth then none
        else
          match skipSpace rest with
          | [] => none
          | c1 :: r1 =>
            if c1 = 125 then some (JValue.object [], r1)
            else
              match parseMembers fuel (depth + 1) (c1 :: r1) with
              | none => none
              | some (ms, r) => some (JValue.object ms, r)
      else if s.take 4 = [116, 114, 117, 101] then some (JValue.bool true, s.drop 4)
      else if s.take 5 = [102, 97, 108, 115, 101] then some (JValue.bool false, s.drop 5)
      else if s.take 4 = [110, 117, 108, 108] then some (JValue.null, s.drop 4)
      else
        match scanNumber s with
        | none => none
        | some (lit, r) => some (JValue.number lit, r)
/-- The elements of an array from the first one on, up to and including the closing
bracket. -/
def parseElements : Nat → Nat → List Byte → Option (List JValue × List Byte)
  | 0, _, _ => none
  | fuel + 1, depth, s =>
    match parseValue fuel depth s with
    | none => none
    | some (v, r) =>
      match skipSpace r with
      | [] => none
      | c :: r1 =>
        if c = 44 then
          match parseElements fuel depth (skipSpace r1) with
          | none => none
          | some (vs, r2) => some (v :: vs, r2)
        else if c = 93 then some ([v], r1)
        else none
/-- The members of an object from the first key on, up to and including the closing
brace. -/
def parseMembers : Nat → Nat → List Byte → Option (List (GoString × JValue) × List Byte)
  | 0, _, _ => none
  | fuel + 1, depth, s =>
    match s with
    | [] => none
    | q :: rest =>
      if q = 34 then
        match scanString rest with
        | none => none
        | some (raw, r) =>
          match unquoteBytes raw with
          | none => none
          | some key =>
            match skipSpace r with
            | [] => none
            | c :: r1 =>
              if c = 58 then
                match parseValue fuel depth (skipSpace r1) with
                | none => none
                | some (v, r2) =>
                  match skipSpace r2 with
                  | [] => none
                  | c2 :: r3 =>
                    if c2 = 44 then
                      match parseMembers fuel depth (skipSpace r3) with
                      | none => none
                      | some (ms, r4) => some ((key, v) :: ms, r4)
                    else if c2 = 125 then some ([(key, v)], r3)
                    else none
              else none
      else none
end

/-- The pass `checkValid` together with the delimiting of the values: the one JSON value
that, between optional white space, makes up the whole text; `none` is a syntax error. -/
def parseDocument (data : GoString) : Option JValue :=
  match parseValue (2 * data.length + 1) 0 (skipSpace data) with
  | none => none
  | some (v, rest) => if skipSpace rest = [] then some v else none

/-- The function `foldRune` of encoding/json, the smallest rune of the simple-fold orbit, as
far as keys matching ASCII names go: the long s folds to `S` and the Kelvin sign to `K`; no
other non-ASCII rune has an ASCII letter in its orbit, and it is left as it is here. -/
def foldRune (r : Nat) : Nat := if r = 0x17F then 0x53 else if r = 0x212A then 0x4B else r

/-- The function `appendFoldedName` of encoding/json: ASCII letters in upper case, every
other rune replaced by its `foldRune`.  The first argument bounds the number of runes. -/
def foldNameLoop : Nat → List Byte → List Byte
  | 0, _ => []
  | _ + 1, [] => []
  | fuel + 1, c :: rest =>
    if c.val < 0x80 then
      (if 97 ≤ c.val ∧ c.val ≤ 122 then Fin.ofNat (c.val - 32) else c) :: foldNameLoop fuel rest
    else
      let r := DecodeRuneInString (c :: rest)
      EncodeRune (foldRune r.1) ++ foldNameLoop fuel ((c :: rest).drop r.2)

/-- The function `foldName` of encoding/json, under which keys are matched to fields. -/
def foldName (key : GoString) : GoString := foldNameLoop key.length key

/-- The fields of `Character`, by their Go names. -/
inductive Field where
  | Name | Race | Class | Level | Background
  | Strength | Dexterity | Constitution | Intelligence | Wisdom | Charisma
  | Alignment | Experience | HitPoints | ArmorClass | Initiative | Speed
  | Proficiencies | Languages | Equipment
  deriving DecidableEq

/-- The key of a field, from its `json` tag. -/
def Field.tag : Field → String
  | .Name => "name" | .Race => "race" | .Class => "class" | .Level => "level"
  | .Background => "background" | .Strength => "strength" | .Dexterity => "dexterity"
  | .Constitution => "constitution" | .Intelligence => "intelligence" | .Wisdom => "wisdom"
  | .Charisma => "charisma" | .Alignment => "alignment" | .Experience => "experience"
  | .HitPoints => "hitPoints" | .ArmorClass => "armorClass" | .Initiative => "initiative"
  | .Speed => "speed" | .Proficiencies => "proficiencies" | .Languages => "languages"
  | .Equipment => "equipment"

/-- All fields, in declaration order. -/
def Field.all : List Field :=
  [.Name, .Race, .Class, .Level, .Background, .Strength, .Dexterity, .Constitution,
   .Intelligence, .Wisdom, .Charisma, .Alignment, .Experience, .HitPoints, .ArmorClass,
   .Initiative, .Speed, .Proficiencies, .Languages, .Equipment]

/-- The field a key of an object is stored into: the one whose tag equals the key, exactly
or else under `foldName`; the tags are distinct under `foldName`, so this is the field with
the same folded name.  `none` for a key that matches no field, whose value is skipped. -/
def fieldOfKey (key : GoString) : Option Field :=
  Field.all.find? (fun f => decide (foldName (ascii f.tag) = foldName key))

/-- Storing a JSON value into a `string` (`literalStore`): a string is stored, `null`
leaves the target as it is, anything else is a type error (`true`) and leaves it too. -/
def storeString (cur : GoString) : JValue → GoString × Bool
  | .string s => (s, false)
  | .null => (cur, false)
  | _ => (cur, true)

/-- Storing a JSON value into an `int`: a number literal that `strconv.ParseInt(s, 10, 64)`
accepts is stored, `null` leaves the target as it is, anything else is a type error. -/
def storeInt (cur : Int) : JValue → Int × Bool
  | .number lit => if (ParseInt lit).2 ≠ none then (cur, true) else ((ParseInt lit).1, false)
  | .null => (cur, false)
  | _ => (cur, true)

/-- The loop of `d.array` into a slice: the i-th element is stored into the i-th element of
the target when it has one, into a zero element otherwise, and the slice ends up as long as
the array.  (Elements an earlier store left beyond the length of the target are taken as
zero.) -/
def storeElems {α : Type} (store : α → JValue → α × Bool) (zero : α) :
    List α → List JValue → List α × Bool
  | _, [] => ([], false)
  | cur, v :: vs =>
    ((store (cur.headD zero) v).1 :: (storeElems store zero cur.tail vs).1,
      (store (cur.headD zero) v).2 || (storeElems store zero cur.tail vs).2)

/-- Storing a JSON value into a `[]string`: an array element by element (an empty array
gives an allocated empty slice), `null` gives the nil slice, anything else is a type
error. -/
def storeStrings (cur : Slice GoString) : JValue → Slice GoString × Bool
  | .array elems => (some (storeElems storeString [] cur.toList elems).1,
      (storeElems storeString [] cur.toList elems).2)
  | .null => (none, false)
  | _ => (cur, true)

/-- Storing a JSON value into one field of a `Character`. -/
def storeField (f : Field) (c : Character) (v : JValue) : Character × Bool :=
  match f with
  | .Name => ({ c with Name := (storeString c.Name v).1 }, (storeString c.Name v).2)
  | .Race => ({ c with Race := (storeString c.Race v).1 }, (storeString c.Race v).2)
  | .Class => ({ c with Class := (storeString c.Class v).1 }, (storeString c.Class v).2)
  | .Level => ({ c with Level := (storeInt c.Level v).1 }, (storeInt c.Level v).2)
  | .Background =>
    ({ c with Background := (storeString c.Background v).1 }, (storeString c.Background v).2)
  | .Strength => ({ c with Strength := (storeInt c.Strength v).1 }, (storeInt c.Strength v).2)
  | .Dexterity => ({ c with Dexterity := (storeInt c.Dexterity v).1 }, (storeInt c.Dexterity v).2)
  | .Constitution =>
    ({ c with Constitution := (storeInt c.Constitution v).1 }, (storeInt c.Constitution v).2)
  | .Intelligence =>
    ({ c with Intelligence := (storeInt c.Intelligence v).1 }, (storeInt c.Intelligence v).2)
  | .Wisdom => ({ c with Wisdom := (storeInt c.Wisdom v).1 }, (storeInt c.Wisdom v).2)
  | .Charisma => ({ c with Charisma := (storeInt c.Charisma v).1 }, (storeInt c.Charisma v).2)
  | .Alignment =>
    ({ c with Alignment := (storeString c.Alignment v).1 }, (storeString c.Alignment v).2)
  | .Experience =>
    ({ c with Experience := (storeInt c.Experience v).1 }, (storeInt c.Experience v).2)
  | .HitPoints => ({ c with HitPoints := (storeInt c.HitPoints v).1 }, (storeInt c.HitPoints v).2)
  | .ArmorClass =>
    ({ c with ArmorClass := (storeInt c.ArmorClass v).1 }, (storeInt c.ArmorClass v).2)
  | .Initiative =>
    ({ c with Initiative := (storeInt c.Initiative v).1 }, (storeInt c.Initiative v).2)
  | .Speed => ({ c with Speed := (storeInt c.Speed v).1 }, (storeInt c.Speed v).2)
  | .Proficiencies =>
    ({ c with Proficiencies := (storeStrings c.Proficiencies v).1 },
      (storeStrings c.Proficiencies v).2)
  | .Languages =>
    ({ c with Languages := (storeStrings c.Languages v).1 }, (storeStrings c.Languages v).2)
  | .Equipment =>
    ({ c with Equipment := (storeStrings c.Equipment v).1 }, (storeStrings c.Equipment v).2)

/-- The loop of `d.object` into a struct: each member in turn is stored into the field its
key matches, or skipped when it matches none. -/
def storeMembers : Character → List (GoString × JValue) → Character × Bool
  | c, [] => (c, false)
  | c, (key, v) :: rest =>
    match fieldOfKey key with
    | none => storeMembers c rest
    | some f =>
      ((storeMembers (storeField f c v).1 rest).1,
        (storeField f c v).2 || (storeMembers (storeField f c v).1 rest).2)

/-- Storing a JSON value into a `Character`: an object member by member, `null` leaves the
target as it is, anything else is a type error. -/
def storeCharacter (cur : Character) : JValue → Character × Bool
  | .object members => storeMembers cur members
  | .null => (cur, false)
  | _ => (cur, true)

/-- Storing a JSON value into a `[]Character`. -/
def storeCharacters (cur : Slice Character) : JValue → Slice Character × Bool
  | .array elems => (some (storeElems storeCharacter Character.zero cur.toList elems).1,
      (storeElems storeCharacter Character.zero cur.toList elems).2)
  | .null => (none, false)
  | _ => (cur, true)

/-- Go's `json.Unmarshal(data, &characters)` into a nil `[]Character`: what is stored, and
whether an error is returned.  A syntax error stores nothing; a type error is returned
after the rest has been stored. -/
def Unmarshal (data : GoString) : Slice Character × Bool :=
  match parseDocument data with
  | none => (none, true)
  | some v => storeCharacters none v

/-- The encoder as `saveCharacters` takes it: `MarshalIndent` never fails on this type. -/
def marshalCharacters (characters : Slice Character) : Option GoString :=
  some (MarshalIndent characters)

/-! ## Valid UTF-8 -/

/-- A Go string with every invalid UTF-8 byte replaced by the bytes of U+FFFD, the coercion
encoding/json applies to strings.  The first argument bounds the number of runes. -/
def coerceLoop : Nat → GoString → GoString
  | 0, _ => []
  | _ + 1, [] => []
  | fuel + 1, b :: rest =>
    if b.val < 0x80 then b :: coerceLoop fuel rest
    else
      let r := DecodeRuneInString (b :: rest)
      if r.1 = RuneError ∧ r.2 = 1 then [0xEF, 0xBF, 0xBD] ++ coerceLoop fuel rest
      else (b :: rest).take r.2 ++ coerceLoop fuel ((b :: rest).drop r.2)

/-- The coercion of a string to valid UTF-8. -/
def coerceUTF8 (s : GoString) : GoString := coerceLoop s.length s

/-- Go's `utf8.ValidString`: no byte of the string decodes as an encoding error.  The first
argument bounds the number of runes. -/
def validLoop : Nat → GoString → Bool
  | 0, s => decide (s = [])
  | _ + 1, [] => true
  | fuel + 1, b :: rest =>
    if b.val < 0x80 then validLoop fuel rest
    else
      let r := DecodeRuneInString (b :: rest)
      if r.1 = RuneError ∧ r.2 = 1 then false
      else validLoop fuel ((b :: rest).drop r.2)

/-- Go's `utf8.ValidString`. -/
def ValidString (s : GoString) : Bool := validLoop s.length s

/-- A slice of strings with every string coerced to valid UTF-8. -/
def coerceStrings : Slice GoString → Slice GoString
  | none => none
  | some xs => some (xs.map coerceUTF8)

/-- A record with every string coerced to valid UTF-8. -/
def coerceCharacter (c : Character) : Character :=
  { c with
    Name := coerceUTF8 c.Name, Race := coerceUTF8 c.Race, Class := coerceUTF8 c.Class,
    Background := coerceUTF8 c.Background, Alignment := coerceUTF8 c.Alignment,
    Proficiencies := coerceStrings c.Proficiencies, Languages := coerceStrings c.Languages,
    Equipment := coerceStrings c.Equipment }

/-- A collection with every string coerced to valid UTF-8. -/
def coerceCharacters : Slice Character → Slice Character
  | none => none
  | some xs => some (xs.map coerceCharacter)

/-- Every integer field of the record is a value of `int`. -/
def Character.IntsInRange (c : Character) : Prop :=
  InIntRange c.Level ∧ InIntRange c.Strength ∧ InIntRange c.Dexterity ∧
  InIntRange c.Constitution ∧ InIntRange c.Intelligence ∧ InIntRange c.Wisdom ∧
  InIntRange c.Charisma ∧ InIntRange c.Experience ∧ InIntRange c.HitPoints ∧
  InIntRange c.ArmorClass ∧ InIntRange c.Initiative ∧ InIntRange c.Speed

/-- Every string of the slice is valid UTF-8. -/
def validStrings (s : Slice GoString) : Bool := s.toList.all ValidString

/-- Every string of the record is valid UTF-8. -/
def Character.ValidText (c : Character) : Prop :=
  ValidString c.Name = true ∧ ValidString c.Race = true ∧ ValidString c.Class = true ∧
  ValidString c.Background = true ∧ ValidString c.Alignment = true ∧
  validStrings c.Proficiencies = true ∧ validStrings c.Languages = true ∧
  validStrings c.Equipment = true

/-! ## Vocabulary for the round trip -/

/-- What follows an encoded value inside an indented document: nothing, a comma or a line
break. -/
def Delimited (rest : List Byte) : Prop :=
  rest = [] ∨ ∃ t, rest = 44 :: t ∨ rest = 10 :: t

/-- The text `item` is read as the JSON value `v` wherever it stands in a document, given
`k` levels of nesting below the scanner's limit: it starts with a byte that is neither
white space nor a closing bracket, and `parseValue` with more fuel than its length reads
exactly it. -/
def ParsesTo (k : Nat) (item : List Byte) (v : JValue) : Prop :=
  (∃ c t, item = c :: t ∧ isSpace c = false ∧ c ≠ 93) ∧
  ∀ fuel depth rest, item.length < fuel → depth + k ≤ maxNestingDepth →
    Delimited rest → parseValue fuel depth (item ++ rest) = some (v, rest)

/-- The syntax tree of the encoding of a `[]string` field. -/
def stringsValue : Slice GoString → JValue
  | none => JValue.null
  | some xs => JValue.array (xs.map (fun x => JValue.string (coerceUTF8 x)))

/-- The members of the encoding of a `Character`: key, encoded value and the syntax tree of
that value. -/
def characterTriples (depth : Nat) (c : Character) : List (GoString × List Byte × JValue) :=
  [ (ascii "name", appendString c.Name, JValue.string (coerceUTF8 c.Name)),
    (ascii "race", appendString c.Race, JValue.string (coerceUTF8 c.Race)),
    (ascii "class", appendString c.Class, JValue.string (coerceUTF8 c.Class)),
    (ascii "level", FormatInt c.Level, JValue.number (FormatInt c.Level)),
    (ascii "background", appendString c.Background, JValue.string (coerceUTF8 c.Background)),
    (ascii "strength", FormatInt c.Strength, JValue.number (FormatInt c.Strength)),
    (ascii "dexterity", FormatInt c.Dexterity, JValue.number (FormatInt c.Dexterity)),
    (ascii "constitution", FormatInt c.Constitution, JValue.number (FormatInt c.Constitution)),
    (ascii "intelligence", FormatInt c.Intelligence, JValue.number (FormatInt c.Intelligence)),
    (ascii "wisdom", FormatInt c.Wisdom, JValue.number (FormatInt c.Wisdom)),
    (ascii "charisma", FormatInt c.Charisma, JValue.number (FormatInt c.Charisma)),
    (ascii "alignment", appendString c.Alignment, JValue.string (coerceUTF8 c.Alignment)),
    (ascii "experience", FormatInt c.Experience, JValue.number (FormatInt c.Experience)),
    (ascii "hitPoints", FormatInt c.HitPoints, JValue.number (FormatInt c.HitPoints)),
    (ascii "armorClass", FormatInt c.ArmorClass, JValue.number (FormatInt c.ArmorClass)),
    (ascii "initiative", FormatInt c.Initiative, JValue.number (FormatInt c.Initiative)),
    (ascii "speed", FormatInt c.Speed, JValue.number (FormatInt c.Speed)),
    (ascii "proficiencies", encodeStrings depth c.Proficiencies, stringsValue c.Proficiencies),
    (ascii "languages", encodeStrings depth c.Languages, stringsValue c.Languages),
    (ascii "equipment", encodeStrings depth c.Equipment, stringsValue c.Equipment) ]

/-- The syntax tree of the encoding of a `Character`. -/
def characterValue (c : Character) : JValue :=
  JValue.object ((characterTriples 0 c).map (fun t => (coerceUTF8 t.1, t.2.2)))

/-- The syntax tree of the encoding of a `[]Character`. -/
def charactersValue : Slice Character → JValue
  | none => JValue.null
  | some xs => JValue.array (xs.map characterValue)

/-- The text of a member: the key literal, a colon, a space and the value. -/
def memberText (t : GoString × List Byte × JValue) : List Byte :=
  appendString t.1 ++ 58 :: 32 :: t.2.1

end Dnd

namespace Dnd

/-! ## Facts about `strconv.Atoi` -/

theorem digitsAcc_cons (n : Nat) (b : Byte) (l : List Byte) :
    digitsAcc n (b :: l) = digitsAcc (n * 10 + (b.val - 48)) l := rfl

theorem digitsAcc_ge (l : List Byte) : ∀ n, n ≤ digitsAcc n l := by
  induction l with
  | nil => intro n; exact Nat.le_refl _
  | cons b l ih =>
    intro n
    rw [digitsAcc_cons]
    have := ih (n * 10 + (b.val - 48))
    omega

theorem digitsAcc_lt (l : List Byte) (hl : l.all isDigit = true) :
    ∀ n, digitsAcc n l < (n + 1) * 10 ^ l.length := by
  induction l with
  | nil => intro n; simp [digitsAcc]
  | cons b l ih =>
    intro n
    rw [digitsAcc_cons]
    simp only [List.all_cons, Bool.and_eq_true] at hl
    have hb : 48 ≤ b.val ∧ b.val ≤ 57 := by simpa [isDigit] using hl.1
    have h1 := ih hl.2 (n * 10 + (b.val - 48))
    have h2 : (n * 10 + (b.val - 48) + 1) ≤ (n + 1) * 10 := by omega
    calc digitsAcc (n * 10 + (b.val - 48)) l
        < (n * 10 + (b.val - 48) + 1) * 10 ^ l.length := h1
      _ ≤ ((n + 1) * 10) * 10 ^ l.length := Nat.mul_le_mul_right _ h2
      _ = (n + 1) * 10 ^ (b :: l).length := by
          rw [List.length_cons, pow_succ]; ring

theorem wrapInt64_of_range (x : Int) (h : InIntRange x) : wrapInt64 x = x := by
  unfold InIntRange at h
  unfold wrapInt64
  omega

theorem atoiFastLoop_cons (ch : Byte) (rest : List Byte) (n : Int) :
    atoiFastLoop (ch :: rest) n =
      if (ch.val + 256 - 48) % 256 > 9 then none
      else atoiFastLoop rest (wrapInt64 (n * 10 + (((ch.val + 256 - 48) % 256 : Nat) : Int))) := rfl

theorem atoiFastLoop_digits (l : List Byte) (hl : l.all isDigit = true) :
    ∀ n : Nat, (digitsAcc n l : Int) < 2 ^ 63 →
      atoiFastLoop l (n : Int) = some (digitsAcc n l : Int) := by
  induction l with
  | nil => intro n _; rfl
  | cons b l ih =>
    intro n hn
    simp only [List.all_cons, Bool.and_eq_true] at hl
    have hb : 48 ≤ b.val ∧ b.val ≤ 57 := by simpa [isDigit] using hl.1
    rw [digitsAcc_cons] at hn ⊢
    have hge := digitsAcc_ge l (n * 10 + (b.val - 48))
    have hd : (b.val + 256 - 48) % 256 = b.val - 48 := by omega
    have hw : wrapInt64 ((n : Int) * 10 + (((b.val + 256 - 48) % 256 : Nat) : Int))
        = ((n * 10 + (b.val - 48) : Nat) : Int) := by
      rw [hd, wrapInt64_of_range]
      · push_cast; rfl
      · have h3 : ((n * 10 + (b.val - 48) : Nat) : Int) < 2 ^ 63 := by
          have : ((n * 10 + (b.val - 48) : Nat) : Int) ≤ (digitsAcc (n * 10 + (b.val - 48)) l : Int) := by
            exact_mod_cast hge
          omega
        constructor
        · have : (0 : Int) ≤ (n : Int) * 10 + ((b.val - 48 : Nat) : Int) := by positivity
          omega
        · push_cast at h3; exact h3
    rw [atoiFastLoop_cons, if_neg (by omega), hw]
    exact ih hl.2 _ hn

theorem atoiFastLoop_nondigit (l : List Byte) (hl : ¬ l.all isDigit = true) :
    ∀ n : Int, atoiFastLoop l n = none := by
  induction l with
  | nil => simp at hl
  | cons b l ih =>
    intro n
    rw [atoiFastLoop_cons]
    by_cases hb : (b.val + 256 - 48) % 256 > 9
    · rw [if_pos hb]
    · rw [if_neg hb]
      apply ih
      intro h
      apply hl
      have hbv := b.isLt
      have : isDigit b = true := by
        simp only [isDigit, decide_eq_true_eq]; omega
      simp [this, h]

theorem parseUintLoop_cons_nondigit (C M : Nat) (c : Byte) (rest : List Byte) (n : Nat)
    (hc : isDigit c = false) :
    parseUintLoop C M (c :: rest) n = (0, some NumError.ErrSyntax) := by
  have h : ¬ (48 ≤ c.val ∧ c.val ≤ 57) := by simpa [isDigit] using hc
  unfold parseUintLoop
  simp only [h, if_false]
  by_cases hl : 97 ≤ lower c.val ∧ lower c.val ≤ 122
  · simp only [hl, and_self, if_true]
    rw [if_pos (by omega)]
  · simp only [hl, if_false]

theorem parseUintLoop_cons_digit (C M : Nat) (c : Byte) (rest : List Byte) (n : Nat)
    (hc : isDigit c = true) :
    parseUintLoop C M (c :: rest) n =
      if n ≥ C then (M, some NumError.ErrRange)
      else if wrapUint64 (wrapUint64 (n * 10) + (c.val - 48)) < wrapUint64 (n * 10) ∨
          wrapUint64 (wrapUint64 (n * 10) + (c.val - 48)) > M then (M, some NumError.ErrRange)
      else parseUintLoop C M rest (wrapUint64 (wrapUint64 (n * 10) + (c.val - 48))) := by
  have h : 48 ≤ c.val ∧ c.val ≤ 57 := by simpa [isDigit] using hc
  conv => lhs; unfold parseUintLoop
  simp only [h, and_self, if_true]
  rw [if_neg (by omega)]

/-- The constants of `ParseUint(s, 10, 0)`. -/
theorem ParseUint_eq (s : GoString) (hs : s ≠ []) :
    ParseUint s = parseUintLoop 1844674407370955162 18446744073709551615 s 0 := by
  unfold ParseUint
  rw [if_neg hs]
  rfl

theorem parseUintLoop_fits (l : List Byte) (hl : l.all isDigit = true) :
    ∀ n, digitsAcc n l ≤ 18446744073709551615 →
      parseUintLoop 1844674407370955162 18446744073709551615 l n = (digitsAcc n l, none) := by
  induction l with
  | nil => intro n _; rfl
  | cons b l ih =>
    intro n hn
    simp only [List.all_cons, Bool.and_eq_true] at hl
    have hb : 48 ≤ b.val ∧ b.val ≤ 57 := by simpa [isDigit] using hl.1
    rw [digitsAcc_cons] at hn ⊢
    have hge := digitsAcc_ge l (n * 10 + (b.val - 48))
    rw [parseUintLoop_cons_digit _ _ _ _ _ hl.1]
    have h1 : wrapUint64 (n * 10) = n * 10 := by unfold wrapUint64; omega
    have h2 : wrapUint64 (n * 10 + (b.val - 48)) = n * 10 + (b.val - 48) := by
      unfold wrapUint64; omega
    rw [h1, h2, if_neg (by omega), if_neg (by omega)]
    exact ih hl.2 _ hn

theorem parseUintLoop_overflow (l : List Byte) (hl : l.all isDigit = true) :
    ∀ n, n ≤ 18446744073709551615 → 18446744073709551615 < digitsAcc n l →
      parseUintLoop 1844674407370955162 18446744073709551615 l n
        = (18446744073709551615, some NumError.ErrRange) := by
  induction l with
  | nil => intro n h1 h2; simp only [digitsAcc, List.foldl_nil] at h2; omega
  | cons b l ih =>
    intro n hn hov
    simp only [List.all_cons, Bool.and_eq_true] at hl
    have hb : 48 ≤ b.val ∧ b.val ≤ 57 := by simpa [isDigit] using hl.1
    rw [digitsAcc_cons] at hov
    rw [parseUintLoop_cons_digit _ _ _ _ _ hl.1]
    by_cases hc : n ≥ 1844674407370955162
    · rw [if_pos hc]
    · rw [if_neg hc]
      have h1 : wrapUint64 (n * 10) = n * 10 := by unfold wrapUint64; omega
      rw [h1]
      by_cases h3 : n * 10 + (b.val - 48) ≤ 18446744073709551615
      · have h2 : wrapUint64 (n * 10 + (b.val - 48)) = n * 10 + (b.val - 48) := by
          unfold wrapUint64; omega
        rw [h2, if_neg (by omega)]
        exact ih hl.2 _ h3 hov
      · rw [if_pos]
        left
        unfold wrapUint64
        omega

theorem parseUintLoop_nondigit (l : List Byte) (hl : ¬ l.all isDigit = true) :
    ∀ n, parseUintLoop 1844674407370955162 18446744073709551615 l n = (0, some NumError.ErrSyntax) ∨
      parseUintLoop 1844674407370955162 18446744073709551615 l n
        = (18446744073709551615, some NumError.ErrRange) := by
  induction l with
  | nil => simp at hl
  | cons b l ih =>
    intro n
    cases hb : isDigit b with
    | false => left; exact parseUintLoop_cons_nondigit _ _ _ _ _ hb
    | true =>
      have hl2 : ¬ l.all isDigit = true := by
        intro h; apply hl; simp [hb, h]
      rw [parseUintLoop_cons_digit _ _ _ _ _ hb]
      split
      · right; rfl
      · split
        · right; rfl
        · exact ih hl2 _

theorem ParseInt_cons (c : Byte) (t : List Byte) :
    ParseInt (c :: t) =
      parseIntCore (decide (c = 45)) (if c = 43 then t else if c = 45 then t else c :: t) := rfl

theorem ParseUint_digits (t : GoString) (ht : t ≠ []) (hd : t.all isDigit = true) :
    ParseUint t = if digitsValue t ≤ 18446744073709551615 then (digitsValue t, none)
      else (18446744073709551615, some NumError.ErrRange) := by
  rw [ParseUint_eq t ht]
  split
  · next h => exact parseUintLoop_fits t hd 0 h
  · next h => exact parseUintLoop_overflow t hd 0 (by omega) (by unfold digitsValue at h; omega)

theorem ParseUint_nondigits (t : GoString) (hd : ¬ (t ≠ [] ∧ t.all isDigit = true)) :
    ParseUint t = (0, some NumError.ErrSyntax) ∨
      ParseUint t = (18446744073709551615, some NumError.ErrRange) := by
  by_cases ht : t = []
  · left; subst ht; rfl
  · rw [ParseUint_eq t ht]
    exact parseUintLoop_nondigit t (fun h => hd ⟨ht, h⟩) 0

theorem parseIntCore_digits (neg : Bool) (t : GoString) (ht : t ≠ []) (hd : t.all isDigit = true) :
    (InIntRange (if neg then -(digitsValue t : Int) else (digitsValue t : Int)) →
      parseIntCore neg t = (if neg then -(digitsValue t : Int) else (digitsValue t : Int), none)) ∧
    (¬ InIntRange (if neg then -(digitsValue t : Int) else (digitsValue t : Int)) →
      (parseIntCore neg t).2 = some NumError.ErrRange) := by
  unfold parseIntCore
  rw [ParseUint_digits t ht hd]
  generalize digitsValue t = u
  have hc : (2 : Nat) ^ (intSize - 1) = 9223372036854775808 := by decide
  rw [hc]
  unfold InIntRange
  by_cases hu : u ≤ 18446744073709551615
  · rw [if_pos hu]
    simp only [reduceCtorEq, if_false]
    cases neg with
    | false =>
      simp only [Bool.not_false, true_and, Bool.false_eq_true, false_and, if_false]
      constructor
      · intro h
        rw [if_neg (by omega), wrapInt64_of_range _ (by unfold InIntRange; omega)]
      · intro h
        rw [if_pos (by omega)]
    | true =>
      simp only [Bool.not_true, Bool.false_eq_true, false_and, if_false, true_and, if_true]
      constructor
      · intro h
        rw [if_neg (by omega)]
        have hw : wrapInt64 (-(wrapInt64 (u : Int))) = -(u : Int) := by
          unfold wrapInt64
          omega
        rw [hw]
      · intro h
        rw [if_pos (by omega)]
  · rw [if_neg hu]
    simp only [Option.some.injEq, reduceCtorEq, if_false]
    cases neg with
    | false =>
      simp only [Bool.not_false, true_and, Bool.false_eq_true, if_false]
      constructor
      · intro h; omega
      · intro _; rfl
    | true =>
      simp only [Bool.not_true, Bool.false_eq_true, false_and, if_false, true_and, if_true]
      constructor
      · intro h; omega
      · intro _; rfl

theorem parseIntCore_nondigits (neg : Bool) (t : GoString)
    (hd : ¬ (t ≠ [] ∧ t.all isDigit = true)) :
    (parseIntCore neg t).2 = some NumError.ErrSyntax ∨
      (parseIntCore neg t).2 = some NumError.ErrRange := by
  unfold parseIntCore
  rcases ParseUint_nondigits t hd with h | h
  · left; rw [h]; rfl
  · right; rw [h]; cases neg <;> rfl

/-- What `decimalValue` says of a text that starts with a sign. -/
theorem decimalValue_signed (c : Byte) (t : List Byte) (hc : c = 43 ∨ c = 45) :
    decimalValue (c :: t) =
      if t ≠ [] ∧ t.all isDigit = true then
        some (if c = 45 then -(digitsValue t : Int) else (digitsValue t : Int))
      else none := by
  simp only [decimalValue]
  rw [if_pos hc]

/-- What `decimalValue` says of a text that does not start with a sign. -/
theorem decimalValue_unsigned (c : Byte) (t : List Byte) (hc : ¬ (c = 43 ∨ c = 45)) :
    decimalValue (c :: t) =
      if (c :: t).all isDigit = true then some (digitsValue (c :: t) : Int) else none := by
  simp only [decimalValue]
  rw [if_neg hc]

/-- `ParseInt(s, 10, 0)` against the decimal reading of the text. -/
theorem ParseInt_spec (s : GoString) :
    (∀ v, decimalValue s = some v → InIntRange v → ParseInt s = (v, none)) ∧
    (∀ v, decimalValue s = some v → ¬ InIntRange v → (ParseInt s).2 = some NumError.ErrRange) ∧
    (decimalValue s = none → (ParseInt s).2 ≠ none) := by
  cases s with
  | nil =>
    refine ⟨?_, ?_, ?_⟩
    · intro v h; simp [decimalValue] at h
    · intro v h; simp [decimalValue] at h
    · intro _; simp [ParseInt]
  | cons c t =>
    rw [ParseInt_cons]
    by_cases hc : c = 43 ∨ c = 45
    · rw [decimalValue_signed c t hc]
      have hs1 : (if c = 43 then t else if c = 45 then t else c :: t) = t := by
        rcases hc with h | h <;> simp [h]
      rw [hs1]
      by_cases hd : t ≠ [] ∧ t.all isDigit = true
      · rw [if_pos hd]
        have key := parseIntCore_digits (decide (c = 45)) t hd.1 hd.2
        have hv : (if decide (c = 45) = true then -(digitsValue t : Int) else (digitsValue t : Int))
            = (if c = 45 then -(digitsValue t : Int) else (digitsValue t : Int)) := by
          by_cases h : c = 45 <;> simp [h]
        rw [hv] at key
        refine ⟨?_, ?_, ?_⟩
        · intro v h hr
          cases h
          exact key.1 hr
        · intro v h hr
          cases h
          exact key.2 hr
        · intro h; cases h
      · rw [if_neg hd]
        refine ⟨?_, ?_, ?_⟩
        · intro v h; cases h
        · intro v h; cases h
        · intro _
          rcases parseIntCore_nondigits (decide (c = 45)) t hd with h | h <;> rw [h] <;> simp
    · rw [decimalValue_unsigned c t hc]
      have h43 : ¬ c = 43 := fun h => hc (Or.inl h)
      have h45 : ¬ c = 45 := fun h => hc (Or.inr h)
      rw [if_neg h43, if_neg h45]
      have hneg : decide (c = 45) = false := by simp [h45]
      rw [hneg]
      by_cases hd : (c :: t).all isDigit = true
      · rw [if_pos hd]
        have key := parseIntCore_digits false (c :: t) (by simp) hd
        simp only [Bool.false_eq_true, if_false] at key
        refine ⟨?_, ?_, ?_⟩
        · intro v h hr
          cases h
          exact key.1 hr
        · intro v h hr
          cases h
          exact key.2 hr
        · intro h; cases h
      · rw [if_neg hd]
        refine ⟨?_, ?_, ?_⟩
        · intro v h; cases h
        · intro v h; cases h
        · intro _
          rcases parseIntCore_nondigits false (c :: t) (fun h => hd h.2) with h | h <;>
            rw [h] <;> simp

theorem Atoi_slow (s : GoString) (h : ¬ (0 < s.length ∧ s.length < 19)) : Atoi s = ParseInt s := by
  unfold Atoi
  have h32 : (intSize == 32) = false := by decide
  have h64 : (intSize == 64) = true := by decide
  simp only [h32, h64, Bool.false_and, Bool.true_and, Bool.false_or]
  rw [if_neg]
  simpa using h

theorem Atoi_fast (c : Byte) (t : List Byte) (h : (c :: t).length < 19) :
    Atoi (c :: t) =
      if (c = 45 ∨ c = 43) ∧ t.length < 1 then (0, some NumError.ErrSyntax)
      else
        match atoiFastLoop (if c = 45 ∨ c = 43 then t else c :: t) 0 with
        | none => (0, some NumError.ErrSyntax)
        | some n => (if c = 45 then wrapInt64 (-n) else n, none) := by
  unfold Atoi
  have h32 : (intSize == 32) = false := by decide
  have h64 : (intSize == 64) = true := by decide
  simp only [h32, h64, Bool.false_and, Bool.true_and, Bool.false_or]
  rw [if_pos (by simp only [Bool.and_eq_true, decide_eq_true_eq]; exact ⟨by simp, h⟩)]
  by_cases hs : c = 45 ∨ c = 43
  · simp [hs]
  · have h1 : ¬ c = 45 := fun h => hs (Or.inl h)
    have h2 : ¬ c = 43 := fun h => hs (Or.inr h)
    simp [h1, h2]

theorem digitsValue_lt_of_length (t : List Byte) (hd : t.all isDigit = true)
    (hlen : t.length ≤ 18) : digitsValue t < 1000000000000000000 := by
  have h1 := digitsAcc_lt t hd 0
  have h2 : 10 ^ t.length ≤ 10 ^ 18 := Nat.pow_le_pow_right (by decide) hlen
  have h3 : (10 : Nat) ^ 18 = 1000000000000000000 := by norm_num
  unfold digitsValue
  omega

theorem atoiFastLoop_short (t : List Byte) (hd : t.all isDigit = true) (hlen : t.length ≤ 18) :
    atoiFastLoop t 0 = some (digitsValue t : Int) := by
  have hlt := digitsValue_lt_of_length t hd hlen
  have := atoiFastLoop_digits t hd 0 (by unfold digitsValue at hlt; omega)
  simpa [digitsValue] using this

/-- The fast path of `Atoi` against the decimal reading of the text. -/
theorem Atoi_fast_spec (c : Byte) (t : List Byte) (hlen : (c :: t).length < 19) :
    (∀ v, decimalValue (c :: t) = some v → InIntRange v ∧ Atoi (c :: t) = (v, none)) ∧
    (decimalValue (c :: t) = none → (Atoi (c :: t)).2 ≠ none) := by
  rw [Atoi_fast c t hlen]
  have hlen2 : t.length ≤ 17 := by simp only [List.length_cons] at hlen; omega
  by_cases hc : c = 43 ∨ c = 45
  · have hc2 : c = 45 ∨ c = 43 := hc.symm
    rw [decimalValue_signed c t hc]
    simp only [hc2, true_and, if_true]
    by_cases hd : t ≠ [] ∧ t.all isDigit = true
    · rw [if_pos hd]
      have hpos : ¬ t.length < 1 := by
        have := List.length_pos.mpr hd.1
        omega
      rw [if_neg hpos, atoiFastLoop_short t hd.2 (by omega)]
      have hlt := digitsValue_lt_of_length t hd.2 (by omega)
      refine ⟨?_, fun h => by cases h⟩
      intro v h
      cases h
      by_cases h45 : c = 45
      · simp only [h45, if_true]
        refine ⟨by unfold InIntRange; omega, ?_⟩
        rw [wrapInt64_of_range _ (by unfold InIntRange; omega)]
      · simp only [h45, if_false]
        exact ⟨by unfold InIntRange; omega, trivial⟩
    · rw [if_neg hd]
      refine ⟨fun v h => Option.noConfusion h, fun _ => ?_⟩
      by_cases ht : t = []
      · subst ht; simp
      · have hpos : ¬ t.length < 1 := by
          have := List.length_pos.mpr ht
          omega
        rw [if_neg hpos, atoiFastLoop_nondigit t (fun h => hd ⟨ht, h⟩)]
        simp
  · have hc2 : ¬ (c = 45 ∨ c = 43) := fun h => hc h.symm
    have h45 : ¬ c = 45 := fun h => hc (Or.inr h)
    rw [decimalValue_unsigned c t hc]
    simp only [hc2, false_and, if_false]
    by_cases hd : (c :: t).all isDigit = true
    · rw [if_pos hd, atoiFastLoop_short (c :: t) hd (by omega)]
      have hlt := digitsValue_lt_of_length (c :: t) hd (by omega)
      refine ⟨?_, fun h => by cases h⟩
      intro v h
      cases h
      simp only [h45, if_false]
      exact ⟨by unfold InIntRange; omega, trivial⟩
    · rw [if_neg hd, atoiFastLoop_nondigit (c :: t) hd]
      exact ⟨fun v h => Option.noConfusion h, fun _ => by simp⟩

/-- `Atoi` returns `v` with a nil error on a decimal text whose value `v` fits `int`. -/
theorem Atoi_of_decimal (s : GoString) (v : Int) (h : decimalValue s = some v)
    (hr : InIntRange v) : Atoi s = (v, none) := by
  by_cases hl : 0 < s.length ∧ s.length < 19
  · cases s with
    | nil => simp at hl
    | cons c t => exact ((Atoi_fast_spec c t hl.2).1 v h).2
  · rw [Atoi_slow s hl]
    exact (ParseInt_spec s).1 v h hr

/-- `Atoi` reports a range error on a decimal text whose value does not fit `int`. -/
theorem Atoi_of_out_of_range (s : GoString) (v : Int) (h : decimalValue s = some v)
    (hr : ¬ InIntRange v) : (Atoi s).2 = some NumError.ErrRange := by
  by_cases hl : 0 < s.length ∧ s.length < 19
  · cases s with
    | nil => simp at hl
    | cons c t => exact absurd ((Atoi_fast_spec c t hl.2).1 v h).1 hr
  · rw [Atoi_slow s hl]
    exact (ParseInt_spec s).2.1 v h hr

/-- `Atoi` reports an error on every text that is not a decimal integer literal. -/
theorem Atoi_of_not_decimal (s : GoString) (h : decimalValue s = none) : (Atoi s).2 ≠ none := by
  by_cases hl : 0 < s.length ∧ s.length < 19
  · cases s with
    | nil => simp at hl
    | cons c t => exact (Atoi_fast_spec c t hl.2).2 h
  · rw [Atoi_slow s hl]
    exact (ParseInt_spec s).2.2 h

/-- `Atoi` succeeds exactly on the decimal integer literals whose value fits `int`. -/
theorem Atoi_ok_iff (s : GoString) (v : Int) :
    Atoi s = (v, none) ↔ decimalValue s = some v ∧ InIntRange v := by
  constructor
  · intro h
    cases hd : decimalValue s with
    | none => exact absurd (by rw [h]) (Atoi_of_not_decimal s hd)
    | some w =>
      by_cases hr : InIntRange w
      · have := Atoi_of_decimal s w hd hr
        rw [h] at this
        cases this
        exact ⟨rfl, hr⟩
      · have := Atoi_of_out_of_range s w hd hr
        rw [h] at this
        cases this
  · intro h
    exact Atoi_of_decimal s v h.1 h.2

/-! ## deleteCharacter -/

theorem deleteCharacter_eq_of_valid (C : Slice Character) (indexStr : GoString) (p : Nat)
    (hparse : Atoi indexStr = ((p : Int), none)) (h1 : 1 ≤ p) (h2 : p ≤ C.len) :
    deleteCharacter C indexStr = some (C.toList.take (p - 1) ++ C.toList.drop p) := by
  unfold deleteCharacter
  rw [hparse]
  have hlen : ¬ C.len = 0 := by omega
  rw [if_neg hlen]
  simp only [ne_eq, not_true_eq_false, false_or]
  rw [if_neg (by omega), if_neg (by omega)]
  simp

/-- C1: for a collection of length L and an entered text that `Atoi` reads as a position p
with 1 ≤ p ≤ L (p = L included), `deleteCharacter` returns a collection of length L - 1
that is the collection with exactly the element at 0-based index p - 1 removed: every
element before it keeps its index, every element after it moves down by one. -/
theorem deleteCharacter_removes (C : Slice Character) (indexStr : GoString) (p : Nat)
    (hparse : Atoi indexStr = ((p : Int), none)) (h1 : 1 ≤ p) (h2 : p ≤ C.len) :
    (deleteCharacter C indexStr).len = C.len - 1 ∧
    (deleteCharacter C indexStr).toList = C.toList.eraseIdx (p - 1) ∧
    (∀ i, i < p - 1 → (deleteCharacter C indexStr).toList[i]? = C.toList[i]?) ∧
    (∀ i, p - 1 ≤ i → (deleteCharacter C indexStr).toList[i]? = C.toList[i + 1]?) := by
  have hlist : (deleteCharacter C indexStr).toList = C.toList.eraseIdx (p - 1) := by
    rw [deleteCharacter_eq_of_valid C indexStr p hparse h1 h2]
    simp only [Slice.toList]
    rw [List.eraseIdx_eq_take_drop_succ]
    have : p - 1 + 1 = p := by omega
    rw [this]
  have hL : p - 1 < C.toList.length := by unfold Slice.len at h2; omega
  refine ⟨?_, hlist, ?_, ?_⟩
  · unfold Slice.len
    rw [hlist, List.length_eraseIdx, if_pos hL]
  · intro i hi
    rw [hlist, List.getElem?_eraseIdx, if_pos hi]
  · intro i hi
    rw [hlist, List.getElem?_eraseIdx, if_neg (by omega)]

/-- C1, the example of the specification: deleting position 1 of [Aria, Borin] leaves
[Borin]. -/
theorem deleteCharacter_removes_witness :
    Atoi (ascii "1") = (((1 : Nat) : Int), none) ∧
    (deleteCharacter (some [named "Aria", named "Borin"]) (ascii "1")).toList = [named "Borin"] ∧
    (deleteCharacter (some [named "Aria", named "Borin"]) (ascii "1")).len = 1 :=
  ⟨by decide,
   (deleteCharacter_removes (some [named "Aria", named "Borin"]) (ascii "1") 1
      (by decide) (by decide) (by decide)).2.1,
   (deleteCharacter_removes (some [named "Aria", named "Borin"]) (ascii "1") 1
      (by decide) (by decide) (by decide)).1⟩

/-- C2: `deleteCharacter` returns the collection it was given whenever the entered text is
not a position in 1..L: when `Atoi` rejects the text, when the position is negative, when it
is above the length L, and when it is 0 (the cancel sentinel). -/
theorem deleteCharacter_unchanged (C : Slice Character) (indexStr : GoString)
    (h : (Atoi indexStr).2 ≠ none ∨ (Atoi indexStr).1 < 0 ∨
      (Atoi indexStr).1 > (C.len : Int) ∨ (Atoi indexStr).1 = 0) :
    deleteCharacter C indexStr = C := by
  unfold deleteCharacter
  by_cases hlen : C.len = 0
  · rw [if_pos hlen]
  · rw [if_neg hlen]
    by_cases hbad : (Atoi indexStr).2 ≠ none ∨ (Atoi indexStr).1 < 0 ∨
        (Atoi indexStr).1 > (C.len : Int)
    · simp only []
      rw [if_pos hbad]
    · simp only []
      rw [if_neg hbad]
      have h0 : (Atoi indexStr).1 = 0 := by
        rcases h with h | h | h | h
        · exact absurd (Or.inl h) hbad
        · exact absurd (Or.inr (Or.inl h)) hbad
        · exact absurd (Or.inr (Or.inr h)) hbad
        · exact h
      rw [if_pos h0]

/-- C2, the examples of the specification: positions 3 and 0, and a text that is no
number, leave [Aria, Borin] as it is. -/
theorem deleteCharacter_unchanged_witness :
    deleteCharacter (some [named "Aria", named "Borin"]) (ascii "3")
      = some [named "Aria", named "Borin"] ∧
    deleteCharacter (some [named "Aria", named "Borin"]) (ascii "0")
      = some [named "Aria", named "Borin"] ∧
    deleteCharacter (some [named "Aria", named "Borin"]) (ascii "one")
      = some [named "Aria", named "Borin"] :=
  ⟨deleteCharacter_unchanged (some [named "Aria", named "Borin"]) (ascii "3")
      (Or.inr (Or.inr (Or.inl (by decide)))),
   deleteCharacter_unchanged (some [named "Aria", named "Borin"]) (ascii "0")
      (Or.inr (Or.inr (Or.inr (by decide)))),
   deleteCharacter_unchanged (some [named "Aria", named "Borin"]) (ascii "one")
      (Or.inl (by decide))⟩

/-! ## createCharacter: the numeric fields -/

theorem convertToInt_of_decimal (s : GoString) (v : Int) (h : decimalValue s = some v)
    (hr : InIntRange v) : convertToInt s = v := by
  unfold convertToInt
  rw [Atoi_of_decimal s v h hr]
  simp

theorem convertToInt_of_invalid (s : GoString)
    (h : ¬ ∃ v, decimalValue s = some v ∧ InIntRange v) : convertToInt s = 0 := by
  unfold convertToInt
  have herr : (Atoi s).2 ≠ none := by
    cases hd : decimalValue s with
    | none => exact Atoi_of_not_decimal s hd
    | some v =>
      have hr : ¬ InIntRange v := fun hr => h ⟨v, hd, hr⟩
      rw [Atoi_of_out_of_range s v hd hr]
      simp
  simp only []
  rw [if_pos herr]

/-- Entering the text `s` in the integer field `f` changes the outcome of `createCharacter`
in one place only: an accepted record has `convertToInt s` in field `f`. -/
theorem createCharacter_enter (f : IntField) (inp : CreateInputs) (s : GoString) :
    createCharacter (inp.enter f s) =
      (createCharacter inp).map
        (fun r => if r.2 then (f.set r.1 (convertToInt s), true) else r) := by
  unfold createCharacter
  cases hE : inp.formErr with
  | true => cases f <;> simp [CreateInputs.enter, hE]
  | false =>
    have hE' : (inp.enter f s).formErr = false := by simpa [CreateInputs.enter] using hE
    have hP : (inp.enter f s).prompts = inp.prompts := rfl
    have hC : (inp.enter f s).confirm = inp.confirm := rfl
    simp only [hE', hP, hC, Bool.false_eq_true, if_false, Character.zero]
    cases h1 : addRepeatingInput inp.prompts none with
    | none => rfl
    | some r1 =>
      obtain ⟨profs, rest1⟩ := r1
      simp only []
      cases h2 : addRepeatingInput rest1 none with
      | none => rfl
      | some r2 =>
        obtain ⟨langs, rest2⟩ := r2
        simp only []
        cases h3 : addRepeatingInput rest2 none with
        | none => rfl
        | some r3 =>
          obtain ⟨equip, rest3⟩ := r3
          cases hc : inp.confirm with
          | false => simp
          | true => cases f <;> simp [CreateInputs.enter, IntField.enter, IntField.set]

theorem digitByte_val (k : Nat) (hk : k < 10) : ((Fin.ofNat (48 + k) : Byte)).val = 48 + k := by
  show (48 + k) % 256 = 48 + k
  omega

theorem digitsAcc_append (m : Nat) (a b : List Byte) :
    digitsAcc m (a ++ b) = digitsAcc (digitsAcc m a) b := by
  unfold digitsAcc
  rw [List.foldl_append]

theorem formatDigits_spec (fuel : Nat) : ∀ (n : Nat) (acc : List Byte), n < fuel →
    ∃ ds : List Byte, formatDigits fuel n acc = ds ++ acc ∧ ds ≠ [] ∧ ds.all isDigit = true ∧
      ∀ m, digitsAcc m ds = m * 10 ^ ds.length + n := by
  induction fuel with
  | zero => intro n acc h; omega
  | succ fuel ih =>
    intro n acc hn
    have hdv := digitByte_val (n % 10) (Nat.mod_lt _ (by decide))
    have hdig : isDigit (Fin.ofNat (48 + n % 10) : Byte) = true := by
      simp only [isDigit, decide_eq_true_eq]
      omega
    unfold formatDigits
    by_cases h0 : n / 10 = 0
    · rw [if_pos h0]
      refine ⟨[Fin.ofNat (48 + n % 10)], rfl, by simp, by simp [hdig], ?_⟩
      intro m
      simp only [digitsAcc, List.foldl_cons, List.foldl_nil, List.length_singleton, pow_one]
      omega
    · rw [if_neg h0]
      obtain ⟨ds, heq, hne, hall, hval⟩ :=
        ih (n / 10) (Fin.ofNat (48 + n % 10) :: acc) (by omega)
      refine ⟨ds ++ [Fin.ofNat (48 + n % 10)], ?_, by simp, ?_, ?_⟩
      · rw [heq]; simp
      · simp [hall, hdig]
      · intro m
        rw [digitsAcc_append, hval m]
        simp only [digitsAcc, List.foldl_cons, List.foldl_nil, List.length_append,
          List.length_singleton, pow_succ]
        have : (m * 10 ^ ds.length + n / 10) * 10 + (n % 10) = m * (10 ^ ds.length * 10) + n := by
          have := Nat.div_add_mod n 10
          ring_nf
          omega
        omega

/-- The digits that `FormatInt` writes for a non-negative number denote that number. -/
theorem formatDigits_value (n : Nat) :
    formatDigits (n + 1) n [] ≠ [] ∧ (formatDigits (n + 1) n []).all isDigit = true ∧
      digitsValue (formatDigits (n + 1) n []) = n := by
  obtain ⟨ds, heq, hne, hall, hval⟩ := formatDigits_spec (n + 1) n [] (by omega)
  rw [heq, List.append_nil]
  refine ⟨hne, hall, ?_⟩
  unfold digitsValue
  rw [hval 0]
  omega

theorem isDigit_not_sign (c : Byte) (h : isDigit c = true) : ¬ (c = 43 ∨ c = 45) := by
  rintro (rfl | rfl) <;> revert h <;> decide

/-- The decimal text of an integer reads back as that integer. -/
theorem decimalValue_FormatInt (n : Int) : decimalValue (FormatInt n) = some n := by
  obtain ⟨hne, hall, hval⟩ := formatDigits_value n.natAbs
  unfold FormatInt
  by_cases hn : n < 0
  · rw [if_pos hn, decimalValue_signed _ _ (Or.inr rfl), if_pos ⟨hne, hall⟩, hval]
    simp only [if_true]
    congr 1
    omega
  · rw [if_neg hn]
    cases hds : formatDigits (n.natAbs + 1) n.natAbs [] with
    | nil => exact absurd hds hne
    | cons c t =>
      rw [hds] at hall hval
      have hc : isDigit c = true := by
        simp only [List.all_cons, Bool.and_eq_true] at hall
        exact hall.1
      rw [decimalValue_unsigned c t (isDigit_not_sign c hc), if_pos hall, hval]
      congr 1
      omega

theorem IntField.get_set (f : IntField) (c : Character) (v : Int) : f.get (f.set c v) = v := by
  cases f <;> rfl

theorem IntField.set_set (f : IntField) (c : Character) (v w : Int) :
    f.set (f.set c v) w = f.set c w := by
  cases f <;> rfl

theorem IntField.get_zero (f : IntField) : f.get Character.zero = 0 := by
  cases f <;> rfl

/-- A record returned with `created = false` is the zero record. -/
theorem createCharacter_declined (inp : CreateInputs) (c : Character)
    (h : createCharacter inp = some (c, false)) : c = Character.zero := by
  unfold createCharacter at h
  split at h
  · cases h; rfl
  · simp only [] at h
    split at h
    · cases h
    · split at h
      · cases h
      · split at h
        · cases h
        · split at h
          · cases h
          · cases h; rfl

/-- C4: for each of the twelve integer fields and every entered text that is not the decimal
text of an `int` (the empty text included), `createCharacter` behaves as on the other
inputs except that an accepted record has 0 in that field: the field is 0 in the record it
returns, and whatever text is entered there instead, the flag, the other fields and
whether it returns are the same. -/
theorem createCharacter_numeric_coercion (f : IntField) (inp : CreateInputs) (s : GoString)
    (hs : ¬ ∃ v, decimalValue s = some v ∧ InIntRange v) :
    createCharacter (inp.enter f s) =
        (createCharacter inp).map (fun r => if r.2 then (f.set r.1 0, true) else r) ∧
    (∀ c b, createCharacter (inp.enter f s) = some (c, b) → f.get c = 0) ∧
    (∀ s', (createCharacter (inp.enter f s)).map (fun r => (f.set r.1 0, r.2)) =
        (createCharacter (inp.enter f s')).map (fun r => (f.set r.1 0, r.2))) := by
  have h0 := convertToInt_of_invalid s hs
  have hmain := createCharacter_enter f inp s
  rw [h0] at hmain
  refine ⟨hmain, ?_, ?_⟩
  · intro c b hcb
    cases b with
    | false => rw [createCharacter_declined _ c hcb]; exact f.get_zero
    | true =>
      rw [hmain] at hcb
      cases hr : createCharacter inp with
      | none => rw [hr] at hcb; cases hcb
      | some r =>
        rw [hr] at hcb
        obtain ⟨c', b'⟩ := r
        cases b' with
        | false => simp at hcb
        | true =>
          simp only [Option.map_some', if_true, Option.some.injEq, Prod.mk.injEq, and_true] at hcb
          rw [← hcb]
          exact f.get_set c' 0
  · intro s'
    rw [hmain, createCharacter_enter f inp s']
    cases createCharacter inp with
    | none => rfl
    | some r =>
      obtain ⟨c', b'⟩ := r
      cases b' with
      | false => rfl
      | true => simp [IntField.set_set]

/-- C4 at the empty text entered for the level. -/
theorem createCharacter_numeric_coercion_witness :
    (¬ ∃ v, decimalValue [] = some v ∧ InIntRange v) ∧
    createCharacter (CreateInputs.plain.enter IntField.Level []) =
      (createCharacter CreateInputs.plain).map
        (fun r => if r.2 then (IntField.Level.set r.1 0, true) else r) :=
  ⟨fun ⟨_, h, _⟩ => Option.noConfusion h,
   (createCharacter_numeric_coercion IntField.Level CreateInputs.plain []
      (fun ⟨_, h, _⟩ => Option.noConfusion h)).1⟩

/-- C8, as stated, fails: the decimal text of 2^63 entered as the strength gives an accepted
record whose strength is 0. -/
theorem createCharacter_ability_huge :
    (createCharacter (CreateInputs.plain.enter IntField.Strength (FormatInt (2 ^ 63)))).map
        (fun r => (r.1.Strength, r.2)) = some (0, true) ∧
      (0 : Int) ≠ 2 ^ 63 := by
  decide

/-- C8 amended: for every integer field, the six ability scores among them, and every
integer n entered as its decimal text, an accepted record has n in that field when n is a
value of `int` (-2^63 ≤ n < 2^63), whatever its sign and however large within that range;
outside that range the field is 0. Nothing else in the outcome depends on n. -/
theorem createCharacter_ability_value (f : IntField) (inp : CreateInputs) (n : Int) :
    (InIntRange n →
      createCharacter (inp.enter f (FormatInt n)) =
          (createCharacter inp).map (fun r => if r.2 then (f.set r.1 n, true) else r) ∧
      ∀ c, createCharacter (inp.enter f (FormatInt n)) = some (c, true) → f.get c = n) ∧
    (¬ InIntRange n →
      ∀ c, createCharacter (inp.enter f (FormatInt n)) = some (c, true) → f.get c = 0) := by
  have hget : ∀ v : Int, createCharacter (inp.enter f (FormatInt n)) =
      (createCharacter inp).map (fun r => if r.2 then (f.set r.1 v, true) else r) →
      ∀ c, createCharacter (inp.enter f (FormatInt n)) = some (c, true) → f.get c = v := by
    intro v hmain c hc
    rw [hmain] at hc
    cases hr : createCharacter inp with
    | none => rw [hr] at hc; cases hc
    | some r =>
      rw [hr] at hc
      obtain ⟨c', b'⟩ := r
      cases b' with
      | false => simp at hc
      | true =>
        simp only [Option.map_some', if_true, Option.some.injEq, Prod.mk.injEq, and_true] at hc
        rw [← hc]
        exact f.get_set c' v
  constructor
  · intro hn
    have hmain := createCharacter_enter f inp (FormatInt n)
    rw [convertToInt_of_decimal _ n (decimalValue_FormatInt n) hn] at hmain
    exact ⟨hmain, hget n hmain⟩
  · intro hn
    have hmain := createCharacter_enter f inp (FormatInt n)
    have h0 : convertToInt (FormatInt n) = 0 := by
      apply convertToInt_of_invalid
      rintro ⟨v, hv, hr⟩
      rw [decimalValue_FormatInt] at hv
      cases hv
      exact hn hr
    rw [h0] at hmain
    exact hget 0 hmain

/-- C8 amended at -7 entered as the dexterity. -/
theorem createCharacter_ability_value_witness :
    IntField.Dexterity.isAbility = true ∧ InIntRange (-7) ∧
    createCharacter (CreateInputs.plain.enter IntField.Dexterity (FormatInt (-7))) =
      (createCharacter CreateInputs.plain).map
        (fun r => if r.2 then (IntField.Dexterity.set r.1 (-7), true) else r) :=
  ⟨rfl, by decide,
   ((createCharacter_ability_value IntField.Dexterity CreateInputs.plain (-7)).1
      (by decide)).1⟩

/-! ## createCharacter: cancelling, and the collection fields -/

/-- C5: when the form fails or the final confirmation is declined, `createCharacter`
returns the zero record with `created = false`, at once when the form fails and otherwise
in exactly the cases in which it returns with the confirmation accepted (when the repeated
prompts end), and the create step of the main loop then leaves the state, collection and
file, as it was: nothing is appended and nothing is written. -/
theorem create_cancel (inp : CreateInputs) (h : inp.formErr = true ∨ inp.confirm = false) :
    (∀ r, createCharacter inp = some r → r = (Character.zero, false)) ∧
    (inp.formErr = true → createCharacter inp = some (Character.zero, false)) ∧
    (inp.formErr = false → createCharacter inp =
      (createCharacter { inp with confirm := true }).map (fun _ => (Character.zero, false))) ∧
    (∀ (marshal : Slice Character → Option GoString) (i : StepInput) (st : State),
      i.action = ascii "create" → i.create = inp →
        mainStep marshal i st = (createCharacter inp).map (fun _ => st)) := by
  have h1 : ∀ r, createCharacter inp = some r → r = (Character.zero, false) := by
    intro r hr
    unfold createCharacter at hr
    split at hr
    · cases hr; rfl
    · next hE =>
      have hc : inp.confirm = false := by
        rcases h with h | h
        · exact absurd h hE
        · exact h
      simp only [hc, Bool.false_eq_true, if_false] at hr
      split at hr
      · cases hr
      · split at hr
        · cases hr
        · split at hr
          · cases hr
          · cases hr; rfl
  refine ⟨h1, ?_, ?_, ?_⟩
  · intro hE
    unfold createCharacter
    rw [if_pos hE]
  · intro hE
    have hc : inp.confirm = false := by
      rcases h with h | h
      · rw [hE] at h; cases h
      · exact h
    unfold createCharacter
    simp only [hE, hc, Bool.false_eq_true, if_false, if_true]
    cases addRepeatingInput inp.prompts Character.zero.Proficiencies with
    | none => rfl
    | some r1 =>
      obtain ⟨profs, rest1⟩ := r1
      simp only []
      cases addRepeatingInput rest1 Character.zero.Languages with
      | none => rfl
      | some r2 =>
        obtain ⟨langs, rest2⟩ := r2
        simp only []
        cases addRepeatingInput rest2 Character.zero.Equipment with
        | none => rfl
        | some r3 => rfl
  · intro marshal i st ha hi
    unfold mainStep
    rw [if_pos ha, hi]
    cases hr : createCharacter inp with
    | none => rfl
    | some r =>
      have := h1 r hr
      subst this
      rfl

/-- C5 at a creation that is filled in and then declined. -/
theorem create_cancel_witness :
    createCharacter { CreateInputs.plain with confirm := false } = some (Character.zero, false) ∧
    mainStep (fun _ => some []) ⟨ascii "create", { CreateInputs.plain with confirm := false },
        [], WriteOutcome.ok⟩ ⟨some [named "Aria"], none, false⟩
      = some ⟨some [named "Aria"], none, false⟩ :=
  ⟨by decide,
   by
    rw [(create_cancel { CreateInputs.plain with confirm := false } (Or.inr rfl)).2.2.2
      (fun _ => some []) ⟨ascii "create", { CreateInputs.plain with confirm := false },
        [], WriteOutcome.ok⟩ ⟨some [named "Aria"], none, false⟩ (by decide) rfl]
    decide⟩

/-- Appending a run of entries to a slice, one `append` at a time. -/
theorem addRepeatingInput_run (seg : List PromptResult) :
    ∀ (t : PromptResult) (rest : List PromptResult) (slice : Slice GoString),
      (∀ r ∈ seg, endsInput r = false) → endsInput t = true →
      ∃ out, addRepeatingInput (seg ++ t :: rest) slice = some (out, rest) ∧
        out.toList = slice.toList ++ entriesOf seg ∧ (entriesOf seg = [] → out = slice) := by
  induction seg with
  | nil =>
    intro t rest slice _ ht
    simp only [endsInput, Bool.and_eq_true, Bool.not_eq_true', decide_eq_true_eq] at ht
    refine ⟨slice, ?_, by simp [entriesOf], fun _ => rfl⟩
    simp only [List.nil_append, addRepeatingInput, ht.1, Bool.false_eq_true, if_false, ht.2,
      if_true]
  | cons r seg ih =>
    intro t rest slice hseg ht
    have hr := hseg r (List.mem_cons_self _ _)
    have hseg' : ∀ x ∈ seg, endsInput x = false := fun x hx => hseg x (List.mem_cons_of_mem _ hx)
    cases he : r.err with
    | true =>
      obtain ⟨out, h1, h2, h3⟩ := ih t rest slice hseg' ht
      refine ⟨out, ?_, ?_, ?_⟩
      · simp only [List.cons_append, addRepeatingInput, he, if_true]
        exact h1
      · rw [h2]; simp [entriesOf, he]
      · intro h; apply h3; simpa [entriesOf, he] using h
    | false =>
      have hne : ¬ TrimSpace r.input = [] := by
        simpa [endsInput, he] using hr
      obtain ⟨out, h1, h2, _⟩ := ih t rest (slice.append (TrimSpace r.input)) hseg' ht
      refine ⟨out, ?_, ?_, ?_⟩
      · simp only [List.cons_append, addRepeatingInput, he, Bool.false_eq_true, if_false, hne]
        exact h1
      · rw [h2]; simp [entriesOf, he, Slice.append, Slice.toList]
      · intro h; simp [entriesOf, he] at h

/-- C9, as stated, fails: an entry with surrounding blanks is not stored as supplied, and an
entry of blanks only ends the input although it is not empty.  Entering " sword" and then
nothing stores "sword"; entering " ", "x" and then nothing stores no proficiency at all and
takes "x" as the first language. -/
theorem createCharacter_collections_trimmed :
    (createCharacter { CreateInputs.plain with
        prompts := [entry " sword", entry "", entry "", entry ""] }).map
      (fun r => r.1.Proficiencies.toList) = some [ascii "sword"] ∧
    ascii "sword" ≠ ascii " sword" ∧
    (createCharacter { CreateInputs.plain with
        prompts := [entry " ", entry "x", entry "", entry "", entry ""] }).map
      (fun r => (r.1.Proficiencies.toList, r.1.Languages.toList)) = some ([], [ascii "x"]) := by
  decide

/-- C9 amended: for each of proficiencies, languages and equipment, an accepted record holds
in that field the trimmed texts of the entries supplied to its prompt before the first
entry that is empty once trimmed (`strings.TrimSpace`), in the order supplied, prompts that
failed left out; such an entry, and no other, ends that field's input, and when it is the
first one the field stays the nil slice. -/
theorem createCharacter_collections (inp : CreateInputs)
    (seg1 seg2 seg3 : List PromptResult) (t1 t2 t3 : PromptResult) (rest : List PromptResult)
    (hE : inp.formErr = false) (hC : inp.confirm = true)
    (hp : inp.prompts = seg1 ++ t1 :: (seg2 ++ t2 :: (seg3 ++ t3 :: rest)))
    (h1 : ∀ r ∈ seg1, endsInput r = false) (ht1 : endsInput t1 = true)
    (h2 : ∀ r ∈ seg2, endsInput r = false) (ht2 : endsInput t2 = true)
    (h3 : ∀ r ∈ seg3, endsInput r = false) (ht3 : endsInput t3 = true) :
    ∃ c, createCharacter inp = some (c, true) ∧
      c.Proficiencies.toList = entriesOf seg1 ∧
      c.Languages.toList = entriesOf seg2 ∧
      c.Equipment.toList = entriesOf seg3 ∧
      (entriesOf seg1 = [] → c.Proficiencies = none) ∧
      (entriesOf seg2 = [] → c.Languages = none) ∧
      (entriesOf seg3 = [] → c.Equipment = none) := by
  obtain ⟨o1, e1, l1, n1⟩ := addRepeatingInput_run seg1 t1 (seg2 ++ t2 :: (seg3 ++ t3 :: rest))
    none h1 ht1
  obtain ⟨o2, e2, l2, n2⟩ := addRepeatingInput_run seg2 t2 (seg3 ++ t3 :: rest) none h2 ht2
  obtain ⟨o3, e3, l3, n3⟩ := addRepeatingInput_run seg3 t3 rest none h3 ht3
  unfold createCharacter
  simp only [hE, hC, hp, Bool.false_eq_true, if_false, if_true, Character.zero, e1, e2, e3]
  refine ⟨_, rfl, ?_, ?_, ?_, ?_, ?_, ?_⟩
  · simpa [Slice.toList] using l1
  · simpa [Slice.toList] using l2
  · simpa [Slice.toList] using l3
  · exact n1
  · exact n2
  · exact n3

/-- C9 amended at two proficiencies with surrounding blanks, a failed prompt between them,
one language and no equipment. -/
theorem createCharacter_collections_witness :
    ∃ c, createCharacter { CreateInputs.plain with
        prompts := [entry " sword", ⟨ascii "x", true⟩, entry "bow ", entry " ",
          entry "Elvish", entry "", entry ""] } = some (c, true) ∧
      c.Proficiencies.toList = [ascii "sword", ascii "bow"] ∧
      c.Languages.toList = [ascii "Elvish"] ∧
      c.Equipment = none := by
  obtain ⟨c, hc, hp, hl, _, _, _, he⟩ := createCharacter_collections
    { CreateInputs.plain with
        prompts := [entry " sword", ⟨ascii "x", true⟩, entry "bow ", entry " ",
          entry "Elvish", entry "", entry ""] }
    [entry " sword", ⟨ascii "x", true⟩, entry "bow "] [entry "Elvish"] []
    (entry " ") (entry "") (entry "") [] rfl rfl rfl
    (by decide) (by decide) (by decide) (by decide) (by decide) (by decide)
  exact ⟨c, hc, by rw [hp]; decide, by rw [hl]; decide, he (by decide)⟩

/-! ## Persistence -/

/-- C6: `loadCharacters` returns the empty collection, allocated and of length zero, both
when the snapshot file cannot be read and when the decoder reports an error on its
content, whatever the decoder had stored by then; the file is left as it was. -/
theorem loadCharacters_failure (unmarshal : GoString → Slice Character × Bool) :
    loadCharacters unmarshal none = some [] ∧
    (∀ data, (unmarshal data).2 = true →
      loadCharacters unmarshal (some data) = some [] ∧
      (loadCharacters unmarshal (some data)).len = 0 ∧
      (mainStart unmarshal (some data)).file = some data) ∧
    (mainStart unmarshal none).file = none := by
  refine ⟨rfl, ?_, rfl⟩
  intro data h
  have : loadCharacters unmarshal (some data) = some [] := by
    unfold loadCharacters
    simp only [h, if_true]
  exact ⟨this, by rw [this]; rfl, rfl⟩

/-- The file after a successful save holds the encoding of the collection saved. -/
theorem saveCharacters_ok (marshal : Slice Character → Option GoString)
    (characters : Slice Character) (file : File) (data : GoString)
    (h : marshal characters = some data) :
    saveCharacters marshal characters WriteOutcome.ok file = some data := by
  unfold saveCharacters
  rw [h]

theorem mainStep_inSync (marshal : Slice Character → Option GoString)
    (hm : ∀ c, (marshal c).isSome = true) (i : StepInput) (st st' : State)
    (hw : i.write = WriteOutcome.ok) (hstep : mainStep marshal i st = some st')
    (h : InSync marshal st ∨ savesStep i) : InSync marshal st' := by
  have hsave : ∀ cs : Slice Character, ∀ e : Bool,
      InSync marshal ⟨cs, saveCharacters marshal cs i.write st.file, e⟩ := by
    intro cs e
    cases hd : marshal cs with
    | none => have := hm cs; rw [hd] at this; cases this
    | some data => exact ⟨data, hd, by rw [hw]; exact saveCharacters_ok marshal cs st.file data hd⟩
  unfold mainStep at hstep
  split at hstep
  · next ha =>
    cases hr : createCharacter i.create with
    | none => rw [hr] at hstep; cases hstep
    | some r =>
      obtain ⟨c, b⟩ := r
      rw [hr] at hstep
      cases b with
      | true =>
        simp only [if_true, Option.some.injEq] at hstep
        rw [← hstep]
        exact hsave _ _
      | false =>
        simp only [Bool.false_eq_true, if_false, Option.some.injEq] at hstep
        rw [← hstep]
        rcases h with h | h
        · exact h
        · rcases h with h | h | ⟨_, c', hc'⟩
          · rw [ha] at h; exact absurd h (by decide)
          · rw [ha] at h; exact absurd h (by decide)
          · rw [hr] at hc'; cases hc'
  · next ha =>
    split at hstep
    · next hv =>
      cases hstep
      rcases h with h | h
      · exact h
      · rcases h with h | h | ⟨h, _⟩
        · rw [hv] at h; exact absurd h (by decide)
        · rw [hv] at h; exact absurd h (by decide)
        · exact absurd h ha
    · split at hstep
      · cases hstep; exact hsave _ _
      · split at hstep
        · cases hstep; exact hsave _ _
        · next hv hd he =>
          cases hstep
          rcases h with h | h
          · exact h
          · rcases h with h | h | ⟨h, _⟩
            · exact absurd h hd
            · exact absurd h he
            · exact absurd h ha

theorem mainStep_saves (marshal : Slice Character → Option GoString) (i : StepInput)
    (st st' : State) (hstep : mainStep marshal i st = some st') (hs : savesStep i) :
    st'.file = saveCharacters marshal st'.characters i.write st.file := by
  unfold mainStep at hstep
  split at hstep
  · next ha =>
    rcases hs with h | h | ⟨_, c, hc⟩
    · rw [ha] at h; exact absurd h (by decide)
    · rw [ha] at h; exact absurd h (by decide)
    · rw [hc] at hstep
      simp only [if_true, Option.some.injEq] at hstep
      rw [← hstep]
  · next ha =>
    split at hstep
    · next hv =>
      rcases hs with h | h | ⟨h, _⟩
      · rw [hv] at h; exact absurd h (by decide)
      · rw [hv] at h; exact absurd h (by decide)
      · exact absurd h ha
    · split at hstep
      · cases hstep; rfl
      · split at hstep
        · cases hstep; rfl
        · next hv hd he =>
          rcases hs with h | h | ⟨h, _⟩
          · exact absurd h hd
          · exact absurd h he
          · exact absurd h ha

theorem mainStep_idle (marshal : Slice Character → Option GoString) (i : StepInput)
    (st st' : State) (hstep : mainStep marshal i st = some st') (hs : ¬ savesStep i) :
    st' = st := by
  unfold mainStep at hstep
  split at hstep
  · next ha =>
    cases hr : createCharacter i.create with
    | none => rw [hr] at hstep; cases hstep
    | some r =>
      obtain ⟨c, b⟩ := r
      rw [hr] at hstep
      cases b with
      | true => exact absurd (Or.inr (Or.inr ⟨ha, c, hr⟩)) hs
      | false =>
        simp only [Bool.false_eq_true, if_false, Option.some.injEq] at hstep
        exact hstep.symm
  · split at hstep
    · cases hstep; rfl
    · split at hstep
      · next hd => exact absurd (Or.inl hd) hs
      · split at hstep
        · next he => exact absurd (Or.inr (Or.inl he)) hs
        · cases hstep; rfl

theorem mainLoop_inSync (marshal : Slice Character → Option GoString)
    (hm : ∀ c, (marshal c).isSome = true) (steps : List StepInput) :
    ∀ st st' : State, (∀ i ∈ steps, i.write = WriteOutcome.ok) →
      mainLoop marshal steps st = some st' → InSync marshal st → InSync marshal st' := by
  induction steps with
  | nil =>
    intro st st' _ h hs
    simp only [mainLoop, Option.some.injEq] at h
    rw [← h]; exact hs
  | cons i rest ih =>
    intro st st' hw h hs
    unfold mainLoop at h
    split at h
    · cases h; exact hs
    · cases hstep : mainStep marshal i st with
      | none => rw [hstep] at h; cases h
      | some st1 =>
        rw [hstep] at h
        exact ih st1 st' (fun j hj => hw j (List.mem_cons_of_mem _ hj)) h
          (mainStep_inSync marshal hm i st st1 (hw i (List.mem_cons_self _ _)) hstep (Or.inl hs))

/-- C7: in the main loop over (collection in memory, snapshot file), every iteration that is
an accepted create, a delete or an exit leaves the file as `saveCharacters` makes it from
the whole collection as it is at the end of that iteration, so that when the encoding and
the write succeed the file holds the encoding of that collection; a view, a declined create
and an unknown action change neither the collection nor the file; an iteration always
completes, a create when `createCharacter` returns; hence, while writes succeed, memory
and file once in agreement stay so, and they agree from the first saving iteration on. -/
theorem persistence_after_mutation (marshal : Slice Character → Option GoString) :
    (∀ i st st', mainStep marshal i st = some st' → savesStep i →
      st'.file = saveCharacters marshal st'.characters i.write st.file ∧
      (i.write = WriteOutcome.ok → ∀ data, marshal st'.characters = some data →
        st'.file = some data)) ∧
    (∀ i st st', mainStep marshal i st = some st' → ¬ savesStep i → st' = st) ∧
    (∀ i st, (mainStep marshal i st).isSome =
      (if i.action = ascii "create" then (createCharacter i.create).isSome else true)) ∧
    (∀ steps st st', (∀ c, (marshal c).isSome = true) →
      (∀ i ∈ steps, i.write = WriteOutcome.ok) →
      mainLoop marshal steps st = some st' → InSync marshal st → InSync marshal st') ∧
    (∀ i steps st st', (∀ c, (marshal c).isSome = true) → savesStep i → st.exited = false →
      (∀ j ∈ i :: steps, j.write = WriteOutcome.ok) →
      mainLoop marshal (i :: steps) st = some st' → InSync marshal st') := by
  refine ⟨?_, ?_, ?_, ?_, ?_⟩
  · intro i st st' hstep hs
    have hf := mainStep_saves marshal i st st' hstep hs
    refine ⟨hf, ?_⟩
    intro hw data hd
    rw [hf, hw]
    exact saveCharacters_ok marshal _ _ data hd
  · intro i st st' hstep hs
    exact mainStep_idle marshal i st st' hstep hs
  · intro i st
    unfold mainStep
    by_cases ha : i.action = ascii "create"
    · rw [if_pos ha, if_pos ha]
      cases createCharacter i.create with
      | none => rfl
      | some r =>
        obtain ⟨c, b⟩ := r
        cases b <;> rfl
    · rw [if_neg ha, if_neg ha]
      split_ifs <;> rfl
  · intro steps st st' hm hw h hs
    exact mainLoop_inSync marshal hm steps st st' hw h hs
  · intro i steps st st' hm hs he hw h
    unfold mainLoop at h
    rw [if_neg (by simp [he])] at h
    cases hstep : mainStep marshal i st with
    | none => rw [hstep] at h; cases h
    | some st1 =>
      rw [hstep] at h
      exact mainLoop_inSync marshal hm steps st1 st'
        (fun j hj => hw j (List.mem_cons_of_mem _ hj)) h
        (mainStep_inSync marshal hm i st st1 (hw i (List.mem_cons_self _ _)) hstep (Or.inr hs))

/-! ## UTF-8: decoding and encoding -/

theorem first_two (b : Nat) (h1 : 0xC2 ≤ b) (h2 : b ≤ 0xDF) : first b = some (2, 0x80, 0xBF) := by
  unfold first
  rw [if_neg (by omega), if_pos (by omega)]

theorem first_three (b : Nat) (h1 : 0xE0 ≤ b) (h2 : b ≤ 0xEF) :
    first b = some (3, if b = 0xE0 then 0xA0 else 0x80, if b = 0xED then 0x9F else 0xBF) := by
  unfold first
  split_ifs <;> first | rfl | omega

theorem first_four (b : Nat) (h1 : 0xF0 ≤ b) (h2 : b ≤ 0xF4) :
    first b = some (4, if b = 0xF0 then 0x90 else 0x80, if b = 0xF4 then 0x8F else 0xBF) := by
  unfold first
  split_ifs <;> first | rfl | omega

theorem first_none (b : Nat) (h : b < 0xC2 ∨ 0xF4 < b) : first b = none := by
  unfold first
  split_ifs <;> first | rfl | omega

theorem decode_two (b s1 : Byte) (t : List Byte) (h1 : 0xC2 ≤ b.val) (h2 : b.val ≤ 0xDF)
    (h3 : 0x80 ≤ s1.val) (h4 : s1.val ≤ 0xBF) :
    DecodeRuneInString (b :: s1 :: t) = ((b.val % 32) * 64 + s1.val % 64, 2) := by
  simp only [DecodeRuneInString, first_two b.val h1 h2, List.length_cons]
  rw [if_neg (by omega), if_neg (by omega), if_pos (by omega)]

theorem decode_three (b s1 s2 : Byte) (t : List Byte) (h1 : 0xE0 ≤ b.val) (h2 : b.val ≤ 0xEF)
    (h3 : (if b.val = 0xE0 then 0xA0 else 0x80) ≤ s1.val)
    (h4 : s1.val ≤ (if b.val = 0xED then 0x9F else 0xBF))
    (h5 : 0x80 ≤ s2.val) (h6 : s2.val ≤ 0xBF) :
    DecodeRuneInString (b :: s1 :: s2 :: t)
      = ((b.val % 16) * 4096 + (s1.val % 64) * 64 + s2.val % 64, 3) := by
  simp only [DecodeRuneInString, first_three b.val h1 h2, List.length_cons]
  rw [if_neg (by omega), if_neg (by omega), if_neg (by omega), if_neg (by omega),
    if_pos (by omega)]

theorem decode_four (b s1 s2 s3 : Byte) (t : List Byte) (h1 : 0xF0 ≤ b.val) (h2 : b.val ≤ 0xF4)
    (h3 : (if b.val = 0xF0 then 0x90 else 0x80) ≤ s1.val)
    (h4 : s1.val ≤ (if b.val = 0xF4 then 0x8F else 0xBF))
    (h5 : 0x80 ≤ s2.val) (h6 : s2.val ≤ 0xBF) (h7 : 0x80 ≤ s3.val) (h8 : s3.val ≤ 0xBF) :
    DecodeRuneInString (b :: s1 :: s2 :: s3 :: t)
      = ((b.val % 8) * 262144 + (s1.val % 64) * 4096 + (s2.val % 64) * 64 + s3.val % 64, 4) := by
  simp only [DecodeRuneInString, first_four b.val h1 h2, List.length_cons]
  rw [if_neg (by omega), if_neg (by omega), if_neg (by omega), if_neg (by omega),
    if_neg (by omega), if_neg (by omega)]

/-- The shapes of a decoded rune that starts with a non-ASCII byte. -/
theorem decode_cases (b : Byte) (rest : List Byte) (hb : 0x80 ≤ b.val) :
    DecodeRuneInString (b :: rest) = (RuneError, 1) ∨
    (∃ s1 t, rest = s1 :: t ∧ 0xC2 ≤ b.val ∧ b.val ≤ 0xDF ∧ 0x80 ≤ s1.val ∧ s1.val ≤ 0xBF) ∨
    (∃ s1 s2 t, rest = s1 :: s2 :: t ∧ 0xE0 ≤ b.val ∧ b.val ≤ 0xEF ∧
      (if b.val = 0xE0 then 0xA0 else 0x80) ≤ s1.val ∧
      s1.val ≤ (if b.val = 0xED then 0x9F else 0xBF) ∧ 0x80 ≤ s2.val ∧ s2.val ≤ 0xBF) ∨
    (∃ s1 s2 s3 t, rest = s1 :: s2 :: s3 :: t ∧ 0xF0 ≤ b.val ∧ b.val ≤ 0xF4 ∧
      (if b.val = 0xF0 then 0x90 else 0x80) ≤ s1.val ∧
      s1.val ≤ (if b.val = 0xF4 then 0x8F else 0xBF) ∧ 0x80 ≤ s2.val ∧ s2.val ≤ 0xBF ∧
      0x80 ≤ s3.val ∧ s3.val ≤ 0xBF) := by
  by_cases hn : b.val < 0xC2 ∨ 0xF4 < b.val
  · left
    simp only [DecodeRuneInString, first_none b.val hn]
    rw [if_neg (by omega)]
  · by_cases h2 : b.val ≤ 0xDF
    · have hf := first_two b.val (by omega) h2
      cases rest with
      | nil => left; simp [DecodeRuneInString, hf]
      | cons s1 t =>
        by_cases hs : 0x80 ≤ s1.val ∧ s1.val ≤ 0xBF
        · right; left; exact ⟨s1, t, rfl, by omega, h2, hs.1, hs.2⟩
        · left
          simp only [DecodeRuneInString, hf, List.length_cons]
          rw [if_neg (by omega), if_pos (by omega)]
    · by_cases h3 : b.val ≤ 0xEF
      · have hf := first_three b.val (by omega) h3
        cases rest with
        | nil => left; simp [DecodeRuneInString, hf]
        | cons s1 t =>
          by_cases hs : (if b.val = 0xE0 then 0xA0 else 0x80) ≤ s1.val ∧
              s1.val ≤ (if b.val = 0xED then 0x9F else 0xBF)
          · cases t with
            | nil => left; simp [DecodeRuneInString, hf]
            | cons s2 t =>
              by_cases hs2 : 0x80 ≤ s2.val ∧ s2.val ≤ 0xBF
              · right; right; left
                exact ⟨s1, s2, t, rfl, by omega, h3, hs.1, hs.2, hs2.1, hs2.2⟩
              · left
                simp only [DecodeRuneInString, hf, List.length_cons]
                rw [if_neg (by omega), if_neg (by omega), if_neg (by omega), if_pos (by omega)]
          · left
            simp only [DecodeRuneInString, hf, List.length_cons]
            split
            · rfl
            · rw [if_pos (by omega)]
      · have hf := first_four b.val (by omega) (by omega)
        cases rest with
        | nil => left; simp [DecodeRuneInString, hf]
        | cons s1 t =>
          by_cases hs : (if b.val = 0xF0 then 0x90 else 0x80) ≤ s1.val ∧
              s1.val ≤ (if b.val = 0xF4 then 0x8F else 0xBF)
          · cases t with
            | nil => left; simp [DecodeRuneInString, hf]
            | cons s2 t =>
              by_cases hs2 : 0x80 ≤ s2.val ∧ s2.val ≤ 0xBF
              · cases t with
                | nil => left; simp [DecodeRuneInString, hf]
                | cons s3 t =>
                  by_cases hs3 : 0x80 ≤ s3.val ∧ s3.val ≤ 0xBF
                  · right; right; right
                    exact ⟨s1, s2, s3, t, rfl, by omega, by omega, hs.1, hs.2, hs2.1, hs2.2,
                      hs3.1, hs3.2⟩
                  · left
                    simp only [DecodeRuneInString, hf, List.length_cons]
                    rw [if_neg (by omega), if_neg (by omega), if_neg (by omega),
                      if_neg (by omega), if_neg (by omega), if_pos (by omega)]
              · left
                simp only [DecodeRuneInString, hf, List.length_cons]
                split
                · rfl
                · rw [if_neg (by omega), if_neg (by omega), if_pos (by omega)]
          · left
            simp only [DecodeRuneInString, hf, List.length_cons]
            split
            · rfl
            · rw [if_pos (by omega)]

theorem byte_ofNat_eq (x : Nat) (b : Byte) (h : x = b.val) : (Fin.ofNat x : Byte) = b := by
  apply Fin.ext
  show x % 256 = b.val
  have := b.isLt
  omega

theorem encode_two (b s1 : Byte) (h1 : 0xC2 ≤ b.val) (h2 : b.val ≤ 0xDF)
    (h3 : 0x80 ≤ s1.val) (h4 : s1.val ≤ 0xBF) :
    EncodeRune ((b.val % 32) * 64 + s1.val % 64) = [b, s1] := by
  unfold EncodeRune
  rw [if_neg (by omega), if_pos (by omega),
    byte_ofNat_eq _ b (by omega), byte_ofNat_eq _ s1 (by omega)]

theorem encode_three (b s1 s2 : Byte) (h1 : 0xE0 ≤ b.val) (h2 : b.val ≤ 0xEF)
    (h3 : (if b.val = 0xE0 then 0xA0 else 0x80) ≤ s1.val)
    (h4 : s1.val ≤ (if b.val = 0xED then 0x9F else 0xBF))
    (h5 : 0x80 ≤ s2.val) (h6 : s2.val ≤ 0xBF) :
    EncodeRune ((b.val % 16) * 4096 + (s1.val % 64) * 64 + s2.val % 64) = [b, s1, s2] := by
  unfold EncodeRune
  split_ifs at h3 h4 <;> rw [if_neg (by omega), if_neg (by omega), if_neg (by omega), if_pos (by omega),
    byte_ofNat_eq _ b (by omega), byte_ofNat_eq _ s1 (by omega), byte_ofNat_eq _ s2 (by omega)]

theorem encode_four (b s1 s2 s3 : Byte) (h1 : 0xF0 ≤ b.val) (h2 : b.val ≤ 0xF4)
    (h3 : (if b.val = 0xF0 then 0x90 else 0x80) ≤ s1.val)
    (h4 : s1.val ≤ (if b.val = 0xF4 then 0x8F else 0xBF))
    (h5 : 0x80 ≤ s2.val) (h6 : s2.val ≤ 0xBF) (h7 : 0x80 ≤ s3.val) (h8 : s3.val ≤ 0xBF) :
    EncodeRune ((b.val % 8) * 262144 + (s1.val % 64) * 4096 + (s2.val % 64) * 64 + s3.val % 64)
      = [b, s1, s2, s3] := by
  unfold EncodeRune
  split_ifs at h3 h4 <;> rw [if_neg (by omega), if_neg (by omega), if_neg (by omega), if_neg (by omega),
    byte_ofNat_eq _ b (by omega), byte_ofNat_eq _ s1 (by omega), byte_ofNat_eq _ s2 (by omega),
    byte_ofNat_eq _ s3 (by omega)]

/-- A rune that starts with a non-ASCII byte and decodes without error: it takes two to
four bytes, none of them ASCII, depends on these bytes only, is not ASCII, and encodes back
to them. -/
theorem decode_valid (b : Byte) (rest : List Byte) (hb : 0x80 ≤ b.val)
    (hv : ¬ ((DecodeRuneInString (b :: rest)).1 = RuneError ∧
      (DecodeRuneInString (b :: rest)).2 = 1)) :
    2 ≤ (DecodeRuneInString (b :: rest)).2 ∧
    (DecodeRuneInString (b :: rest)).2 ≤ (b :: rest).length ∧
    0x80 ≤ (DecodeRuneInString (b :: rest)).1 ∧
    EncodeRune (DecodeRuneInString (b :: rest)).1
      = (b :: rest).take (DecodeRuneInString (b :: rest)).2 ∧
    (∀ c ∈ (b :: rest).take (DecodeRuneInString (b :: rest)).2, 0x80 ≤ c.val) ∧
    (∀ t, DecodeRuneInString ((b :: rest).take (DecodeRuneInString (b :: rest)).2 ++ t)
      = DecodeRuneInString (b :: rest)) := by
  rcases decode_cases b rest hb with h | ⟨s1, t, rfl, h1, h2, h3, h4⟩ |
      ⟨s1, s2, t, rfl, h1, h2, h3, h4, h5, h6⟩ |
      ⟨s1, s2, s3, t, rfl, h1, h2, h3, h4, h5, h6, h7, h8⟩
  · rw [h] at hv; exact absurd ⟨rfl, rfl⟩ hv
  · rw [decode_two b s1 t h1 h2 h3 h4]
    refine ⟨by simp, by simp, by simp only []; omega, ?_, ?_, ?_⟩
    · simpa using encode_two b s1 h1 h2 h3 h4
    · intro c hc
      simp only [List.take_succ_cons, List.take_zero, List.mem_cons, List.mem_singleton,
        List.not_mem_nil, or_false] at hc
      rcases hc with rfl | rfl <;> omega
    · intro t'
      exact decode_two b s1 _ h1 h2 h3 h4
  · rw [decode_three b s1 s2 t h1 h2 h3 h4 h5 h6]
    have hge : 0x80 ≤ (b.val % 16) * 4096 + (s1.val % 64) * 64 + s2.val % 64 := by
      split_ifs at h3 h4 <;> omega
    refine ⟨by simp, by simp, hge, ?_, ?_, ?_⟩
    · simpa using encode_three b s1 s2 h1 h2 h3 h4 h5 h6
    · intro c hc
      simp only [List.take_succ_cons, List.take_zero, List.mem_cons, List.mem_singleton,
        List.not_mem_nil, or_false] at hc
      have hs1 : 0x80 ≤ s1.val := by split_ifs at h3 <;> omega
      rcases hc with rfl | rfl | rfl <;> omega
    · intro t'
      exact decode_three b s1 s2 _ h1 h2 h3 h4 h5 h6
  · rw [decode_four b s1 s2 s3 t h1 h2 h3 h4 h5 h6 h7 h8]
    have hge : 0x80 ≤ (b.val % 8) * 262144 + (s1.val % 64) * 4096 + (s2.val % 64) * 64
        + s3.val % 64 := by
      split_ifs at h3 h4 <;> omega
    have hs1 : 0x80 ≤ s1.val := by split_ifs at h3 <;> omega
    refine ⟨by simp, by simp, hge, ?_, ?_, ?_⟩
    · simpa using encode_four b s1 s2 s3 h1 h2 h3 h4 h5 h6 h7 h8
    · intro c hc
      simp only [List.take_succ_cons, List.take_zero, List.mem_cons, List.mem_singleton,
        List.not_mem_nil, or_false] at hc
      rcases hc with rfl | rfl | rfl | rfl <;> omega
    · intro t'
      exact decode_four b s1 s2 s3 _ h1 h2 h3 h4 h5 h6 h7 h8

/-- Decoding looks at the first four bytes only. -/
theorem decode_take_four (s : List Byte) :
    DecodeRuneInString (s.take 4) = DecodeRuneInString s := by
  cases s with
  | nil => rfl
  | cons b rest =>
    by_cases hb : 0x80 ≤ b.val
    · by_cases hv : (DecodeRuneInString (b :: rest)).1 = RuneError ∧
          (DecodeRuneInString (b :: rest)).2 = 1
      · have hr : DecodeRuneInString (b :: rest) = (RuneError, 1) := Prod.ext hv.1 hv.2
        rw [hr]
        by_contra hne
        have hv' : ¬ ((DecodeRuneInString (b :: rest.take 3)).1 = RuneError ∧
            (DecodeRuneInString (b :: rest.take 3)).2 = 1) := by
          intro h; exact hne (Prod.ext h.1 h.2)
        obtain ⟨_, hlen, _, _, _, hind⟩ := decode_valid b (rest.take 3) hb hv'
        have key := hind (rest.drop ((DecodeRuneInString (b :: rest.take 3)).2 - 1))
        have hsz : (DecodeRuneInString (b :: rest.take 3)).2 - 1 ≤ 3 := by
          simp only [List.length_cons, List.length_take] at hlen; omega
        have hrec : (b :: rest.take 3).take (DecodeRuneInString (b :: rest.take 3)).2 ++
            rest.drop ((DecodeRuneInString (b :: rest.take 3)).2 - 1) = b :: rest := by
          generalize (DecodeRuneInString (b :: rest.take 3)).2 = k at *
          cases k with
          | zero => omega
          | succ k =>
            simp only [List.take_succ_cons, List.cons_append, Nat.add_sub_cancel]
            congr 1
            rw [List.take_take, Nat.min_eq_left (by omega)]
            exact List.take_append_drop k rest
        rw [hrec, hr] at key
        exact hne key.symm
      · obtain ⟨_, hlen, _, _, _, hind⟩ := decode_valid b rest hb hv
        have hle : (DecodeRuneInString (b :: rest)).2 ≤ 4 := by
          rcases decode_cases b rest hb with h | ⟨s1, t, rfl, h1, h2, h3, h4⟩ |
            ⟨s1, s2, t, rfl, h1, h2, h3, h4, h5, h6⟩ |
            ⟨s1, s2, s3, t, rfl, h1, h2, h3, h4, h5, h6, h7, h8⟩
          · rw [h]; simp
          · rw [decode_two b s1 t h1 h2 h3 h4]; simp
          · rw [decode_three b s1 s2 t h1 h2 h3 h4 h5 h6]; simp
          · rw [decode_four b s1 s2 s3 t h1 h2 h3 h4 h5 h6 h7 h8]
        have key := hind (((b :: rest).take 4).drop (DecodeRuneInString (b :: rest)).2)
        have hrec : (b :: rest).take (DecodeRuneInString (b :: rest)).2 ++
            ((b :: rest).take 4).drop (DecodeRuneInString (b :: rest)).2 = (b :: rest).take 4 := by
          generalize (DecodeRuneInString (b :: rest)).2 = k at *
          have : (b :: rest).take k = ((b :: rest).take 4).take k := by
            rw [List.take_take, Nat.min_eq_left hle]
          rw [this]
          exact List.take_append_drop k _
        rw [hrec] at key
        exact key
    · have hlt : b.val < 0x80 := by omega
      have hf := first_none b.val (Or.inl (by omega))
      simp [DecodeRuneInString, hf, hlt]

/-! ## JSON string literals: written, scanned, unquoted -/

theorem hex_isHexDigit (n : Nat) (h : n < 16) : isHexDigit (hex n) = true := by
  have : n = 0 ∨ n = 1 ∨ n = 2 ∨ n = 3 ∨ n = 4 ∨ n = 5 ∨ n = 6 ∨ n = 7 ∨ n = 8 ∨ n = 9 ∨
      n = 10 ∨ n = 11 ∨ n = 12 ∨ n = 13 ∨ n = 14 ∨ n = 15 := by omega
  rcases this with h | h | h | h | h | h | h | h | h | h | h | h | h | h | h | h <;>
    subst h <;> decide

theorem hexValue_hex (n : Nat) (h : n < 16) : hexValue (hex n) = some n := by
  have : n = 0 ∨ n = 1 ∨ n = 2 ∨ n = 3 ∨ n = 4 ∨ n = 5 ∨ n = 6 ∨ n = 7 ∨ n = 8 ∨ n = 9 ∨
      n = 10 ∨ n = 11 ∨ n = 12 ∨ n = 13 ∨ n = 14 ∨ n = 15 := by omega
  rcases this with h | h | h | h | h | h | h | h | h | h | h | h | h | h | h | h <;>
    subst h <;> decide

theorem scanString_plain (c : Byte) (x : List Byte) (h1 : c ≠ 34) (h2 : c ≠ 92)
    (h3 : 0x20 ≤ c.val) :
    scanString (c :: x) = (scanString x).map (fun p => (c :: p.1, p.2)) := by
  unfold scanString
  rw [scanStringFrom, if_neg h1, if_neg h2, if_neg (by omega)]

theorem scanString_plain_run (pre : List Byte) (x : List Byte)
    (h : ∀ c ∈ pre, 0x80 ≤ c.val) :
    scanString (pre ++ x) = (scanString x).map (fun p => (pre ++ p.1, p.2)) := by
  induction pre with
  | nil => cases h : scanString x <;> simp [h]
  | cons c pre ih =>
    have hc := h c (List.mem_cons_self _ _)
    have h1 : c ≠ 34 := by intro h; rw [h] at hc; revert hc; decide
    have h2 : c ≠ 92 := by intro h; rw [h] at hc; revert hc; decide
    rw [List.cons_append, scanString_plain c _ h1 h2 (by omega),
      ih (fun d hd => h d (List.mem_cons_of_mem _ hd))]
    cases scanString x <;> rfl

theorem scanString_escape (e : Byte) (x : List Byte)
    (h : e = 98 ∨ e = 102 ∨ e = 110 ∨ e = 114 ∨ e = 116 ∨ e = 92 ∨ e = 47 ∨ e = 34) :
    scanString (92 :: e :: x) = (scanString x).map (fun p => (92 :: e :: p.1, p.2)) := by
  unfold scanString
  rw [scanStringFrom, if_neg (by decide), if_pos rfl, scanStringFrom, if_pos h]
  cases scanStringFrom StringState.inString x <;> rfl

theorem scanString_u (h1 h2 h3 h4 : Byte) (x : List Byte)
    (h : isHexDigit h1 = true ∧ isHexDigit h2 = true ∧ isHexDigit h3 = true ∧
      isHexDigit h4 = true) :
    scanString (92 :: 117 :: h1 :: h2 :: h3 :: h4 :: x)
      = (scanString x).map (fun p => (92 :: 117 :: h1 :: h2 :: h3 :: h4 :: p.1, p.2)) := by
  unfold scanString
  rw [scanStringFrom, if_neg (by decide), if_pos rfl, scanStringFrom, if_neg (by decide),
    if_pos rfl, scanStringFrom, if_pos h.1, scanStringFrom, if_pos h.2.1, scanStringFrom,
    if_pos h.2.2.1, scanStringFrom, if_pos h.2.2.2]
  cases scanStringFrom StringState.inString x <;> rfl

/-- The escape written for an ASCII byte outside `htmlSafeSet` scans as part of a string. -/
theorem scanString_appendEscape (b : Byte) (x : List Byte) (hb : b.val < 0x80) :
    scanString (appendEscape b ++ x) = (scanString x).map (fun p => (appendEscape b ++ p.1, p.2)) := by
  unfold appendEscape
  split_ifs with h1 h2 h3 h4 h5 h6
  · exact scanString_escape b x (by rcases h1 with h | h <;> simp [h])
  · exact scanString_escape 98 x (by decide)
  · exact scanString_escape 102 x (by decide)
  · exact scanString_escape 110 x (by decide)
  · exact scanString_escape 114 x (by decide)
  · exact scanString_escape 116 x (by decide)
  · exact scanString_u 48 48 _ _ x ⟨by decide, by decide,
      hex_isHexDigit _ (by omega), hex_isHexDigit _ (by omega)⟩

theorem appendStringLoop_cons (fuel : Nat) (b : Byte) (rest : List Byte) :
    appendStringLoop (fuel + 1) (b :: rest) =
      if b.val < 0x80 then
        (if htmlSafeSet b then [b] else appendEscape b) ++ appendStringLoop fuel rest
      else if (DecodeRuneInString ((b :: rest).take 4)).1 = RuneError ∧
          (DecodeRuneInString ((b :: rest).take 4)).2 = 1 then
        [92, 117, 102, 102, 102, 100] ++ appendStringLoop fuel rest
      else if (DecodeRuneInString ((b :: rest).take 4)).1 = 0x2028 ∨
          (DecodeRuneInString ((b :: rest).take 4)).1 = 0x2029 then
        [92, 117, 50, 48, 50, hex ((DecodeRuneInString ((b :: rest).take 4)).1 % 16)] ++
          appendStringLoop fuel ((b :: rest).drop (DecodeRuneInString ((b :: rest).take 4)).2)
      else (b :: rest).take (DecodeRuneInString ((b :: rest).take 4)).2 ++
          appendStringLoop fuel ((b :: rest).drop (DecodeRuneInString ((b :: rest).take 4)).2) :=
  rfl

/-- What `appendString` writes between the quotes scans as the inside of a string literal,
up to the closing quote. -/
theorem scanString_appendStringLoop (fuel : Nat) : ∀ (s : GoString) (rest : List Byte),
    scanString (appendStringLoop fuel s ++ 34 :: rest) = some (appendStringLoop fuel s, rest) := by
  induction fuel with
  | zero => intro s rest; rw [appendStringLoop, List.nil_append, scanString, scanStringFrom, if_pos rfl]
  | succ fuel ih =>
    intro s rest
    cases s with
    | nil => rw [appendStringLoop, List.nil_append, scanString, scanStringFrom, if_pos rfl]
    | cons b t =>
      rw [appendStringLoop_cons, decode_take_four]
      by_cases hb : b.val < 0x80
      · rw [if_pos hb]
        by_cases hs : htmlSafeSet b = true
        · rw [if_pos hs]
          have hs' : 0x20 ≤ b.val ∧ b.val < 0x80 ∧ b.val ≠ 34 ∧ b.val ≠ 38 ∧ b.val ≠ 60 ∧
              b.val ≠ 62 ∧ b.val ≠ 92 := by simpa [htmlSafeSet] using hs
          have h1 : b ≠ 34 := by intro h; rw [h] at hs'; exact absurd rfl hs'.2.2.1
          have h2 : b ≠ 92 := by intro h; rw [h] at hs'; exact absurd rfl hs'.2.2.2.2.2.2
          rw [List.singleton_append, List.cons_append, scanString_plain b _ h1 h2 hs'.1, ih]
          rfl
        · rw [if_neg hs, List.append_assoc, scanString_appendEscape b _ hb, ih]
          rfl
      · rw [if_neg hb]
        by_cases hv : (DecodeRuneInString (b :: t)).1 = RuneError ∧
            (DecodeRuneInString (b :: t)).2 = 1
        · rw [if_pos hv]
          show scanString (92 :: 117 :: 102 :: 102 :: 102 :: 100 :: (appendStringLoop fuel t
            ++ 34 :: rest)) = _
          rw [scanString_u 102 102 102 100 _ (by decide), ih]
          rfl
        · rw [if_neg hv]
          obtain ⟨_, _, _, _, hall, _⟩ := decode_valid b t (by omega) hv
          by_cases hl : (DecodeRuneInString (b :: t)).1 = 0x2028 ∨
              (DecodeRuneInString (b :: t)).1 = 0x2029
          · rw [if_pos hl]
            show scanString (92 :: 117 :: 50 :: 48 :: 50 :: hex _ :: (appendStringLoop fuel _
              ++ 34 :: rest)) = _
            rw [scanString_u 50 48 50 _ _ ⟨by decide, by decide, by decide,
              hex_isHexDigit _ (Nat.mod_lt _ (by decide))⟩, ih]
            rfl
          · rw [if_neg hl, List.append_assoc, scanString_plain_run _ _ hall, ih]
            rfl

theorem unquoteLoop_nil (F : Nat) : unquoteLoop F [] = some [] := by
  cases F <;> simp [unquoteLoop]

theorem unquoteLoop_plain (F : Nat) (c : Byte) (x : List Byte) (h1 : c ≠ 34) (h2 : c ≠ 92)
    (h3 : 0x20 ≤ c.val) (h4 : c.val < 0x80) :
    unquoteLoop (F + 1) (c :: x) = (unquoteLoop F x).map (fun t => c :: t) := by
  conv => lhs; unfold unquoteLoop
  simp only []
  rw [if_neg h2, if_neg (by intro h; rcases h with h | h; exact h1 h; omega), if_pos h4]

theorem unquoteLoop_rune (F : Nat) (c : Byte) (x : List Byte) (h : 0x80 ≤ c.val) :
    unquoteLoop (F + 1) (c :: x) =
      (unquoteLoop F ((c :: x).drop (DecodeRuneInString (c :: x)).2)).map
        (fun t => EncodeRune (DecodeRuneInString (c :: x)).1 ++ t) := by
  have h1 : c ≠ 34 := by intro h'; rw [h'] at h; revert h; decide
  have h2 : c ≠ 92 := by intro h'; rw [h'] at h; revert h; decide
  conv => lhs; unfold unquoteLoop
  simp only []
  rw [if_neg h2, if_neg (by intro h; rcases h with h | h; exact h1 h; omega),
    if_neg (by omega)]

theorem unquoteLoop_escape (F : Nat) (e v : Byte) (x : List Byte)
    (h : (e = 34 ∧ v = 34) ∨ (e = 92 ∧ v = 92) ∨ (e = 98 ∧ v = 8) ∨ (e = 102 ∧ v = 12) ∨
      (e = 110 ∧ v = 10) ∨ (e = 114 ∧ v = 13) ∨ (e = 116 ∧ v = 9)) :
    unquoteLoop (F + 1) (92 :: e :: x) = (unquoteLoop F x).map (fun t => v :: t) := by
  rw [unquoteLoop, if_pos rfl]
  rcases h with ⟨rfl, rfl⟩ | ⟨rfl, rfl⟩ | ⟨rfl, rfl⟩ | ⟨rfl, rfl⟩ | ⟨rfl, rfl⟩ | ⟨rfl, rfl⟩ |
    ⟨rfl, rfl⟩ <;> rfl

theorem getu4_hex (a b c d : Nat) (x : List Byte) (ha : a < 16) (hb : b < 16) (hc : c < 16)
    (hd : d < 16) :
    getu4 (92 :: 117 :: hex a :: hex b :: hex c :: hex d :: x)
      = some (((a * 16 + b) * 16 + c) * 16 + d) := by
  simp [getu4, hexValue_hex, ha, hb, hc, hd]

theorem unquoteLoop_u (F : Nat) (a b c d : Nat) (x : List Byte) (ha : a < 16) (hb : b < 16)
    (hc : c < 16) (hd : d < 16)
    (hs : ¬ (0xD800 ≤ ((a * 16 + b) * 16 + c) * 16 + d ∧ ((a * 16 + b) * 16 + c) * 16 + d < 0xE000)) :
    unquoteLoop (F + 1) (92 :: 117 :: hex a :: hex b :: hex c :: hex d :: x)
      = (unquoteLoop F x).map (fun t => EncodeRune (((a * 16 + b) * 16 + c) * 16 + d) ++ t) := by
  rw [unquoteLoop, if_pos rfl]
  simp only []
  rw [if_neg (by decide), if_neg (by decide), if_neg (by decide), if_neg (by decide),
    if_neg (by decide), if_neg (by decide)]
  simp only [if_true, getu4_hex a b c d x ha hb hc hd]
  rw [if_neg hs]
  rfl

theorem coerceLoop_cons (fuel : Nat) (b : Byte) (rest : List Byte) :
    coerceLoop (fuel + 1) (b :: rest) =
      if b.val < 0x80 then b :: coerceLoop fuel rest
      else if (DecodeRuneInString (b :: rest)).1 = RuneError ∧
          (DecodeRuneInString (b :: rest)).2 = 1 then
        [0xEF, 0xBF, 0xBD] ++ coerceLoop fuel rest
      else (b :: rest).take (DecodeRuneInString (b :: rest)).2 ++
        coerceLoop fuel ((b :: rest).drop (DecodeRuneInString (b :: rest)).2) := rfl

theorem appendEscape_length_pos (b : Byte) : 2 ≤ (appendEscape b).length := by
  unfold appendEscape
  split_ifs <;> simp

/-- The escape written for an ASCII byte outside `htmlSafeSet` unquotes to that byte. -/
theorem unquoteLoop_appendEscape (F : Nat) (b : Byte) (x : List Byte) (hb : b.val < 0x80)
    (hs : htmlSafeSet b = false) :
    unquoteLoop (F + 1) (appendEscape b ++ x) = (unquoteLoop F x).map (fun t => b :: t) := by
  unfold appendEscape
  split_ifs with h1 h2 h3 h4 h5 h6
  · rcases h1 with h | h
    · subst h; exact unquoteLoop_escape F 92 92 x (by decide)
    · subst h; exact unquoteLoop_escape F 34 34 x (by decide)
  · subst h2; exact unquoteLoop_escape F 98 8 x (by decide)
  · subst h3; exact unquoteLoop_escape F 102 12 x (by decide)
  · subst h4; exact unquoteLoop_escape F 110 10 x (by decide)
  · subst h5; exact unquoteLoop_escape F 114 13 x (by decide)
  · subst h6; exact unquoteLoop_escape F 116 9 x (by decide)
  · have h0 : hex 0 = (48 : Byte) := by decide
    have := unquoteLoop_u F 0 0 (b.val / 16) (b.val % 16) x (by decide) (by decide)
      (by omega) (by omega) (by omega)
    rw [h0] at this
    rw [List.cons_append, List.cons_append, List.cons_append, List.cons_append,
      List.cons_append, List.cons_append, List.nil_append, this]
    have hv : ((0 * 16 + 0) * 16 + b.val / 16) * 16 + b.val % 16 = b.val := by omega
    rw [hv]
    have he : EncodeRune b.val = [b] := by
      unfold EncodeRune
      rw [if_pos (by omega), byte_ofNat_eq _ b rfl]
    rw [he]
    rfl

/-- A rune written as its own bytes unquotes to these bytes. -/
theorem unquoteLoop_valid_rune (F : Nat) (b : Byte) (t : List Byte) (x : List Byte)
    (hb : 0x80 ≤ b.val)
    (hv : ¬ ((DecodeRuneInString (b :: t)).1 = RuneError ∧ (DecodeRuneInString (b :: t)).2 = 1)) :
    unquoteLoop (F + 1) ((b :: t).take (DecodeRuneInString (b :: t)).2 ++ x) =
      (unquoteLoop F x).map (fun r => (b :: t).take (DecodeRuneInString (b :: t)).2 ++ r) := by
  obtain ⟨h2, hlen, _, henc, _, hind⟩ := decode_valid b t hb hv
  have hd := hind x
  generalize hk : (DecodeRuneInString (b :: t)).2 = k at *
  cases k with
  | zero => omega
  | succ k =>
    rw [List.take_succ_cons, List.cons_append] at hd ⊢
    rw [unquoteLoop_rune F b _ hb, hd, henc]
    have hdrop : (b :: (t.take k ++ x)).drop (DecodeRuneInString (b :: t)).2 = x := by
      rw [hk, List.drop_succ_cons]
      have hl : (t.take k).length = k := by
        rw [List.length_take]
        simp only [List.length_cons] at hlen
        omega
      rw [List.drop_append_eq_append_drop, hl, Nat.sub_self, List.drop_zero]
      rw [List.drop_of_length_le (by omega), List.nil_append]
    rw [hdrop, List.take_succ_cons]

/-- What `appendString` writes between the quotes unquotes to the string coerced to valid
UTF-8. -/
theorem unquoteLoop_appendStringLoop (fuel : Nat) : ∀ (s : GoString) (F : Nat),
    (appendStringLoop fuel s).length ≤ F →
      unquoteLoop F (appendStringLoop fuel s) = some (coerceLoop fuel s) := by
  induction fuel with
  | zero => intro s F _; rw [appendStringLoop, coerceLoop, unquoteLoop_nil]
  | succ fuel ih =>
    intro s F hF
    cases s with
    | nil => rw [appendStringLoop, coerceLoop, unquoteLoop_nil]
    | cons b t =>
      rw [appendStringLoop_cons, decode_take_four] at hF ⊢
      rw [coerceLoop_cons]
      by_cases hb : b.val < 0x80
      · rw [if_pos hb] at hF ⊢
        rw [if_pos hb]
        by_cases hs : htmlSafeSet b = true
        · rw [if_pos hs] at hF ⊢
          have hs' : 0x20 ≤ b.val ∧ b.val < 0x80 ∧ b.val ≠ 34 ∧ b.val ≠ 38 ∧ b.val ≠ 60 ∧
              b.val ≠ 62 ∧ b.val ≠ 92 := by simpa [htmlSafeSet] using hs
          have h1 : b ≠ 34 := by intro h; rw [h] at hs'; exact absurd rfl hs'.2.2.1
          have h2 : b ≠ 92 := by intro h; rw [h] at hs'; exact absurd rfl hs'.2.2.2.2.2.2
          simp only [List.singleton_append, List.length_cons] at hF ⊢
          obtain ⟨F', rfl⟩ : ∃ F', F = F' + 1 := ⟨F - 1, by omega⟩
          rw [unquoteLoop_plain F' b _ h1 h2 hs'.1 hb, ih t F' (by omega)]
          rfl
        · rw [if_neg hs] at hF ⊢
          have hl := appendEscape_length_pos b
          rw [List.length_append] at hF
          obtain ⟨F', rfl⟩ : ∃ F', F = F' + 1 := ⟨F - 1, by omega⟩
          rw [unquoteLoop_appendEscape F' b _ hb (by simpa using hs), ih t F' (by omega)]
          rfl
      · rw [if_neg hb] at hF ⊢
        rw [if_neg hb]
        by_cases hv : (DecodeRuneInString (b :: t)).1 = RuneError ∧
            (DecodeRuneInString (b :: t)).2 = 1
        · rw [if_pos hv] at hF ⊢
          rw [if_pos hv]
          simp only [List.cons_append, List.nil_append, List.length_cons] at hF ⊢
          obtain ⟨F', rfl⟩ : ∃ F', F = F' + 1 := ⟨F - 1, by omega⟩
          have := unquoteLoop_u F' 15 15 15 13 (appendStringLoop fuel t) (by decide) (by decide)
            (by decide) (by decide) (by decide)
          have h15 : hex 15 = (102 : Byte) := by decide
          have h13 : hex 13 = (100 : Byte) := by decide
          rw [h15, h13] at this
          rw [this, ih t F' (by omega)]
          rfl
        · rw [if_neg hv] at hF ⊢
          rw [if_neg hv]
          obtain ⟨_, hlen, _, henc, _, _⟩ := decode_valid b t (by omega) hv
          by_cases hl : (DecodeRuneInString (b :: t)).1 = 0x2028 ∨
              (DecodeRuneInString (b :: t)).1 = 0x2029
          · rw [if_pos hl] at hF ⊢
            simp only [List.cons_append, List.nil_append, List.length_cons] at hF ⊢
            obtain ⟨F', rfl⟩ : ∃ F', F = F' + 1 := ⟨F - 1, by omega⟩
            have := unquoteLoop_u F' 2 0 2 ((DecodeRuneInString (b :: t)).1 % 16)
              (appendStringLoop fuel ((b :: t).drop (DecodeRuneInString (b :: t)).2))
              (by decide) (by decide) (by decide) (Nat.mod_lt _ (by decide))
              (by rcases hl with h | h <;> rw [h] <;> decide)
            have h2 : hex 2 = (50 : Byte) := by decide
            have h0 : hex 0 = (48 : Byte) := by decide
            rw [h2, h0] at this
            rw [this, ih _ F' (by omega)]
            have hval : ((2 * 16 + 0) * 16 + 2) * 16 + (DecodeRuneInString (b :: t)).1 % 16
                = (DecodeRuneInString (b :: t)).1 := by
              rcases hl with h | h <;> rw [h]
            rw [hval, henc]
            rfl
          · rw [if_neg hl] at hF ⊢
            rw [List.length_append] at hF
            have hpos : 2 ≤ ((b :: t).take (DecodeRuneInString (b :: t)).2).length := by
              rw [List.length_take]
              have := (decode_valid b t (by omega) hv).1
              omega
            obtain ⟨F', rfl⟩ : ∃ F', F = F' + 1 := ⟨F - 1, by omega⟩
            rw [unquoteLoop_valid_rune F' b t _ (by omega) hv, ih _ F' (by omega)]
            rfl

theorem unquotePlain_nil (f : Nat) : unquotePlain f [] = 0 := by
  cases f <;> rfl

theorem unquotePlain_backslash (f : Nat) (x : List Byte) : unquotePlain f (92 :: x) = 0 := by
  cases f with
  | zero => rfl
  | succ f => rw [unquotePlain, if_pos (Or.inl rfl)]

theorem unquotePlain_cons (f : Nat) (c : Byte) (rest : List Byte) :
    unquotePlain (f + 1) (c :: rest) =
      if c = 92 ∨ c = 34 ∨ c.val < 0x20 then 0
      else if c.val < 0x80 then 1 + unquotePlain f rest
      else if (DecodeRuneInString (c :: rest)).1 = RuneError ∧
          (DecodeRuneInString (c :: rest)).2 = 1 then 0
      else (DecodeRuneInString (c :: rest)).2 +
        unquotePlain f ((c :: rest).drop (DecodeRuneInString (c :: rest)).2) := rfl

theorem appendEscape_head (b : Byte) : ∃ x, appendEscape b = 92 :: x := by
  unfold appendEscape
  split_ifs <;> exact ⟨_, rfl⟩

/-- The two loops of `unquoteBytes` on what `appendString` writes between the quotes: the
prefix taken over as it is, followed by the rest unquoted, is the string coerced to valid
UTF-8. -/
theorem unquotePlain_appendStringLoop (fuel : Nat) : ∀ (s : GoString) (f F : Nat),
    (appendStringLoop fuel s).length ≤ f → (appendStringLoop fuel s).length ≤ F →
      (unquoteLoop F ((appendStringLoop fuel s).drop (unquotePlain f (appendStringLoop fuel s)))).map
        (fun t => (appendStringLoop fuel s).take (unquotePlain f (appendStringLoop fuel s)) ++ t)
        = some (coerceLoop fuel s) := by
  induction fuel with
  | zero =>
    intro s f F _ _
    rw [appendStringLoop, coerceLoop, unquotePlain_nil, List.drop_zero, unquoteLoop_nil]
    rfl
  | succ fuel ih =>
    intro s f F hf hF
    have hzero : unquotePlain f (appendStringLoop (fuel + 1) s) = 0 →
        (unquoteLoop F ((appendStringLoop (fuel + 1) s).drop
          (unquotePlain f (appendStringLoop (fuel + 1) s)))).map
        (fun t => (appendStringLoop (fuel + 1) s).take
          (unquotePlain f (appendStringLoop (fuel + 1) s)) ++ t) = some (coerceLoop (fuel + 1) s) := by
      intro h0
      rw [h0, List.drop_zero, List.take_zero, unquoteLoop_appendStringLoop (fuel + 1) s F hF]
      rfl
    cases s with
    | nil => exact hzero (by rw [appendStringLoop, unquotePlain_nil])
    | cons b t =>
      by_cases hb : b.val < 0x80
      · by_cases hs : htmlSafeSet b = true
        · have hbody : appendStringLoop (fuel + 1) (b :: t) = b :: appendStringLoop fuel t := by
            rw [appendStringLoop_cons, if_pos hb, if_pos hs]; rfl
          have hs' : 0x20 ≤ b.val ∧ b.val < 0x80 ∧ b.val ≠ 34 ∧ b.val ≠ 38 ∧ b.val ≠ 60 ∧
              b.val ≠ 62 ∧ b.val ≠ 92 := by simpa [htmlSafeSet] using hs
          have h1 : b ≠ 34 := by intro h; rw [h] at hs'; exact absurd rfl hs'.2.2.1
          have h2 : b ≠ 92 := by intro h; rw [h] at hs'; exact absurd rfl hs'.2.2.2.2.2.2
          rw [hbody] at hf hF ⊢
          simp only [List.length_cons] at hf hF
          obtain ⟨f', rfl⟩ : ∃ f', f = f' + 1 := ⟨f - 1, by omega⟩
          have hr : unquotePlain (f' + 1) (b :: appendStringLoop fuel t)
              = unquotePlain f' (appendStringLoop fuel t) + 1 := by
            rw [unquotePlain_cons,
              if_neg (by intro h; rcases h with h | h | h; exact h2 h; exact h1 h; omega),
              if_pos hb, Nat.add_comm]
          rw [hr, List.drop_succ_cons, List.take_succ_cons, coerceLoop_cons, if_pos hb]
          have := ih t f' F (by omega) (by omega)
          cases hu : unquoteLoop F ((appendStringLoop fuel t).drop
              (unquotePlain f' (appendStringLoop fuel t))) with
          | none => rw [hu] at this; cases this
          | some u =>
            rw [hu] at this
            simp only [Option.map_some', Option.some.injEq] at this ⊢
            rw [← this]
            rfl
        · apply hzero
          rw [appendStringLoop_cons, if_pos hb, if_neg hs]
          obtain ⟨x, hx⟩ := appendEscape_head b
          rw [hx, List.cons_append, unquotePlain_backslash]
      · by_cases hv : (DecodeRuneInString (b :: t)).1 = RuneError ∧
            (DecodeRuneInString (b :: t)).2 = 1
        · apply hzero
          rw [appendStringLoop_cons, decode_take_four, if_neg hb, if_pos hv]
          exact unquotePlain_backslash _ _
        · by_cases hl : (DecodeRuneInString (b :: t)).1 = 0x2028 ∨
              (DecodeRuneInString (b :: t)).1 = 0x2029
          · apply hzero
            rw [appendStringLoop_cons, decode_take_four, if_neg hb, if_neg hv, if_pos hl]
            exact unquotePlain_backslash _ _
          · have hbody : appendStringLoop (fuel + 1) (b :: t) =
                (b :: t).take (DecodeRuneInString (b :: t)).2 ++
                  appendStringLoop fuel ((b :: t).drop (DecodeRuneInString (b :: t)).2) := by
              rw [appendStringLoop_cons, decode_take_four, if_neg hb, if_neg hv, if_neg hl]
            obtain ⟨h2, hlen, _, henc, _, hind⟩ := decode_valid b t (by omega) hv
            have hd := hind (appendStringLoop fuel ((b :: t).drop (DecodeRuneInString (b :: t)).2))
            rw [coerceLoop_cons, if_neg hb, if_neg hv]
            rw [hbody] at hf hF ⊢
            generalize hbody' : appendStringLoop fuel
              ((b :: t).drop (DecodeRuneInString (b :: t)).2) = body' at *
            have ih' := ih ((b :: t).drop (DecodeRuneInString (b :: t)).2)
            rw [hbody'] at ih'
            generalize hpre : (b :: t).take (DecodeRuneInString (b :: t)).2 = pre at *
            have hprelen : pre.length = (DecodeRuneInString (b :: t)).2 := by
              rw [← hpre, List.length_take]; omega
            rw [List.length_append] at hf hF
            obtain ⟨f', rfl⟩ : ∃ f', f = f' + 1 := ⟨f - 1, by omega⟩
            have hr : unquotePlain (f' + 1) (pre ++ body')
                = pre.length + unquotePlain f' body' := by
              cases hp : pre with
              | nil => rw [hp] at hprelen; simp at hprelen; omega
              | cons p0 ptail =>
                have hp0 : p0 = b := by
                  have : (b :: t).take (DecodeRuneInString (b :: t)).2 = p0 :: ptail := by
                    rw [hpre, hp]
                  cases hk : (DecodeRuneInString (b :: t)).2 with
                  | zero => omega
                  | succ k =>
                    rw [hk, List.take_succ_cons] at this
                    exact (List.cons.inj this).1.symm
                subst hp0
                rw [hp] at hd hprelen
                have h1 : p0 ≠ 34 := by intro h; rw [h] at hb; revert hb; decide
                have h2' : p0 ≠ 92 := by intro h; rw [h] at hb; revert hb; decide
                rw [List.cons_append, unquotePlain_cons,
                  if_neg (by intro h; rcases h with h | h | h; exact h2' h; exact h1 h; omega),
                  if_neg hb]
                rw [List.cons_append] at hd
                rw [hd, if_neg hv, ← List.cons_append, List.drop_append_eq_append_drop,
                  ← hprelen, List.drop_length, Nat.sub_self, List.drop_zero, List.nil_append]
            rw [hr, List.drop_append_eq_append_drop, List.drop_of_length_le (by omega),
              List.nil_append, Nat.add_sub_cancel_left, List.take_append_eq_append_take,
              List.take_of_length_le (by omega), Nat.add_sub_cancel_left]
            have := ih' f' F (by omega) (by omega)
            cases hu : unquoteLoop F (body'.drop (unquotePlain f' body')) with
            | none => rw [hu] at this; cases this
            | some u =>
              rw [hu] at this
              simp only [Option.map_some', Option.some.injEq] at this ⊢
              rw [← this, List.append_assoc]

/-- The function `unquoteBytes` on what `appendString` writes between the quotes. -/
theorem unquoteBytes_appendStringLoop (fuel : Nat) (s : GoString) :
    unquoteBytes (appendStringLoop fuel s) = some (coerceLoop fuel s) := by
  have key := unquotePlain_appendStringLoop fuel s (appendStringLoop fuel s).length
    (appendStringLoop fuel s).length (Nat.le_refl _) (Nat.le_refl _)
  unfold unquoteBytes
  simp only []
  split
  · next h =>
    rw [h, List.drop_length, unquoteLoop_nil, List.take_length] at key
    simp only [Option.map_some', List.append_nil] at key
    exact key
  · exact key

/-! ## JSON numbers and literals: written and scanned -/

theorem formatDigits_head (fuel : Nat) : ∀ (n : Nat) (acc : List Byte), n < fuel →
    (n = 0 → formatDigits fuel n acc = 48 :: acc) ∧
    (n ≠ 0 → ∃ c ds, formatDigits fuel n acc = c :: (ds ++ acc) ∧ 49 ≤ c.val ∧ c.val ≤ 57 ∧
      ds.all isDigit = true) := by
  induction fuel with
  | zero => intro n acc h; omega
  | succ fuel ih =>
    intro n acc hn
    have hdv := digitByte_val (n % 10) (Nat.mod_lt _ (by decide))
    have hdig : isDigit (Fin.ofNat (48 + n % 10) : Byte) = true := by
      simp only [isDigit, decide_eq_true_eq]
      omega
    constructor
    · intro h0
      subst h0
      rfl
    · intro hne
      unfold formatDigits
      by_cases h0 : n / 10 = 0
      · rw [if_pos h0]
        exact ⟨_, [], rfl, by omega, by omega, rfl⟩
      · rw [if_neg h0]
        obtain ⟨c, ds, heq, h1, h2, hall⟩ :=
          (ih (n / 10) (Fin.ofNat (48 + n % 10) :: acc) (by omega)).2 h0
        refine ⟨c, ds ++ [Fin.ofNat (48 + n % 10)], ?_, h1, h2, ?_⟩
        · rw [heq]; simp
        · simp [hall, hdig]

/-- The text is not continued by a number: what follows is nothing, a comma or a line
break. -/
theorem Delimited.head (rest : List Byte) (h : Delimited rest) :
    rest.head? ≠ some 46 ∧ rest.head? ≠ some 101 ∧ rest.head? ≠ some 69 ∧
    (∀ c t, rest = c :: t → isDigit c = false) := by
  rcases h with rfl | ⟨t, rfl | rfl⟩
  · exact ⟨by simp, by simp, by simp, fun c t h => by cases h⟩
  · refine ⟨by simp, by simp, by simp, fun c t h => ?_⟩
    cases h; decide
  · refine ⟨by simp, by simp, by simp, fun c t h => ?_⟩
    cases h; decide

theorem spanDigits_append (ds rest : List Byte) (hd : ds.all isDigit = true)
    (hr : ∀ c t, rest = c :: t → isDigit c = false) : spanDigits (ds ++ rest) = (ds, rest) := by
  induction ds with
  | nil =>
    cases rest with
    | nil => rfl
    | cons c t =>
      rw [List.nil_append, spanDigits, if_neg (by rw [hr c t rfl]; decide)]
  | cons d ds ih =>
    simp only [List.all_cons, Bool.and_eq_true] at hd
    rw [List.cons_append, spanDigits, if_pos hd.1, ih hd.2]

/-- The scanner reads the digits `FormatInt` writes for a non-negative number as one number
literal. -/
theorem scanNumber_digits (n : Nat) (rest : List Byte) (hr : Delimited rest) :
    scanNumber (formatDigits (n + 1) n [] ++ rest) = some (formatDigits (n + 1) n [], rest) := by
  obtain ⟨h46, h101, h69, hdig⟩ := Delimited.head rest hr
  have hh := formatDigits_head (n + 1) n [] (by omega)
  by_cases h0 : n = 0
  · rw [hh.1 h0]
    simp only [scanNumber, List.cons_append, List.nil_append, List.head?_cons, List.tail_cons]
    rw [if_neg (by decide), if_neg (by decide)]
    simp only [if_true, if_neg h46, if_neg (show ¬ (rest.head? = some 101 ∨ rest.head? = some 69)
      from fun h => h.elim h101 h69)]
    simp
  · obtain ⟨c, ds, heq, h1, h2, hall⟩ := hh.2 h0
    rw [heq, List.append_nil]
    have hc45 : ¬ (some c = some (45 : Byte)) := by
      intro h; cases h; revert h1; decide
    have hc48 : ¬ c = 48 := by
      intro h; rw [h] at h1; revert h1; decide
    simp only [scanNumber, List.cons_append, List.head?_cons, List.tail_cons]
    rw [if_neg hc45, if_neg hc45]
    simp only [if_neg hc48, if_pos (show 49 ≤ c.val ∧ c.val ≤ 57 from ⟨h1, h2⟩),
      spanDigits_append ds rest hall hdig, if_neg h46,
      if_neg (show ¬ (rest.head? = some 101 ∨ rest.head? = some 69)
      from fun h => h.elim h101 h69)]
    simp

/-- The scanner reads what `FormatInt` writes as one number literal. -/
theorem scanNumber_FormatInt (n : Int) (rest : List Byte) (hr : Delimited rest) :
    scanNumber (FormatInt n ++ rest) = some (FormatInt n, rest) := by
  obtain ⟨h46, h101, h69, hdig⟩ := Delimited.head rest hr
  unfold FormatInt
  by_cases hn : n < 0
  · rw [if_pos hn]
    have hh := formatDigits_head (n.natAbs + 1) n.natAbs [] (by omega)
    by_cases h0 : n.natAbs = 0
    · omega
    · obtain ⟨c, ds, heq, h1, h2, hall⟩ := hh.2 h0
      rw [heq, List.append_nil]
      have hc48 : ¬ c = 48 := by
        intro h; rw [h] at h1; revert h1; decide
      simp only [scanNumber, List.cons_append, List.head?_cons, List.tail_cons, if_true]
      simp only [if_neg hc48, if_pos (show 49 ≤ c.val ∧ c.val ≤ 57 from ⟨h1, h2⟩),
        spanDigits_append ds rest hall hdig, if_neg h46,
        if_neg (show ¬ (rest.head? = some 101 ∨ rest.head? = some 69)
        from fun h => h.elim h101 h69)]
      simp
  · rw [if_neg hn]
    exact scanNumber_digits n.natAbs rest hr

/-! ## The parser on encoded values -/

theorem parseValue_quote (fuel depth : Nat) (x : List Byte) :
    parseValue (fuel + 1) depth (34 :: x) =
      match scanString x with
      | none => none
      | some (raw, r) =>
        match unquoteBytes raw with
        | none => none
        | some t => some (JValue.string t, r) := by
  rw [parseValue]
  simp only [if_true]

theorem parseValue_number (fuel depth : Nat) (c : Byte) (x : List Byte) (h34 : c ≠ 34)
    (h91 : c ≠ 91) (h123 : c ≠ 123) (ht : c ≠ 116) (hf : c ≠ 102) (hn : c ≠ 110) :
    parseValue (fuel + 1) depth (c :: x) =
      match scanNumber (c :: x) with
      | none => none
      | some (lit, r) => some (JValue.number lit, r) := by
  rw [parseValue]
  simp only [if_neg h34, if_neg h91, if_neg h123]
  rw [if_neg, if_neg, if_neg]
  · intro h
    have := congrArg List.head? h
    simp only [List.take_succ_cons, List.head?_cons, Option.some.injEq] at this
    exact hn this
  · intro h
    have := congrArg List.head? h
    simp only [List.take_succ_cons, List.head?_cons, Option.some.injEq] at this
    exact hf this
  · intro h
    have := congrArg List.head? h
    simp only [List.take_succ_cons, List.head?_cons, Option.some.injEq] at this
    exact ht this

theorem parseValue_null (fuel depth : Nat) (x : List Byte) :
    parseValue (fuel + 1) depth (110 :: 117 :: 108 :: 108 :: x) = some (JValue.null, x) := by
  rw [parseValue]
  simp only [if_neg (show ¬ ((110 : Byte) = 34) by decide),
    if_neg (show ¬ ((110 : Byte) = 91) by decide),
    if_neg (show ¬ ((110 : Byte) = 123) by decide)]
  rw [if_neg (by simp), if_neg (by simp), if_pos (by rfl)]
  rfl

/-- A string literal written by `appendString` is read as the string coerced to valid
UTF-8. -/
theorem parsesTo_string (s : GoString) :
    ParsesTo 0 (appendString s) (JValue.string (coerceUTF8 s)) := by
  refine ⟨⟨34, _, rfl, by decide, by decide⟩, ?_⟩
  intro fuel depth rest hf _ _
  obtain ⟨f, rfl⟩ : ∃ f, fuel = f + 1 := ⟨fuel - 1, by omega⟩
  unfold appendString
  rw [List.cons_append, parseValue_quote, List.append_assoc, List.singleton_append,
    scanString_appendStringLoop]
  simp only [unquoteBytes_appendStringLoop]
  rfl

/-- What `FormatInt` writes starts with a minus sign or a digit. -/
theorem FormatInt_head (n : Int) :
    ∃ c t, FormatInt n = c :: t ∧ (c = 45 ∨ (48 ≤ c.val ∧ c.val ≤ 57)) := by
  unfold FormatInt
  by_cases hn : n < 0
  · rw [if_pos hn]; exact ⟨45, _, rfl, Or.inl rfl⟩
  · rw [if_neg hn]
    have hh := formatDigits_head (n.natAbs + 1) n.natAbs [] (by omega)
    by_cases h0 : n.natAbs = 0
    · rw [hh.1 h0]; exact ⟨48, _, rfl, Or.inr (by decide)⟩
    · obtain ⟨c, ds, heq, h1, h2, _⟩ := hh.2 h0
      rw [heq]; exact ⟨c, _, rfl, Or.inr ⟨by omega, h2⟩⟩

/-- A number written by `FormatInt` is read as that number literal. -/
theorem parsesTo_int (n : Int) : ParsesTo 0 (FormatInt n) (JValue.number (FormatInt n)) := by
  obtain ⟨c, t, heq, hc⟩ := FormatInt_head n
  have hprops : isSpace c = false ∧ c ≠ 93 ∧ c ≠ 34 ∧ c ≠ 91 ∧ c ≠ 123 ∧ c ≠ 116 ∧ c ≠ 102 ∧
      c ≠ 110 := by
    rcases hc with rfl | hc
    · decide
    · refine ⟨?_, ?_, ?_, ?_, ?_, ?_, ?_, ?_⟩
      · simp only [isSpace, decide_eq_false_iff_not]; omega
      all_goals (intro h; rw [h] at hc; revert hc; decide)
  refine ⟨⟨c, t, heq, hprops.1, hprops.2.1⟩, ?_⟩
  intro fuel depth rest hf _ hr
  obtain ⟨f, rfl⟩ : ∃ f, fuel = f + 1 := ⟨fuel - 1, by omega⟩
  have hs := scanNumber_FormatInt n rest hr
  rw [heq] at hs ⊢
  rw [List.cons_append] at hs ⊢
  rw [parseValue_number f depth c _ hprops.2.2.1 hprops.2.2.2.1 hprops.2.2.2.2.1
    hprops.2.2.2.2.2.1 hprops.2.2.2.2.2.2.1 hprops.2.2.2.2.2.2.2, hs]

/-- The literal `null` is read as null. -/
theorem parsesTo_null : ParsesTo 0 (ascii "null") JValue.null := by
  refine ⟨⟨110, _, rfl, by decide, by decide⟩, ?_⟩
  intro fuel depth rest hf _ _
  obtain ⟨f, rfl⟩ : ∃ f, fuel = f + 1 := ⟨fuel - 1, by omega⟩
  exact parseValue_null f depth rest

theorem skipSpace_nonspace (c : Byte) (x : List Byte) (h : isSpace c = false) :
    skipSpace (c :: x) = c :: x := by
  rw [skipSpace, if_neg (by rw [h]; decide)]

theorem skipSpace_spaces (n : Nat) (x : List Byte) :
    skipSpace (List.replicate n 32 ++ x) = skipSpace x := by
  induction n with
  | zero => rfl
  | succ n ih =>
    rw [List.replicate_succ, List.cons_append, skipSpace, if_pos (by decide), ih]

theorem skipSpace_appendNewline (d : Nat) (x : List Byte) :
    skipSpace (appendNewline d ++ x) = skipSpace x := by
  unfold appendNewline
  rw [List.cons_append, skipSpace, if_pos (by decide), skipSpace_spaces]

theorem appendNewline_delimited (d : Nat) (x : List Byte) : Delimited (appendNewline d ++ x) :=
  Or.inr ⟨_, Or.inr rfl⟩

theorem joinItems_cons_cons (d : Nat) (x y : List Byte) (r : List (List Byte)) :
    joinItems d (x :: y :: r) = x ++ 44 :: (appendNewline d ++ joinItems d (y :: r)) := rfl

/-- The items of a non-empty array start with the first byte of the first item. -/
theorem joinItems_head (k d : Nat) (x : List Byte) (xs : List (List Byte)) (v : JValue)
    (h : ParsesTo k x v) :
    ∃ c t, joinItems d (x :: xs) = c :: t ∧ isSpace c = false ∧ c ≠ 93 := by
  obtain ⟨⟨c, t, hx, hc, hc'⟩, _⟩ := h
  cases xs with
  | nil => exact ⟨c, t, hx, hc, hc'⟩
  | cons y r =>
    rw [joinItems_cons_cons, hx]
    exact ⟨c, _, rfl, hc, hc'⟩

theorem parseElements_succ (fuel depth : Nat) (s : List Byte) :
    parseElements (fuel + 1) depth s =
      match parseValue fuel depth s with
      | none => none
      | some (v, r) =>
        match skipSpace r with
        | [] => none
        | c :: r1 =>
          if c = 44 then
            match parseElements fuel depth (skipSpace r1) with
            | none => none
            | some (vs, r2) => some (v :: vs, r2)
          else if c = 93 then some ([v], r1)
          else none := by
  rw [parseElements]

/-- The elements of an indented array, from the first on, are read one after the other up to
the closing bracket. -/
theorem parseElements_joinItems (k d d2 : Nat) (items : List (List Byte)) (vs : List JValue)
    (h : List.Forall₂ (ParsesTo k) items vs) :
    items ≠ [] → ∀ fuel depth rest,
      (joinItems d items).length + 1 < fuel →
      depth + k ≤ maxNestingDepth →
      parseElements fuel depth (joinItems d items ++ (appendNewline d2 ++ 93 :: rest))
        = some (vs, rest) := by
  induction h with
  | nil => intro h; exact absurd rfl h
  | @cons x v xs vs' hx hxs ih =>
    intro _ fuel depth rest hf hd
    obtain ⟨f, rfl⟩ : ∃ f, fuel = f + 1 := ⟨fuel - 1, by omega⟩
    rw [parseElements_succ]
    cases xs with
    | nil =>
      cases hxs
      have hp := hx.2 f depth (appendNewline d2 ++ 93 :: rest)
        (by simp only [joinItems] at hf; omega) hd (appendNewline_delimited _ _)
      simp only [joinItems]
      rw [hp]
      simp only []
      rw [skipSpace_appendNewline, skipSpace_nonspace 93 rest (by decide)]
      simp only []
      rw [if_neg (by decide)]
      simp only [if_true]
    | cons y r =>
      rw [joinItems_cons_cons] at hf
      rw [joinItems_cons_cons, List.append_assoc]
      simp only [List.length_cons, List.length_append] at hf
      have hp := hx.2 f depth (44 :: (appendNewline d ++ joinItems d (y :: r))
          ++ (appendNewline d2 ++ 93 :: rest)) (by omega) hd (Or.inr ⟨_, Or.inl rfl⟩)
      rw [hp]
      simp only [List.cons_append]
      rw [skipSpace_nonspace 44 _ (by decide)]
      simp only [if_true]
      rw [List.append_assoc, skipSpace_appendNewline]
      cases vs' with
      | nil => cases hxs
      | cons v' vs'' =>
        have hy : ParsesTo k y v' := by cases hxs; assumption
        obtain ⟨c, t, hj, hc, _⟩ := joinItems_head k d y r v' hy
        have hnl : 1 ≤ (appendNewline d).length := by simp [appendNewline]
        have hrec := ih (by simp) f depth rest (by omega) hd
        rw [hj] at hrec ⊢
        rw [List.cons_append, skipSpace_nonspace c _ hc, ← List.cons_append, hrec]

theorem parseValue_bracket (fuel depth : Nat) (x : List Byte) :
    parseValue (fuel + 1) depth (91 :: x) =
      if depth + 1 > maxNestingDepth then none
      else
        match skipSpace x with
        | [] => none
        | c1 :: r1 =>
          if c1 = 93 then some (JValue.array [], r1)
          else
            match parseElements fuel (depth + 1) (c1 :: r1) with
            | none => none
            | some (vs, r) => some (JValue.array vs, r) := by
  rw [parseValue]
  simp only [if_neg (show ¬ ((91 : Byte) = 34) by decide), if_true]

/-- An indented array is read as the array of what its items are read as. -/
theorem parsesTo_array (k d : Nat) (items : List (List Byte)) (vs : List JValue)
    (h : List.Forall₂ (ParsesTo k) items vs) :
    ParsesTo (k + 1) (encodeArray d items) (JValue.array vs) := by
  cases h with
  | nil =>
    refine ⟨⟨91, _, rfl, by decide, by decide⟩, ?_⟩
    intro fuel depth rest hf hd _
    obtain ⟨f, rfl⟩ : ∃ f, fuel = f + 1 := ⟨fuel - 1, by omega⟩
    show parseValue (f + 1) depth (91 :: 93 :: rest) = _
    rw [parseValue_bracket, if_neg (by omega), skipSpace_nonspace 93 rest (by decide)]
    simp only [if_true]
  | @cons x v xs vs' hx hxs =>
    refine ⟨⟨91, _, rfl, by decide, by decide⟩, ?_⟩
    intro fuel depth rest hf hd _
    obtain ⟨f, rfl⟩ : ∃ f, fuel = f + 1 := ⟨fuel - 1, by omega⟩
    have hall : List.Forall₂ (ParsesTo k) (x :: xs) (v :: vs') := List.Forall₂.cons hx hxs
    obtain ⟨c, t, hj, hc, hc'⟩ := joinItems_head k (d + 1) x xs v hx
    have hbody : encodeArray d (x :: xs) ++ rest =
        91 :: (appendNewline (d + 1) ++
          (joinItems (d + 1) (x :: xs) ++ (appendNewline d ++ 93 :: rest))) := by
      simp [encodeArray]
    have hlen : (encodeArray d (x :: xs)).length =
        (joinItems (d + 1) (x :: xs)).length + (appendNewline (d + 1)).length
          + (appendNewline d).length + 2 := by
      simp [encodeArray]; omega
    rw [hbody]
    rw [parseValue_bracket, if_neg (by omega), skipSpace_appendNewline]
    have hrec := parseElements_joinItems k (d + 1) d (x :: xs) (v :: vs') hall (by simp) f
      (depth + 1) rest (by omega) (by omega)
    rw [hj] at hrec ⊢
    rw [List.cons_append, skipSpace_nonspace c _ hc]
    simp only [if_neg hc']
    rw [← List.cons_append, hrec]

theorem parseMembers_quote (fuel depth : Nat) (x : List Byte) :
    parseMembers (fuel + 1) depth (34 :: x) =
      match scanString x with
      | none => none
      | some (raw, r) =>
        match unquoteBytes raw with
        | none => none
        | some key =>
          match skipSpace r with
          | [] => none
          | c :: r1 =>
            if c = 58 then
              match parseValue fuel depth (skipSpace r1) with
              | none => none
              | some (v, r2) =>
                match skipSpace r2 with
                | [] => none
                | c2 :: r3 =>
                  if c2 = 44 then
                    match parseMembers fuel depth (skipSpace r3) with
                    | none => none
                    | some (ms, r4) => some ((key, v) :: ms, r4)
                  else if c2 = 125 then some ([(key, v)], r3)
                  else none
            else none := by
  rw [parseMembers]
  simp only [if_true]

theorem memberText_eq (t : GoString × List Byte × JValue) (x : List Byte) :
    memberText t ++ x =
      34 :: (appendStringLoop t.1.length t.1 ++ 34 :: (58 :: 32 :: (t.2.1 ++ x))) := by
  simp [memberText, appendString]

theorem memberText_length (t : GoString × List Byte × JValue) :
    (memberText t).length = (appendStringLoop t.1.length t.1).length + t.2.1.length + 4 := by
  simp [memberText, appendString]; omega

/-- The members of an indented object, from the first key on, are read one after the other
up to the closing brace. -/
theorem parseMembers_joinItems (k d d2 : Nat) (triples : List (GoString × List Byte × JValue)) :
    triples ≠ [] → (∀ t ∈ triples, ParsesTo k t.2.1 t.2.2) → ∀ fuel depth rest,
      (joinItems d (triples.map memberText)).length + 1 < fuel →
      depth + k ≤ maxNestingDepth →
      parseMembers fuel depth
        (joinItems d (triples.map memberText) ++ (appendNewline d2 ++ 125 :: rest))
        = some (triples.map (fun t => (coerceUTF8 t.1, t.2.2)), rest) := by
  induction triples with
  | nil => intro h; exact absurd rfl h
  | cons t ts ih =>
    intro _ hall fuel depth rest hf hd
    obtain ⟨f, rfl⟩ : ∃ f, fuel = f + 1 := ⟨fuel - 1, by omega⟩
    have ht := hall t (List.mem_cons_self _ _)
    obtain ⟨⟨c, tl, hitem, hc, _⟩, hparse⟩ := ht
    have hml := memberText_length t
    cases ts with
    | nil =>
      simp only [List.map_cons, List.map_nil, joinItems] at hf ⊢
      rw [memberText_eq, parseMembers_quote, scanString_appendStringLoop]
      simp only [unquoteBytes_appendStringLoop]
      rw [skipSpace_nonspace 58 _ (by decide)]
      simp only [if_true]
      rw [skipSpace, if_pos (by decide), hitem, List.cons_append, skipSpace_nonspace c _ hc,
        ← List.cons_append, ← hitem,
        hparse f depth _ (by omega) hd (appendNewline_delimited _ _)]
      simp only []
      rw [skipSpace_appendNewline, skipSpace_nonspace 125 rest (by decide)]
      simp only [if_neg (show ¬ ((125 : Byte) = 44) by decide), if_true]
      rfl
    | cons t2 ts2 =>
      simp only [List.map_cons] at hf ⊢
      rw [joinItems_cons_cons] at hf
      rw [joinItems_cons_cons, List.append_assoc, List.cons_append]
      simp only [List.length_cons, List.length_append] at hf
      rw [memberText_eq, parseMembers_quote, scanString_appendStringLoop]
      simp only [unquoteBytes_appendStringLoop]
      rw [skipSpace_nonspace 58 _ (by decide)]
      simp only [if_true]
      rw [skipSpace, if_pos (by decide), hitem, List.cons_append, skipSpace_nonspace c _ hc,
        ← List.cons_append, ← hitem,
        hparse f depth _ (by omega) hd (Or.inr ⟨_, Or.inl rfl⟩)]
      simp only []
      rw [skipSpace_nonspace 44 _ (by decide)]
      simp only [if_true]
      rw [List.append_assoc, skipSpace_appendNewline]
      have hnl : 1 ≤ (appendNewline d).length := by simp [appendNewline]
      have hrec := ih (by simp) (fun x hx => hall x (List.mem_cons_of_mem _ hx)) f depth rest
        (by simp only [List.map_cons]; omega) hd
      simp only [List.map_cons] at hrec
      have hq : ∃ y, joinItems d (memberText t2 :: ts2.map memberText) = 34 :: y := by
        cases ts2 with
        | nil => exact ⟨_, rfl⟩
        | cons t3 ts3 => exact ⟨_, rfl⟩
      obtain ⟨y, hy⟩ := hq
      rw [hy] at hrec ⊢
      rw [List.cons_append, skipSpace_nonspace 34 _ (by decide), ← List.cons_append, hrec]
      rfl

theorem parseValue_brace (fuel depth : Nat) (x : List Byte) :
    parseValue (fuel + 1) depth (123 :: x) =
      if depth + 1 > maxNestingDepth then none
      else
        match skipSpace x with
        | [] => none
        | c1 :: r1 =>
          if c1 = 125 then some (JValue.object [], r1)
          else
            match parseMembers fuel (depth + 1) (c1 :: r1) with
            | none => none
            | some (ms, r) => some (JValue.object ms, r) := by
  rw [parseValue]
  simp only [if_neg (show ¬ ((123 : Byte) = 34) by decide),
    if_neg (show ¬ ((123 : Byte) = 91) by decide), if_true]

/-- An indented object is read as the object of its keys, coerced to valid UTF-8, with what
its values are read as. -/
theorem parsesTo_object (k d : Nat) (triples : List (GoString × List Byte × JValue))
    (hne : triples ≠ []) (hall : ∀ t ∈ triples, ParsesTo k t.2.1 t.2.2) :
    ParsesTo (k + 1) (encodeObject d (triples.map (fun t => (appendString t.1, t.2.1))))
      (JValue.object (triples.map (fun t => (coerceUTF8 t.1, t.2.2)))) := by
  refine ⟨⟨123, _, rfl, by decide, by decide⟩, ?_⟩
  intro fuel depth rest hf hd _
  obtain ⟨f, rfl⟩ : ∃ f, fuel = f + 1 := ⟨fuel - 1, by omega⟩
  have hmap : (triples.map (fun t => (appendString t.1, t.2.1))).map
      (fun m => m.1 ++ 58 :: 32 :: m.2) = triples.map memberText := by
    rw [List.map_map]; rfl
  have hbody : encodeObject d (triples.map (fun t => (appendString t.1, t.2.1))) ++ rest =
      123 :: (appendNewline (d + 1) ++
        (joinItems (d + 1) (triples.map memberText) ++ (appendNewline d ++ 125 :: rest))) := by
    simp [encodeObject, hmap]
  have hlen : (encodeObject d (triples.map (fun t => (appendString t.1, t.2.1)))).length =
      (joinItems (d + 1) (triples.map memberText)).length + (appendNewline (d + 1)).length
        + (appendNewline d).length + 2 := by
    simp [encodeObject, hmap]; omega
  rw [hbody, parseValue_brace, if_neg (by omega), skipSpace_appendNewline]
  have hrec := parseMembers_joinItems k (d + 1) d triples hne hall f (depth + 1) rest
    (by omega) (by omega)
  have hq : ∃ y, joinItems (d + 1) (triples.map memberText) = 34 :: y := by
    cases triples with
    | nil => exact absurd rfl hne
    | cons t ts =>
      cases ts with
      | nil => exact ⟨_, rfl⟩
      | cons t3 ts3 => exact ⟨_, rfl⟩
  obtain ⟨y, hy⟩ := hq
  rw [hy] at hrec ⊢
  rw [List.cons_append, skipSpace_nonspace 34 _ (by decide)]
  simp only [if_neg (show ¬ ((34 : Byte) = 125) by decide)]
  rw [← List.cons_append, hrec]

/-! ## The encoding of characters: read back -/

theorem ParsesTo.mono {k : Nat} {item : List Byte} {v : JValue} (h : ParsesTo k item v)
    (k' : Nat) (hk : k ≤ k') : ParsesTo k' item v :=
  ⟨h.1, fun fuel depth rest hf hd hr => h.2 fuel depth rest hf (by omega) hr⟩

/-- The encoding of a `[]string` field is read as its syntax tree. -/
theorem parsesTo_strings (d : Nat) (s : Slice GoString) :
    ParsesTo 1 (encodeStrings d s) (stringsValue s) := by
  cases s with
  | none => exact parsesTo_null.mono 1 (by omega)
  | some xs =>
    show ParsesTo (0 + 1) (encodeArray d (xs.map appendString))
      (JValue.array (xs.map (fun x => JValue.string (coerceUTF8 x))))
    apply parsesTo_array
    induction xs with
    | nil => exact List.Forall₂.nil
    | cons x xs ih => exact List.Forall₂.cons (parsesTo_string x) ih

/-- The encoding of a `Character` is read as its syntax tree. -/
theorem parsesTo_character (d : Nat) (c : Character) :
    ParsesTo 2 (encodeCharacter d c) (characterValue c) := by
  have h := parsesTo_object 1 d (characterTriples (d + 1) c) (by simp [characterTriples]) (by
    intro t ht
    simp only [characterTriples, List.mem_cons, List.mem_singleton, List.not_mem_nil,
      or_false] at ht
    rcases ht with h | h | h | h | h | h | h | h | h | h | h | h | h | h | h | h | h | h | h | h
    all_goals subst h
    all_goals first
      | exact (parsesTo_string _).mono 1 (by omega)
      | exact (parsesTo_int _).mono 1 (by omega)
      | exact parsesTo_strings _ _)
  exact h

/-- The encoding of a `[]Character` is read as its syntax tree. -/
theorem parsesTo_characters (cs : Slice Character) :
    ParsesTo 3 (MarshalIndent cs) (charactersValue cs) := by
  cases cs with
  | none => exact parsesTo_null.mono 3 (by omega)
  | some xs =>
    show ParsesTo (2 + 1) (encodeArray 0 (xs.map (encodeCharacter 1)))
      (JValue.array (xs.map characterValue))
    apply parsesTo_array
    induction xs with
    | nil => exact List.Forall₂.nil
    | cons x xs ih => exact List.Forall₂.cons (parsesTo_character 1 x) ih

/-- The text `MarshalIndent` writes passes `checkValid` and is delimited as its syntax
tree. -/
theorem parseDocument_MarshalIndent (cs : Slice Character) :
    parseDocument (MarshalIndent cs) = some (charactersValue cs) := by
  obtain ⟨⟨c, t, hdata, hc, _⟩, hparse⟩ := parsesTo_characters cs
  have hp := hparse (2 * (MarshalIndent cs).length + 1) 0 [] (by omega) (by decide) (Or.inl rfl)
  rw [List.append_nil] at hp
  unfold parseDocument
  have hs : skipSpace (MarshalIndent cs) = MarshalIndent cs := by
    rw [hdata]; exact skipSpace_nonspace c t hc
  rw [hs, hp]
  rfl

/-! ## Storing the syntax tree of an encoding -/

theorem ParseInt_FormatInt (n : Int) (h : InIntRange n) : ParseInt (FormatInt n) = (n, none) :=
  (ParseInt_spec (FormatInt n)).1 n (decimalValue_FormatInt n) h

theorem storeInt_FormatInt (cur n : Int) (h : InIntRange n) :
    storeInt cur (JValue.number (FormatInt n)) = (n, false) := by
  simp [storeInt, ParseInt_FormatInt n h]

theorem storeElems_strings (xs : List GoString) :
    storeElems storeString [] [] (xs.map (fun x => JValue.string (coerceUTF8 x)))
      = (xs.map coerceUTF8, false) := by
  induction xs with
  | nil => rfl
  | cons x xs ih =>
    simp only [List.map_cons, storeElems, List.tail_nil, ih]
    rfl

theorem storeStrings_value (s : Slice GoString) :
    storeStrings none (stringsValue s) = (coerceStrings s, false) := by
  cases s with
  | none => rfl
  | some xs =>
    simp only [stringsValue, storeStrings, Slice.toList, storeElems_strings]
    rfl

theorem fieldOfKey_tags :
    fieldOfKey (coerceUTF8 (ascii "name")) = some Field.Name ∧
    fieldOfKey (coerceUTF8 (ascii "race")) = some Field.Race ∧
    fieldOfKey (coerceUTF8 (ascii "class")) = some Field.Class ∧
    fieldOfKey (coerceUTF8 (ascii "level")) = some Field.Level ∧
    fieldOfKey (coerceUTF8 (ascii "background")) = some Field.Background ∧
    fieldOfKey (coerceUTF8 (ascii "strength")) = some Field.Strength ∧
    fieldOfKey (coerceUTF8 (ascii "dexterity")) = some Field.Dexterity ∧
    fieldOfKey (coerceUTF8 (ascii "constitution")) = some Field.Constitution ∧
    fieldOfKey (coerceUTF8 (ascii "intelligence")) = some Field.Intelligence ∧
    fieldOfKey (coerceUTF8 (ascii "wisdom")) = some Field.Wisdom ∧
    fieldOfKey (coerceUTF8 (ascii "charisma")) = some Field.Charisma ∧
    fieldOfKey (coerceUTF8 (ascii "alignment")) = some Field.Alignment ∧
    fieldOfKey (coerceUTF8 (ascii "experience")) = some Field.Experience ∧
    fieldOfKey (coerceUTF8 (ascii "hitPoints")) = some Field.HitPoints ∧
    fieldOfKey (coerceUTF8 (ascii "armorClass")) = some Field.ArmorClass ∧
    fieldOfKey (coerceUTF8 (ascii "initiative")) = some Field.Initiative ∧
    fieldOfKey (coerceUTF8 (ascii "speed")) = some Field.Speed ∧
    fieldOfKey (coerceUTF8 (ascii "proficiencies")) = some Field.Proficiencies ∧
    fieldOfKey (coerceUTF8 (ascii "languages")) = some Field.Languages ∧
    fieldOfKey (coerceUTF8 (ascii "equipment")) = some Field.Equipment := by
  set_option maxRecDepth 100000 in
  decide

theorem storeMembers_step (c c' : Character) (key : GoString) (v : JValue)
    (rest : List (GoString × JValue)) (f : Field) (h : fieldOfKey key = some f)
    (hs : storeField f c v = (c', false)) :
    storeMembers c ((key, v) :: rest) = storeMembers c' rest := by
  rw [storeMembers]
  simp only [h, hs, Bool.false_or]

theorem storeField_string_Name (c : Character) (x : GoString) :
    storeField Field.Name c (JValue.string x) = ({ c with Name := x }, false) := rfl

theorem storeField_string_Race (c : Character) (x : GoString) :
    storeField Field.Race c (JValue.string x) = ({ c with Race := x }, false) := rfl

theorem storeField_string_Class (c : Character) (x : GoString) :
    storeField Field.Class c (JValue.string x) = ({ c with Class := x }, false) := rfl

theorem storeField_int_Level (c : Character) (n : Int) (h : InIntRange n) :
    storeField Field.Level c (JValue.number (FormatInt n)) = ({ c with Level := n }, false) := by
  simp only [storeField, storeInt_FormatInt _ _ h]

theorem storeField_string_Background (c : Character) (x : GoString) :
    storeField Field.Background c (JValue.string x) = ({ c with Background := x }, false) := rfl

theorem storeField_int_Strength (c : Character) (n : Int) (h : InIntRange n) :
    storeField Field.Strength c (JValue.number (FormatInt n)) = ({ c with Strength := n }, false) := by
  simp only [storeField, storeInt_FormatInt _ _ h]

theorem storeField_int_Dexterity (c : Character) (n : Int) (h : InIntRange n) :
    storeField Field.Dexterity c (JValue.number (FormatInt n)) = ({ c with Dexterity := n }, false) := by
  simp only [storeField, storeInt_FormatInt _ _ h]

theorem storeField_int_Constitution (c : Character) (n : Int) (h : InIntRange n) :
    storeField Field.Constitution c (JValue.number (FormatInt n)) = ({ c with Constitution := n }, false) := by
  simp only [storeField, storeInt_FormatInt _ _ h]

theorem storeField_int_Intelligence (c : Character) (n : Int) (h : InIntRange n) :
    storeField Field.Intelligence c (JValue.number (FormatInt n)) = ({ c with Intelligence := n }, false) := by
  simp only [storeField, storeInt_FormatInt _ _ h]

theorem storeField_int_Wisdom (c : Character) (n : Int) (h : InIntRange n) :
    storeField Field.Wisdom c (JValue.number (FormatInt n)) = ({ c with Wisdom := n }, false) := by
  simp only [storeField, storeInt_FormatInt _ _ h]

theorem storeField_int_Charisma (c : Character) (n : Int) (h : InIntRange n) :
    storeField Field.Charisma c (JValue.number (FormatInt n)) = ({ c with Charisma := n }, false) := by
  simp only [storeField, storeInt_FormatInt _ _ h]

theorem storeField_string_Alignment (c : Character) (x : GoString) :
    storeField Field.Alignment c (JValue.string x) = ({ c with Alignment := x }, false) := rfl

theorem storeField_int_Experience (c : Character) (n : Int) (h : InIntRange n) :
    storeField Field.Experience c (JValue.number (FormatInt n)) = ({ c with Experience := n }, false) := by
  simp only [storeField, storeInt_FormatInt _ _ h]

theorem storeField_int_HitPoints (c : Character) (n : Int) (h : InIntRange n) :
    storeField Field.HitPoints c (JValue.number (FormatInt n)) = ({ c with HitPoints := n }, false) := by
  simp only [storeField, storeInt_FormatInt _ _ h]

theorem storeField_int_ArmorClass (c : Character) (n : Int) (h : InIntRange n) :
    storeField Field.ArmorClass c (JValue.number (FormatInt n)) = ({ c with ArmorClass := n }, false) := by
  simp only [storeField, storeInt_FormatInt _ _ h]

theorem storeField_int_Initiative (c : Character) (n : Int) (h : InIntRange n) :
    storeField Field.Initiative c (JValue.number (FormatInt n)) = ({ c with Initiative := n }, false) := by
  simp only [storeField, storeInt_FormatInt _ _ h]

theorem storeField_int_Speed (c : Character) (n : Int) (h : InIntRange n) :
    storeField Field.Speed c (JValue.number (FormatInt n)) = ({ c with Speed := n }, false) := by
  simp only [storeField, storeInt_FormatInt _ _ h]

theorem storeField_strings_Proficiencies (c : Character) (s : Slice GoString)
    (h : c.Proficiencies = none) :
    storeField Field.Proficiencies c (stringsValue s) = ({ c with Proficiencies := coerceStrings s }, false) := by
  simp only [storeField, h, storeStrings_value]

theorem storeField_strings_Languages (c : Character) (s : Slice GoString)
    (h : c.Languages = none) :
    storeField Field.Languages c (stringsValue s) = ({ c with Languages := coerceStrings s }, false) := by
  simp only [storeField, h, storeStrings_value]

theorem storeField_strings_Equipment (c : Character) (s : Slice GoString)
    (h : c.Equipment = none) :
    storeField Field.Equipment c (stringsValue s) = ({ c with Equipment := coerceStrings s }, false) := by
  simp only [storeField, h, storeStrings_value]

/-- Storing the syntax tree of the encoding of a record into the zero record gives the
record with its strings coerced to valid UTF-8, without a type error. -/
theorem storeCharacter_value (c : Character) (h : c.IntsInRange) :
    storeCharacter Character.zero (characterValue c) = (coerceCharacter c, false) := by
  obtain ⟨k1, k2, k3, k4, k5, k6, k7, k8, k9, k10, k11, k12, k13, k14, k15, k16, k17, k18, k19,
    k20⟩ := fieldOfKey_tags
  obtain ⟨i1, i2, i3, i4, i5, i6, i7, i8, i9, i10, i11, i12⟩ := h
  show storeMembers Character.zero _ = _
  simp only [characterTriples, List.map_cons, List.map_nil]
  rw [storeMembers_step _ _ _ _ _ _ k1 (storeField_string_Name _ _)]
  rw [storeMembers_step _ _ _ _ _ _ k2 (storeField_string_Race _ _)]
  rw [storeMembers_step _ _ _ _ _ _ k3 (storeField_string_Class _ _)]
  rw [storeMembers_step _ _ _ _ _ _ k4 (storeField_int_Level _ _ i1)]
  rw [storeMembers_step _ _ _ _ _ _ k5 (storeField_string_Background _ _)]
  rw [storeMembers_step _ _ _ _ _ _ k6 (storeField_int_Strength _ _ i2)]
  rw [storeMembers_step _ _ _ _ _ _ k7 (storeField_int_Dexterity _ _ i3)]
  rw [storeMembers_step _ _ _ _ _ _ k8 (storeField_int_Constitution _ _ i4)]
  rw [storeMembers_step _ _ _ _ _ _ k9 (storeField_int_Intelligence _ _ i5)]
  rw [storeMembers_step _ _ _ _ _ _ k10 (storeField_int_Wisdom _ _ i6)]
  rw [storeMembers_step _ _ _ _ _ _ k11 (storeField_int_Charisma _ _ i7)]
  rw [storeMembers_step _ _ _ _ _ _ k12 (storeField_string_Alignment _ _)]
  rw [storeMembers_step _ _ _ _ _ _ k13 (storeField_int_Experience _ _ i8)]
  rw [storeMembers_step _ _ _ _ _ _ k14 (storeField_int_HitPoints _ _ i9)]
  rw [storeMembers_step _ _ _ _ _ _ k15 (storeField_int_ArmorClass _ _ i10)]
  rw [storeMembers_step _ _ _ _ _ _ k16 (storeField_int_Initiative _ _ i11)]
  rw [storeMembers_step _ _ _ _ _ _ k17 (storeField_int_Speed _ _ i12)]
  rw [storeMembers_step _ _ _ _ _ _ k18 (storeField_strings_Proficiencies _ _ rfl)]
  rw [storeMembers_step _ _ _ _ _ _ k19 (storeField_strings_Languages _ _ rfl)]
  rw [storeMembers_step _ _ _ _ _ _ k20 (storeField_strings_Equipment _ _ rfl)]
  rfl

theorem storeElems_characters (xs : List Character) (h : ∀ c ∈ xs, c.IntsInRange) :
    storeElems storeCharacter Character.zero [] (xs.map characterValue)
      = (xs.map coerceCharacter, false) := by
  induction xs with
  | nil => rfl
  | cons x xs ih =>
    simp only [List.map_cons, storeElems, List.tail_nil, List.headD_nil,
      ih (fun c hc => h c (List.mem_cons_of_mem _ hc)),
      storeCharacter_value x (h x (List.mem_cons_self _ _)), Bool.or_false]

/-- Decoding what `MarshalIndent` wrote for a collection gives the collection with its
strings coerced to valid UTF-8, and no error. -/
theorem Unmarshal_MarshalIndent (cs : Slice Character) (h : ∀ c ∈ cs.toList, c.IntsInRange) :
    Unmarshal (MarshalIndent cs) = (coerceCharacters cs, false) := by
  unfold Unmarshal
  rw [parseDocument_MarshalIndent]
  cases cs with
  | none => rfl
  | some xs =>
    simp only [charactersValue, storeCharacters, Slice.toList, storeElems_characters xs h]
    rfl

/-! ## The round trip through the snapshot file -/

theorem validLoop_cons (fuel : Nat) (b : Byte) (rest : List Byte) :
    validLoop (fuel + 1) (b :: rest) =
      if b.val < 0x80 then validLoop fuel rest
      else if (DecodeRuneInString (b :: rest)).1 = RuneError ∧
          (DecodeRuneInString (b :: rest)).2 = 1 then false
      else validLoop fuel ((b :: rest).drop (DecodeRuneInString (b :: rest)).2) := rfl

theorem coerceLoop_valid (fuel : Nat) : ∀ s : GoString, validLoop fuel s = true →
    coerceLoop fuel s = s := by
  induction fuel with
  | zero =>
    intro s h
    simp only [validLoop, decide_eq_true_eq] at h
    subst h
    rfl
  | succ fuel ih =>
    intro s h
    cases s with
    | nil => rfl
    | cons b rest =>
      rw [validLoop_cons] at h
      rw [coerceLoop_cons]
      by_cases hb : b.val < 0x80
      · rw [if_pos hb] at h ⊢
        rw [ih rest h]
      · rw [if_neg hb] at h ⊢
        by_cases hv : (DecodeRuneInString (b :: rest)).1 = RuneError ∧
            (DecodeRuneInString (b :: rest)).2 = 1
        · rw [if_pos hv] at h; cases h
        · rw [if_neg hv] at h ⊢
          rw [ih _ h, List.take_append_drop]

/-- Coercion leaves a valid string as it is. -/
theorem coerceUTF8_valid (s : GoString) (h : ValidString s = true) : coerceUTF8 s = s :=
  coerceLoop_valid s.length s h

theorem coerceStrings_valid (s : Slice GoString) (h : validStrings s = true) :
    coerceStrings s = s := by
  cases s with
  | none => rfl
  | some xs =>
    simp only [validStrings, Slice.toList, List.all_eq_true] at h
    simp only [coerceStrings]
    congr 1
    conv => rhs; rw [← List.map_id xs]
    exact List.map_congr_left (fun x hx => coerceUTF8_valid x (h x hx))

theorem coerceCharacter_valid (c : Character) (h : c.ValidText) : coerceCharacter c = c := by
  obtain ⟨h1, h2, h3, h4, h5, h6, h7, h8⟩ := h
  simp only [coerceCharacter, coerceUTF8_valid _ h1, coerceUTF8_valid _ h2,
    coerceUTF8_valid _ h3, coerceUTF8_valid _ h4, coerceUTF8_valid _ h5,
    coerceStrings_valid _ h6, coerceStrings_valid _ h7, coerceStrings_valid _ h8]

theorem coerceCharacters_valid (cs : Slice Character) (h : ∀ c ∈ cs.toList, c.ValidText) :
    coerceCharacters cs = cs := by
  cases cs with
  | none => rfl
  | some xs =>
    simp only [coerceCharacters]
    congr 1
    conv => rhs; rw [← List.map_id xs]
    exact List.map_congr_left (fun x hx => coerceCharacter_valid x (h x hx))

/-- Loading after a successful save gives the collection saved, with its strings coerced to
valid UTF-8. -/
theorem load_save (cs : Slice Character) (file : File)
    (h : ∀ c ∈ cs.toList, c.IntsInRange) :
    loadCharacters Unmarshal (saveCharacters marshalCharacters cs WriteOutcome.ok file)
      = coerceCharacters cs := by
  simp only [saveCharacters, marshalCharacters, loadCharacters, Unmarshal_MarshalIndent cs h]
  rfl

/-- The zero record is a value of the type: its integers fit `int`. -/
theorem Character.zero_IntsInRange : Character.zero.IntsInRange := by
  simp only [Character.IntsInRange, Character.zero]
  decide

/-- C3, as stated, fails: a record whose name is the single byte 0xFF, which is not valid
UTF-8, is saved and loaded back with the three bytes of U+FFFD as its name. -/
theorem roundtrip_invalid_utf8 :
    loadCharacters Unmarshal
        (saveCharacters marshalCharacters (some [{ Character.zero with Name := [0xFF] }])
          WriteOutcome.ok none)
      = some [{ Character.zero with Name := [0xEF, 0xBF, 0xBD] }] ∧
    (some [{ Character.zero with Name := [0xEF, 0xBF, 0xBD] }] : Slice Character)
      ≠ some [{ Character.zero with Name := [0xFF] }] := by
  constructor
  · rw [load_save _ _ (by
      intro c hc
      simp only [Slice.toList, List.mem_singleton] at hc
      subst hc
      exact Character.zero_IntsInRange)]
    decide
  · decide

/-- C3 amended: for every collection of records whose integers are values of `int`, when
`saveCharacters` succeeds a following `loadCharacters` returns the collection with every
string coerced to valid UTF-8, so the same collection, in length, in every field of every
record and in order, when its strings are valid UTF-8; a nil slice comes back nil and an
empty one empty.  What is written is a JSON array with one object for each record, and each
object has all twenty keys in field order, the three collection fields included whether
they are empty or not. -/
theorem save_load_roundtrip (cs : Slice Character) (file : File)
    (hInts : ∀ c ∈ cs.toList, c.IntsInRange) :
    loadCharacters Unmarshal (saveCharacters marshalCharacters cs WriteOutcome.ok file)
      = coerceCharacters cs ∧
    ((∀ c ∈ cs.toList, c.ValidText) →
      loadCharacters Unmarshal (saveCharacters marshalCharacters cs WriteOutcome.ok file) = cs) ∧
    (∀ data, saveCharacters marshalCharacters cs WriteOutcome.ok file = some data →
      parseDocument data = some (charactersValue cs)) ∧
    (∀ c : Character, ∃ values : List JValue,
      characterValue c = JValue.object ((Field.all.map (fun f => ascii f.tag)).zip values) ∧
      values.length = 20) := by
  have h1 := load_save cs file hInts
  refine ⟨h1, ?_, ?_, ?_⟩
  · intro hv
    rw [h1, coerceCharacters_valid cs hv]
  · intro data hd
    simp only [saveCharacters, marshalCharacters, Option.some.injEq] at hd
    rw [← hd]
    exact parseDocument_MarshalIndent cs
  · intro c
    refine ⟨(characterTriples 0 c).map (fun t => t.2.2), ?_, rfl⟩
    have hk : ∀ f ∈ Field.all, coerceUTF8 (ascii f.tag) = ascii f.tag := by decide
    simp only [characterValue, characterTriples, Field.all, Field.tag, List.map_cons,
      List.map_nil, List.zip_cons_cons, List.zip_nil_right]
    simp only [Field.all, List.mem_cons, List.mem_singleton, forall_eq_or_imp, forall_eq,
      Field.tag, List.not_mem_nil] at hk
    simp only [hk]

theorem named_IntsInRange (name : String) : (named name).IntsInRange := by
  simp only [Character.IntsInRange, named, Character.zero]
  decide

/-- C3 amended at the example of the specification: one character with a name and nothing
else, its three collection fields empty, comes back as it was saved. -/
theorem save_load_roundtrip_witness :
    loadCharacters Unmarshal
        (saveCharacters marshalCharacters (some [named "Aria"]) WriteOutcome.ok none)
      = some [named "Aria"] ∧
    (named "Aria").Proficiencies = none ∧ (named "Aria").Languages = none ∧
    (named "Aria").Equipment = none :=
  ⟨(save_load_roundtrip (some [named "Aria"]) none (by
      intro c hc
      simp only [Slice.toList, List.mem_singleton] at hc
      subst hc
      exact named_IntsInRange "Aria")).2.1 (by
      intro c hc
      simp only [Slice.toList, List.mem_singleton] at hc
      subst hc
      simp only [Character.ValidText, named, Character.zero]
      decide),
   rfl, rfl, rfl⟩

/-- C7 at a delete of the first of two characters with a successful write: the file then
holds the encoding of the one character left, and memory and file still agree after a view
that follows. -/
theorem persistence_after_mutation_witness :
    (mainStep marshalCharacters
        ⟨ascii "delete", CreateInputs.plain, ascii "1", WriteOutcome.ok⟩
        ⟨some [named "Aria", named "Borin"], none, false⟩).map (fun st => (st.characters, st.file))
      = some (some [named "Borin"], some (MarshalIndent (some [named "Borin"]))) ∧
    (∃ st', mainLoop marshalCharacters
        [⟨ascii "delete", CreateInputs.plain, ascii "1", WriteOutcome.ok⟩,
         ⟨ascii "view", CreateInputs.plain, [], WriteOutcome.ok⟩]
        ⟨some [named "Aria", named "Borin"], none, false⟩ = some st' ∧
      InSync marshalCharacters st') := by
  have hstep : mainStep marshalCharacters
      ⟨ascii "delete", CreateInputs.plain, ascii "1", WriteOutcome.ok⟩
      ⟨some [named "Aria", named "Borin"], none, false⟩ =
      some ⟨deleteCharacter (some [named "Aria", named "Borin"]) (ascii "1"),
        saveCharacters marshalCharacters
          (deleteCharacter (some [named "Aria", named "Borin"]) (ascii "1"))
          WriteOutcome.ok none, false⟩ := by
    unfold mainStep
    rw [if_neg (by decide), if_neg (by decide), if_pos (by decide)]
  have hc : deleteCharacter (some [named "Aria", named "Borin"]) (ascii "1")
      = some [named "Borin"] := by decide
  have hfile := ((persistence_after_mutation marshalCharacters).1 _ _ _ hstep (Or.inl rfl)).2 rfl
    (MarshalIndent (some [named "Borin"])) (by
      show marshalCharacters (deleteCharacter (some [named "Aria", named "Borin"]) (ascii "1")) = _
      rw [hc]; rfl)
  constructor
  · rw [hstep]
    simp only [Option.map_some'] at hfile ⊢
    rw [hfile, hc]
  · have hview : ∀ st : State, mainStep marshalCharacters
        ⟨ascii "view", CreateInputs.plain, [], WriteOutcome.ok⟩ st = some st := by
      intro st
      unfold mainStep
      rw [if_neg (by decide), if_pos (by decide)]
    have hloop : mainLoop marshalCharacters
        [⟨ascii "delete", CreateInputs.plain, ascii "1", WriteOutcome.ok⟩,
         ⟨ascii "view", CreateInputs.plain, [], WriteOutcome.ok⟩]
        ⟨some [named "Aria", named "Borin"], none, false⟩ =
        some ⟨deleteCharacter (some [named "Aria", named "Borin"]) (ascii "1"),
          saveCharacters marshalCharacters
            (deleteCharacter (some [named "Aria", named "Borin"]) (ascii "1"))
            WriteOutcome.ok none, false⟩ := by
      simp only [mainLoop, hstep, hview, Bool.false_eq_true, if_false]
    refine ⟨_, hloop, ?_⟩
    exact (persistence_after_mutation marshalCharacters).2.2.2.2 _ _ _ _ (fun _ => rfl)
      (Or.inl rfl) rfl (by
        intro j hj
        simp only [List.mem_cons, List.mem_singleton, List.not_mem_nil, or_false] at hj
        rcases hj with rfl | rfl <;> rfl) hloop

/-- C6 at a snapshot whose content is a JSON array of a null and a number: the decoder
stores two records and reports a type error, and the collection loaded is empty. -/
theorem loadCharacters_failure_witness :
    (Unmarshal (ascii "[null, 3]")).2 = true ∧
    (Unmarshal (ascii "[null, 3]")).1 = some [Character.zero, Character.zero] ∧
    loadCharacters Unmarshal (some (ascii "[null, 3]")) = some [] :=
  ⟨by decide, by decide,
   ((loadCharacters_failure Unmarshal).2.1 (ascii "[null, 3]") (by decide)).1⟩

end Dnd
